import Mathlib

/-!
Commit graph and versioning layer of dolt, and the code around it.

A shallow embedding of `go/libraries/doltcore/doltdb/doltdb.go` and
`go/libraries/doltcore/env/actions/commit.go`, and of the data locations, the row diff
source, the ordered sequences of the store, the SQL export writer, the arguments of
`put-row`, the hard reset and the cache of chunk stores, each in a namespace of its own.

* Go functions that return `(T, error)` become functions into `Except Err T`.
* A Go panic is the error `Err.panicked`; a recursion that runs out of fuel is
  `Err.outOfFuel`.
* The database handle `ddb.db` is an explicit `Database` value; operations that
  may move a ref return the database they leave behind together with their result.
-/

namespace Dolt

deriving instance DecidableEq for Except

/-- Content address of a value (`hash.Hash`). -/
abbrev Hash := Nat

/-- Errors of the versioning layer. The first four are the package level error values of
`doltdb`; `other` is an `errors.New` value, `panicked` a Go panic. -/
inductive Err where
  | ErrBranchNotFound
  | ErrHashNotFound
  | ErrFoundHashNotACommit
  | ErrInvalidAnscestorSpec
  | other (msg : String)
  | panicked (msg : String)
  | outOfFuel
  deriving DecidableEq, Repr

/-- Commit metadata, `{name, email, timestamp, description}`. -/
structure CommitMeta where
  Name : String
  Email : String
  Timestamp : Nat
  Description : String
  deriving DecidableEq, Repr

/-- A noms struct (`types.Struct`): its name and, for a struct named `Commit`, the three
fields of a commit. `parents` lists the targets of the refs of the parent set in the
iteration order of that set. -/
structure Struct where
  name : String
  parents : List Hash
  commitMeta : CommitMeta
  value : Hash
  deriving DecidableEq, Repr

/-- A stored value (`types.Value`): a struct, or a value of any other kind. -/
inductive Value where
  | struct (st : Struct)
  | other (n : Nat)
  deriving DecidableEq, Repr

/-- A `Commit{vrw, commitSt}`: the database handle is passed separately. -/
abbrev Commit := Struct

def CommitStructName : String := "Commit"

/-- Name of the struct that holds a root value; declared in `root_val.go`. -/
def ddbRootStructName : String := "dolt_db_root"

/-- The noms database behind a `DoltDB`.
* `hashOf v` is the target hash of `types.NewRef(v, db.Format())`;
* `parsePath s` is `spec.NewAbsolutePath(s)`, the address a `#hash` string names;
* `values h` is `db.ReadValue(h)`, `none` standing for a nil value;
* `datasets id` is the head of `db.GetDataset(id)`, `none` when it has no head. -/
structure Database where
  hashOf : Value → Hash
  parsePath : String → Except Err Hash
  values : Hash → Option Value
  datasets : String → Option Struct

/-- A dataset handle: its id and its head commit, if any. -/
structure Dataset where
  id : String
  head : Option Struct
  deriving DecidableEq, Repr

def Database.GetDataset (db : Database) (id : String) : Dataset :=
  { id := id, head := db.datasets id }

def Dataset.MaybeHead (ds : Dataset) : Option Struct := ds.head

def Dataset.HasHead (ds : Dataset) : Bool := ds.head.isSome

/-- `types.NewRef(st, db.Format())`, a ref is represented by its target hash. -/
def NewRef (db : Database) (st : Struct) : Hash := db.hashOf (.struct st)

def Dataset.MaybeHeadRef (db : Database) (ds : Dataset) : Option Hash :=
  ds.head.map (NewRef db)

inductive RefType where
  | BranchRefType
  | RemoteRefType
  | InternalRefType
  deriving DecidableEq, Repr

/-- A `ref.DoltRef`: the kind of ref and its path. -/
structure DoltRef where
  type : RefType
  path : String
  deriving DecidableEq, Repr

def DoltRef.GetType (r : DoltRef) : RefType := r.type

/-- `DoltRef.String()`, the id of the dataset the ref names. -/
def DoltRef.String (r : DoltRef) : String :=
  match r.type with
  | .BranchRefType => "refs/heads/" ++ r.path
  | .RemoteRefType => "refs/remotes/" ++ r.path
  | .InternalRefType => "refs/internal/" ++ r.path

/-- An ancestor spec: the parent index to take at each hop. -/
structure AncestorSpec where
  Instructions : List Nat
  deriving DecidableEq, Repr

inductive CommitSpecType where
  | HashCommitSpec
  | RefCommitSpec
  deriving DecidableEq, Repr

/-- A commit spec. `CommitStringer` holds the `String()` of the stringer: the hash text of
a hash spec, the dataset id of a ref spec. -/
structure CommitSpec where
  CommitStringer : String
  CSType : CommitSpecType
  ASpec : Option AncestorSpec
  deriving DecidableEq, Repr

/-- `Commit.NumParents`: the size of the parent set. -/
def NumParents (cm : Commit) : Except Err Nat := .ok cm.parents.length

/-- Modelled from the spec: `Commit.getParent` of `commit.go`, "selecting parent[i]". It
positions an iterator of the parent set at `idx`; when the set has no such element the
result is nil, otherwise the ref found there is read from the store. -/
def getParent (db : Database) (cm : Commit) (idx : Nat) : Except Err (Option Struct) :=
  match cm.parents[idx]? with
  | none => .ok none
  | some r =>
    match db.values r with
    | some (.struct st) => .ok (some st)
    | _ => .error (.panicked "interface conversion: types.Value is not types.Struct")

def getCommitStForRef (db : Database) (dref : String) : Except Err Struct :=
  let ds := db.GetDataset dref
  match ds.MaybeHead with
  | some dsHead => .ok dsHead
  | none => .error .ErrBranchNotFound

/-- The text handed to `spec.NewAbsolutePath`: `c` with a leading `#`. -/
def prefixed (c : String) : String :=
  match c.data with
  | '#' :: _ => c
  | _ => "#" ++ c

def getCommitStForHash (db : Database) (c : String) : Except Err Struct :=
  match db.parsePath (prefixed c) with
  | .error err => .error err
  | .ok ap =>
    match db.values ap with
    | none => .error .ErrHashNotFound
    | some (.other _) => .error .ErrFoundHashNotACommit
    | some (.struct valSt) =>
      if valSt.name ≠ CommitStructName then .error .ErrFoundHashNotACommit
      else .ok valSt

/-- The loop of `walkAncestorSpec` over the instructions that are left. -/
def walkInstructions (db : Database) : List Nat → Struct → Except Err Struct
  | [], commitSt => .ok commitSt
  | inst :: rest, commitSt =>
    match NumParents commitSt with
    | .error err => .error err
    | .ok numPars =>
      if inst < numPars then
        match getParent db commitSt inst with
        | .error err => .error err
        | .ok none => .error .ErrInvalidAnscestorSpec
        | .ok (some st) => walkInstructions db rest st
      else .error .ErrInvalidAnscestorSpec

def walkAncestorSpec (db : Database) (commitSt : Struct) (aSpec : Option AncestorSpec) :
    Except Err Struct :=
  match aSpec with
  | none => .ok commitSt
  | some a =>
    if a.Instructions.length = 0 then .ok commitSt
    else walkInstructions db a.Instructions commitSt

/-- The base commit of a commit spec: the first half of `Resolve`. -/
def baseCommit (db : Database) (cs : CommitSpec) : Except Err Struct :=
  match cs.CSType with
  | .HashCommitSpec => getCommitStForHash db cs.CommitStringer
  | .RefCommitSpec => getCommitStForRef db cs.CommitStringer

/-- `DoltDB.Resolve`: it locates the base commit of the spec, then walks its ancestor spec.
A nil spec panics. -/
def DoltDB.Resolve (db : Database) (cs : Option CommitSpec) : Except Err Commit :=
  match cs with
  | none => .error (.panicked "nil commit spec")
  | some cs =>
    match baseCommit db cs with
    | .error err => .error err
    | .ok commitSt =>
      match walkAncestorSpec db commitSt cs.ASpec with
      | .error err => .error err
      | .ok commitSt => .ok commitSt

/-- The parent at index `i` of a commit: the value its `i`-th parent ref points at. -/
def parentAt (db : Database) (c : Struct) (i : Nat) : Option Struct :=
  match c.parents[i]? with
  | none => none
  | some r =>
    match db.values r with
    | some (.struct st) => some st
    | _ => none

/-- Parent `i1` of `c`, then parent `i2` of that commit, and so on. -/
def followParents (db : Database) : Struct → List Nat → Option Struct
  | c, [] => some c
  | c, i :: rest =>
    match parentAt db c i with
    | none => none
    | some p => followParents db p rest

/-- Modelled from the spec: `Insert` on the editor of a `types.Set` of refs. A set holds
each element once and keeps its elements in increasing order. -/
def setInsert (r : Hash) (s : List Hash) : List Hash :=
  if r ∈ s then s else s.orderedInsert (· ≤ ·) r

structure CommitOptions where
  Parents : List Hash
  Meta : CommitMeta
  deriving DecidableEq, Repr

/-- The loop of `CommitWithParents` over `parentCmSpecs`, on the parent editor. -/
def insertParents (db : Database) : List (Option CommitSpec) → List Hash → Except Err (List Hash)
  | [], parentEditor => .ok parentEditor
  | parentCmSpec :: rest, parentEditor =>
    match DoltDB.Resolve db parentCmSpec with
    | .error err => .error err
    | .ok cs =>
      let rf := NewRef db cs
      insertParents db rest (setInsert rf parentEditor)

/-- The parent set `CommitWithParents` builds: the head ref of the dataset, if it has one,
then the ref of every resolved parent spec. -/
def commitParents (db : Database) (ds : Dataset) (parentCmSpecs : List (Option CommitSpec)) :
    Except Err (List Hash) :=
  let s : List Hash := []
  let parentEditor :=
    match ds.MaybeHeadRef db with
    | some headRef => setInsert headRef s
    | none => s
  insertParents db parentCmSpecs parentEditor

/-- Modelled from the spec: `datas.Database.Commit`, which "writes a new Commit value
referencing `valueHash`, and moves `ref` to point at it". The new commit refers to the
value `v` by a ref to it, is stored under its own address and becomes the head of the
dataset. -/
def Database.Commit (db : Database) (ds : Dataset) (v : Value) (opts : CommitOptions) :
    Database × Except Err Dataset :=
  let commitSt : Struct :=
    { name := CommitStructName, parents := opts.Parents, commitMeta := opts.Meta,
      value := db.hashOf v }
  let db1 : Database :=
    { db with
      values := fun h => if h = NewRef db commitSt then some (.struct commitSt) else db.values h
      datasets := fun id => if id = ds.id then some commitSt else db.datasets id }
  (db1, .ok (db1.GetDataset ds.id))

/-- `DoltDB.CommitWithParents`. The body runs under `pantoerr.PanicToError`, so a panic
inside it comes back as an error. Reading the value, the dataset and the parent specs
leaves the database as it is; only `db.Commit` returns a new one. -/
def DoltDB.CommitWithParents (db : Database) (valHash : Hash) (dref : DoltRef)
    (parentCmSpecs : List (Option CommitSpec)) (cm : CommitMeta) :
    Database × Except Err Commit :=
  match db.values valHash with
  | some (.struct st) =>
    if st.name ≠ ddbRootStructName then
      (db, .error (.other "can't commit a value that is not a valid root value"))
    else
      let ds := db.GetDataset dref.String
      match commitParents db ds parentCmSpecs with
      | .error err => (db, .error err)
      | .ok parents =>
        let commitOpts : CommitOptions := { Parents := parents, Meta := cm }
        let ds := db.GetDataset dref.String
        match db.Commit ds (.struct st) commitOpts with
        | (db1, .error err) => (db1, .error err)
        | (db1, .ok ds) =>
          match ds.MaybeHead with
          | none => (db1, .error (.other "commit has no head but commit succeeded (How?!?!?)"))
          | some commitSt => (db1, .ok commitSt)
  | _ => (db, .error (.other "can't commit a value that is not a valid root value"))

/-- `DoltDB.Commit`: it panics for a ref that is no branch. -/
def DoltDB.Commit (db : Database) (valHash : Hash) (dref : DoltRef) (cm : CommitMeta) :
    Database × Except Err Commit :=
  if dref.GetType ≠ .BranchRefType then
    (db, .error (.panicked "can't commit to ref that isn't branch atm.  will probably remove this."))
  else DoltDB.CommitWithParents db valHash dref [] cm

/-- Modelled from the spec: `datas.Database.Delete`, which removes the head of the
dataset. -/
def Database.Delete (db : Database) (ds : Dataset) : Database × Except Err Dataset :=
  let db1 : Database :=
    { db with datasets := fun id => if id = ds.id then none else db.datasets id }
  (db1, .ok (db1.GetDataset ds.id))

def DoltDB.DeleteBranch (db : Database) (dref : DoltRef) : Database × Except Err Unit :=
  let ds := db.GetDataset dref.String
  if !ds.HasHead then (db, .error .ErrBranchNotFound)
  else
    match db.Delete ds with
    | (db1, .error err) => (db1, .error err)
    | (db1, .ok _) => (db1, .ok ())


/-- `DoltDB.ResolveParent`, for an index `parentIdx ≥ 0`. The iterator of the parent set,
positioned at `parentIdx`, yields nil when the set has no such element; the type
assertions on the ref and on the value it points at panic when they fail. -/
def DoltDB.ResolveParent (db : Database) (commit : Dolt.Commit) (parentIdx : Nat) :
    Except Err Dolt.Commit :=
  let parentSet := commit.parents
  match parentSet[parentIdx]? with
  | none => .error (.panicked "interface conversion: interface is nil, not types.Ref")
  | some parentCommRef =>
    match db.values parentCommRef with
    | some (.struct parentCommitSt) => .ok parentCommitSt
    | _ => .error (.panicked "interface conversion: types.Value is not types.Struct")

/-- `Commit.HashOf`: the hash of the commit struct. -/
def Commit.HashOf (db : Database) (commit : Commit) : Hash := NewRef db commit

/-- A Go `map[hash.Hash]*doltdb.Commit`, held as its entries; no key occurs twice. -/
abbrev CommitMap := List (Hash × Commit)

/-- The keys of a map. -/
def CommitMap.keys (m : CommitMap) : List Hash := m.map Prod.fst

/-- The assignment `m[k] = v`: it replaces the entry of `k` or adds one. -/
def CommitMap.set (m : CommitMap) (k : Hash) (v : Commit) : CommitMap :=
  if k ∈ m.keys then m.map (fun e => if e.1 = k then (k, v) else e) else m ++ [(k, v)]

/-- The loop `for i := 0; i < numParents && len(hashToCommit) != n; i++` of `AddCommits`
over the indices `i` that are left; `recur` is the recursive call of `AddCommits`. -/
def addParentCommits (db : Database) (recur : Commit → CommitMap → Except Err CommitMap)
    (commit : Commit) (n : Int) : List Nat → CommitMap → Except Err CommitMap
  | [], hashToCommit => .ok hashToCommit
  | i :: rest, hashToCommit =>
    if (hashToCommit.length : Int) = n then .ok hashToCommit
    else
      match DoltDB.ResolveParent db commit i with
      | .error err => .error err
      | .ok parentCommit =>
        match recur parentCommit hashToCommit with
        | .error err => .error err
        | .ok hashToCommit1 => addParentCommits db recur commit n rest hashToCommit1

/-- `AddCommits`, the recursion bounded by `fuel`; it returns the map it has filled. -/
def AddCommits (db : Database) : Nat → Commit → CommitMap → Int → Except Err CommitMap
  | 0, _, _, _ => .error .outOfFuel
  | fuel + 1, commit, hashToCommit, n =>
    let hash := Commit.HashOf db commit
    let hashToCommit := hashToCommit.set hash commit
    match NumParents commit with
    | .error err => .error err
    | .ok numParents =>
      addParentCommits db (fun parentCommit m => AddCommits db fuel parentCommit m n)
        commit n (List.range numParents) hashToCommit

/-- The inner loop of the insertion sort that Go `sort.Slice` runs: `x` enters at the end
of the sorted run, held here last element first, and moves towards the front while it is
`less` than the element before it. -/
def sortSliceInsert {α : Type} (less : α → α → Bool) (x : α) : List α → List α
  | [] => [x]
  | p :: ps => if less x p then p :: sortSliceInsert less x ps else x :: p :: ps

/-- Go `sort.Slice(data, less)`, as insertion sort. -/
def sortSlice {α : Type} (less : α → α → Bool) (data : List α) : List α :=
  (data.foldl (fun run x => sortSliceInsert less x run) []).reverse

/-- `TimeSortedCommits`. The values of the map are read in the order of its entries, one
of the orders a Go map may be ranged over; every stored commit carries its metadata, so
`GetCommitMeta` does not fail and `sortErr` stays nil. -/
def TimeSortedCommits (fuel : Nat) (db : Database) (commit : Commit) (n : Int) :
    Except Err (List Commit) :=
  match AddCommits db fuel commit [] n with
  | .error err => .error err
  | .ok hashToCommit =>
    let uniqueCommits := hashToCommit.map Prod.snd
    .ok (sortSlice
      (fun ci cj => decide (ci.commitMeta.Timestamp > cj.commitMeta.Timestamp)) uniqueCommits)

/-- Modelled from the spec: the walk behind `Commit.CanFastForwardTo` of `commit.go`,
"the existing head is found while walking ancestors of the candidate commit". It reads
the parents of a commit in turn and looks for `target` among them and, through `recur`,
among their ancestors. -/
def searchParents (db : Database) (target : Struct) (recur : Struct → Except Err Bool) :
    List Hash → Except Err Bool
  | [] => .ok false
  | r :: rest =>
    match db.values r with
    | some (.struct p) =>
      if p = target then .ok true
      else
        match recur p with
        | .error err => .error err
        | .ok true => .ok true
        | .ok false => searchParents db target recur rest
    | _ => .error (.panicked "interface conversion: types.Value is not types.Struct")

/-- Modelled from the spec: `target` is found while walking the ancestors of `c`. -/
def ancestorFound (db : Database) (target : Struct) : Nat → Struct → Except Err Bool
  | 0, _ => .error .outOfFuel
  | fuel + 1, c => searchParents db target (ancestorFound db target fuel) c.parents

/-- Modelled from the spec: `Commit.CanFastForwardTo` of `commit.go`, true when the
commit `c`, the existing head, is found while walking the ancestors of `new`. -/
def Commit.CanFastForwardTo (db : Database) (fuel : Nat) (c new : Commit) : Except Err Bool :=
  ancestorFound db c fuel new

/-- Modelled from the spec: `NewCommitSpec("HEAD", cwb)` of `commit_spec.go`, the ref spec
of the current working branch with an empty ancestor spec. -/
def NewCommitSpecHEAD (cwb : String) : CommitSpec :=
  { CommitStringer := cwb, CSType := .RefCommitSpec, ASpec := some ⟨[]⟩ }

def DoltDB.CanFastForward (fuel : Nat) (db : Database) (branch : DoltRef)
    (new : Dolt.Commit) :
    Except Err Bool :=
  let currentSpec := NewCommitSpecHEAD branch.String
  match DoltDB.Resolve db (some currentSpec) with
  | .error err => if err = .ErrBranchNotFound then .ok true else .error err
  | .ok current => Commit.CanFastForwardTo db fuel current new

/-- Modelled from the spec: `datas.Database.FastForward`, which "succeeds only if `commit`
is a descendant of `ref`'s current head (or `ref` has no head yet); otherwise it is
rejected". The new head is read from the address the ref names. -/
def Database.FastForward (fuel : Nat) (db : Database) (ds : Dataset) (newHeadRef : Hash) :
    Database × Except Err Dataset :=
  match db.values newHeadRef with
  | some (.struct newHead) =>
    let db1 : Database :=
      { db with datasets := fun id => if id = ds.id then some newHead else db.datasets id }
    match ds.head with
    | none => (db1, .ok (db1.GetDataset ds.id))
    | some head =>
      match ancestorFound db head fuel newHead with
      | .error err => (db, .error err)
      | .ok true => (db1, .ok (db1.GetDataset ds.id))
      | .ok false => (db, .error (.other "merge needed"))
  | _ => (db, .error (.other "not a commit"))

def DoltDB.FastForward (fuel : Nat) (db : Database) (branch : DoltRef)
    (commit : Dolt.Commit) :
    Database × Except Err Unit :=
  let ds := db.GetDataset branch.String
  let rf := NewRef db commit
  match db.FastForward fuel ds rf with
  | (db1, .error err) => (db1, .error err)
  | (db1, .ok _) => (db1, .ok ())

/-- A parent link of the commit graph: some parent ref of `c` points at `p`. -/
def IsParent (db : Database) (c p : Struct) : Prop :=
  ∃ r ∈ c.parents, db.values r = some (.struct p)

/-- The commit `a` is reachable from `c` through parent links; `c` itself is. -/
def Reachable (db : Database) (c a : Struct) : Prop :=
  Relation.ReflTransGen (IsParent db) c a

/-- The commit `a` is an ancestor of `c`: reachable through one parent link or more. -/
def Ancestor (db : Database) (c a : Struct) : Prop :=
  Relation.TransGen (IsParent db) c a

/-- The history of `c` is finite, acyclic and stored: every parent ref of `c` points at a
commit struct in the store, and so on for each parent. -/
inductive Grounded (db : Database) : Struct → Prop
  | intro (c : Struct) :
      (∀ r ∈ c.parents, ∃ p, db.values r = some (.struct p)) →
      (∀ r p, r ∈ c.parents → db.values r = some (.struct p) → Grounded db p) →
      Grounded db c


/-- Every instruction is smaller than the number of parents of the commit reached so far. -/
def HopsInRange (db : Database) : Struct → List Nat → Prop
  | _, [] => True
  | c, i :: rest =>
    i < c.parents.length ∧ ∀ p, parentAt db c i = some p → HopsInRange db p rest

/-- The hash `h` is the hash of a commit reachable from `c`. -/
def ReachableHash (db : Database) (c : Struct) (h : Hash) : Prop :=
  ∃ a, Reachable db c a ∧ Commit.HashOf db a = h

/-- What one call of `AddCommits` on `c` does to the map when it takes `m` to `m1`: it
keeps the keys, adds only hashes of commits reachable from `c`, keeps the keys distinct,
does not pass the size `n`, holds all of the history of `c` unless it stopped at size
`n`, and holds `c`. -/
def WalkResult (db : Database) (n : Int) (c : Struct) (m m1 : CommitMap) : Prop :=
  (∀ h, h ∈ m.keys → h ∈ m1.keys) ∧
  (∀ h, h ∈ m1.keys → h ∈ m.keys ∨ ReachableHash db c h) ∧
  (m.keys.Nodup → m1.keys.Nodup) ∧
  (1 ≤ n → (m.length : Int) < n → (m1.length : Int) ≤ n) ∧
  ((m1.length : Int) ≠ n → ∀ h, ReachableHash db c h → h ∈ m1.keys) ∧
  Commit.HashOf db c ∈ m1.keys


/-- Every entry of the map is filed under the hash of its commit, and its commit is
reachable from `c0`. -/
def EntriesOK (db : Database) (c0 : Struct) (m : CommitMap) : Prop :=
  ∀ e ∈ m, e.1 = Commit.HashOf db e.2 ∧ Reachable db c0 e.2

/-! ## Example repository: the chain `exC3 → exC2 → exC1` on branch `master` -/

def exMeta (t : Nat) : CommitMeta :=
  { Name := "author", Email := "author@example.com", Timestamp := t, Description := "msg" }

def exRoot : Struct :=
  { name := ddbRootStructName, parents := [], commitMeta := exMeta 0, value := 0 }

def exC1 : Struct :=
  { name := CommitStructName, parents := [], commitMeta := exMeta 10, value := 100 }

def exC2 : Struct :=
  { name := CommitStructName, parents := [1], commitMeta := exMeta 20, value := 100 }

def exC3 : Struct :=
  { name := CommitStructName, parents := [2], commitMeta := exMeta 30, value := 100 }

/-- A sibling of `exC2`: a second child of `exC1`. -/
def exSide : Struct :=
  { name := CommitStructName, parents := [1], commitMeta := exMeta 25, value := 100 }

def exHashOf (v : Value) : Hash :=
  if v = .struct exC1 then 1
  else if v = .struct exC2 then 2
  else if v = .struct exC3 then 3
  else if v = .struct exSide then 4
  else if v = .struct exRoot then 100
  else if v = .other 7 then 7
  else 1000

def exValues (h : Hash) : Option Value :=
  if h = 1 then some (.struct exC1)
  else if h = 2 then some (.struct exC2)
  else if h = 3 then some (.struct exC3)
  else if h = 4 then some (.struct exSide)
  else if h = 100 then some (.struct exRoot)
  else if h = 7 then some (.other 7)
  else none

def exParsePath (s : String) : Except Err Hash :=
  if s = "#1" then .ok 1
  else if s = "#2" then .ok 2
  else if s = "#3" then .ok 3
  else if s = "#7" then .ok 7
  else if s = "#55" then .ok 55
  else if s = "#100" then .ok 100
  else .error (.other "invalid hash")

def exDb : Database :=
  { hashOf := exHashOf
    parsePath := exParsePath
    values := exValues
    datasets := fun id =>
      if id = "refs/heads/master" then some exC3
      else if id = "refs/heads/base" then some exC1
      else if id = "refs/heads/side" then some exSide
      else none }

def exMaster : DoltRef := { type := .BranchRefType, path := "master" }

/-- Parent specs for a merge commit: the head of `master`, then `exC2` twice. -/
def exSpecs : List (Option CommitSpec) :=
  [some ⟨"refs/heads/master", .RefCommitSpec, none⟩,
   some ⟨"2", .HashCommitSpec, none⟩,
   some ⟨"refs/heads/master", .RefCommitSpec, some ⟨[0]⟩⟩]

def exMerge : Struct :=
  { name := CommitStructName, parents := [2, 3], commitMeta := exMeta 40, value := 100 }

def exNext : Struct :=
  { name := CommitStructName, parents := [3], commitMeta := exMeta 40, value := 100 }

/-! ## Data locations (`go/libraries/doltcore/mvdata/data_loc.go`) -/

namespace mvdata

/-- `type DataFormat string`. -/
abbrev DataFormat := String

def InvalidDataFormat : DataFormat := "invalid"
def DoltDB : DataFormat := "doltdb"
def CsvFile : DataFormat := ".csv"
def PsvFile : DataFormat := ".psv"
def XlsxFile : DataFormat := ".xlsx"
def JsonFile : DataFormat := ".json"
def SqlFile : DataFormat := ".sql"

/-- Go `strings.ToLower`, on the letters `A` to `Z`. -/
def ToLower (s : String) : String := String.mk (s.data.map Char.toLower)

/-- The scan of Go `filepath.Ext`, from the last character of the path backwards: it stops
at a path separator and returns the suffix that starts at the first dot it meets. -/
def extScan : List Char → List Char → List Char
  | [], _ => []
  | c :: rest, suffix =>
    if c = '/' then []
    else if c = '.' then '.' :: suffix
    else extScan rest (c :: suffix)

/-- Go `filepath.Ext`: the extension of the last element of the path, with its dot. -/
def Ext (path : String) : String := String.mk (extScan path.data.reverse [])

def DFFromString (dfStr : String) : DataFormat :=
  let lower := ToLower dfStr
  if lower = "csv" ∨ lower = ".csv" then CsvFile
  else if lower = "psv" ∨ lower = ".psv" then PsvFile
  else if lower = "xlsx" ∨ lower = ".xlsx" then XlsxFile
  else if lower = "json" ∨ lower = ".json" then JsonFile
  else if lower = "sql" ∨ lower = ".sql" then SqlFile
  else InvalidDataFormat

structure DataLocation where
  Path : String
  Format : DataFormat
  deriving DecidableEq, Repr

/-- `NewDataLocation`; `IsValidTableName` is `doltdb.IsValidTableName`. A `switch` that
matches no case leaves `dataFmt` at its zero value, the empty string. -/
def NewDataLocation (IsValidTableName : String → Bool) (path fileFmtStr : String) :
    DataLocation :=
  let dataFmt : DataFormat :=
    if fileFmtStr = "" then
      if IsValidTableName path then DoltDB
      else
        let ext := ToLower (Ext path)
        if ext = CsvFile then CsvFile
        else if ext = PsvFile then PsvFile
        else if ext = XlsxFile then XlsxFile
        else if ext = JsonFile then JsonFile
        else if ext = SqlFile then SqlFile
        else ""
    else DFFromString fileFmtStr
  { Path := path, Format := dataFmt }

def DataLocation.IsFileType (dl : DataLocation) : Except Err Bool :=
  if dl.Format = DoltDB then .ok false
  else if dl.Format = InvalidDataFormat then .error (.panicked "Invalid format")
  else .ok true

def DataLocation.MustWriteSorted (_dl : DataLocation) : Bool := false

def DataLocation.RequiresPK (dl : DataLocation) : Bool := decide (dl.Format = DoltDB)

/-- A table-name check for the examples: letters, digits, `-` and `_` only. -/
def exIsValidTableName (s : String) : Bool :=
  s.data.all (fun c => c.isAlphanum || c = '-' || c = '_')

end mvdata

/-! ## Values of kind Int and UUID (`go/store/types/int.go`, `go/store/types/uuid.go`) -/

namespace types

def uuidNumBytes : Nat := 16

/-- `type UUID uuid.UUID`, an array of 16 bytes. -/
structure UUID where
  bytes : List Nat
  size : bytes.length = uuidNumBytes
  isByte : ∀ b ∈ bytes, b < 256
  deriving DecidableEq

/-- The kind tags `IntKind` and `UUIDKind`, constants of `noms_kind.go`. -/
structure NomsKinds where
  IntKind : Nat
  UUIDKind : Nat
  deriving DecidableEq, Repr

/-- The values compared here: an `Int` (`type Int int64`, compared as an integer) or a
`UUID`. -/
inductive LesserValuable where
  | int (v : ℤ)
  | uuid (v : UUID)
  deriving DecidableEq

def LesserValuable.Kind (ks : NomsKinds) : LesserValuable → Nat
  | .int _ => ks.IntKind
  | .uuid _ => ks.UUIDKind

def Int.Equals (v : ℤ) (other : LesserValuable) : Bool :=
  match other with
  | .int v2 => decide (v = v2)
  | .uuid _ => false

def Int.Less (ks : NomsKinds) (v : ℤ) (other : LesserValuable) : Bool :=
  match other with
  | .int v2 => decide (v < v2)
  | .uuid _ => decide (ks.IntKind < other.Kind ks)

def UUID.Equals (v : UUID) (other : LesserValuable) : Bool :=
  match other with
  | .uuid v2 => decide (v = v2)
  | .int _ => false

/-- The loop of `UUID.Less` over the bytes that are left: the first pair of bytes that
differ decides. -/
def lessBytes : List Nat → List Nat → Bool
  | b1 :: rest1, b2 :: rest2 => if b1 ≠ b2 then decide (b1 < b2) else lessBytes rest1 rest2
  | _, _ => false

def UUID.Less (ks : NomsKinds) (v : UUID) (other : LesserValuable) : Bool :=
  match other with
  | .uuid v2 => lessBytes v.bytes v2.bytes
  | .int _ => decide (ks.UUIDKind < other.Kind ks)

/-- The method `Less` of a value of either kind. -/
def Less (ks : NomsKinds) (a b : LesserValuable) : Bool :=
  match a with
  | .int v => Int.Less ks v b
  | .uuid v => UUID.Less ks v b

/-- The method `Equals` of a value of either kind. -/
def Equals (a b : LesserValuable) : Bool :=
  match a with
  | .int v => Int.Equals v b
  | .uuid v => UUID.Equals v b

def exKinds : NomsKinds := { IntKind := 15, UUIDKind := 14 }

def exUUID1 : UUID :=
  { bytes := [0, 0, 0, 0, 0, 0, 0, 0, 0, 0, 0, 0, 0, 0, 1, 255]
    size := by decide
    isByte := by decide }

def exUUID2 : UUID :=
  { bytes := [0, 0, 0, 0, 0, 0, 0, 0, 0, 0, 0, 0, 0, 0, 2, 0]
    size := by decide
    isByte := by decide }

end types

/-! ## The row diff source (`go/libraries/doltcore/diff/diff_source.go`) -/

namespace diff

inductive DiffChType where
  | DiffAdded
  | DiffRemoved
  | DiffModifiedOld
  | DiffModifiedNew
  deriving DecidableEq, Repr

/-- The errors `NextDiff` returns: `io.EOF`, an `errors.New` value such as "timeout" or
the error of a callee, and a Go panic. -/
inductive DiffErr where
  | EOF
  | msg (s : String)
  | panicked (s : String)
  deriving DecidableEq, Repr

/-- A column value (`types.Value`); `NextDiff` only compares such values. -/
inductive Cell where
  | int (v : ℤ)
  | string (s : String)
  deriving DecidableEq, Repr

structure Column where
  Name : String
  Tag : Nat
  deriving DecidableEq, Repr

/-- A `schema.Schema`: its columns, `GetAllCols()`, in iteration order. -/
abbrev Schema := List Column

/-- The second result of `GetAllCols().GetByTag(tag)`: the schema has a column with the
tag. -/
def Schema.hasTag (sch : Schema) (tag : Nat) : Bool := sch.any (fun c => decide (c.Tag = tag))

/-- A `row.Row`: its tagged values. A nil row is `none : Option Row`. -/
abbrev Row := List (Nat × Cell)

/-- `Row.GetColVal(tag)`: the value under the tag, nil when there is none. -/
def Row.GetColVal : Row → Nat → Option Cell
  | [], _ => none
  | (t, v) :: rest, tag => if t = tag then some v else Row.GetColVal rest tag

/-- A noms tuple of tagged values. -/
abbrev Tuple := List (Nat × Cell)

/-- A `rowconv.RowConverter`; `Convert` is its method of that name. -/
structure RowConverter where
  IdentityConverter : Bool
  SrcSch : Schema
  Convert : Row → Except DiffErr Row

/-- A difference delivered by the differ: the key and the old and new value tuples. -/
structure Difference where
  KeyValue : Tuple
  OldValue : Option Tuple
  NewValue : Option Tuple
  deriving DecidableEq, Repr

/-- A Go `map[string]DiffChType`, held as its entries. -/
abbrev ColDiffs := List (String × DiffChType)

/-- The assignment `m[k] = v`. -/
def ColDiffs.set (m : ColDiffs) (k : String) (v : DiffChType) : ColDiffs :=
  (k, v) :: m.filter (fun e => decide (e.1 ≠ k))

/-- The lookup `m[k]`. -/
def ColDiffs.get : ColDiffs → String → Option DiffChType
  | [], _ => none
  | (k1, v) :: rest, k => if k1 = k then some v else ColDiffs.get rest k

/-- The properties of a record: the entries `difftype` and `collchanges`, when set. -/
structure Props where
  difftype : Option DiffChType
  collchanges : Option ColDiffs
  deriving DecidableEq, Repr

def NoProps : Props := { difftype := none, collchanges := none }

structure RowWithProps where
  Row : Option Row
  Props : Props
  deriving DecidableEq, Repr

/-- What one call of `NextDiff` sees of the `AsyncDiffer`, which runs concurrently:
`isDone` when the call finds its buffer empty, the result of `GetDiffs(1, time.Second)`,
and `isDone` after `GetDiffs` has returned. -/
structure AsyncDiffer where
  isDone : Bool
  diffs : Except DiffErr (List Difference)
  isDoneAfter : Bool

structure RowDiffSource where
  oldConv : RowConverter
  newConv : RowConverter
  outSch : Schema
  bufferedRows : List RowWithProps

/-- Go `valutil.NilSafeEqCheck`: two nil values are equal, a nil and a non-nil value are
not, two non-nil values are compared with `Equals`. -/
def NilSafeEqCheck (a b : Option Cell) : Bool := decide (a = b)

def RowDiffSource.originalOldSch (rdRd : RowDiffSource) : Schema :=
  if !rdRd.oldConv.IdentityConverter then rdRd.oldConv.SrcSch else rdRd.outSch

def RowDiffSource.originalNewSch (rdRd : RowDiffSource) : Schema :=
  if !rdRd.newConv.IdentityConverter then rdRd.newConv.SrcSch else rdRd.outSch

/-- The assignment `mapped, _ = conv.Convert(r)`: the error is dropped, and a failed
conversion leaves a nil row. -/
def mapped (conv : RowConverter) (r : Row) : Option Row :=
  match conv.Convert r with
  | .ok m => some m
  | .error _ => none

/-- The callback of `outCols.Iter`, for one column of the output schema. -/
def colDiffStep (originalOldSch originalNewSch : Schema) (mappedOld mappedNew : Row)
    (acc : ColDiffs × ColDiffs) (col : Column) : ColDiffs × ColDiffs :=
  let oldVal := mappedOld.GetColVal col.Tag
  let newVal := mappedNew.GetColVal col.Tag
  let inOld := originalOldSch.hasTag col.Tag
  let inNew := originalNewSch.hasTag col.Tag
  if inOld && inNew then
    if !NilSafeEqCheck oldVal newVal then
      (acc.1.set col.Name .DiffModifiedOld, acc.2.set col.Name .DiffModifiedNew)
    else acc
  else if inOld then (acc.1.set col.Name .DiffRemoved, acc.2)
  else (acc.1, acc.2.set col.Name .DiffAdded)

/-- The maps `oldColDiffs` and `newColDiffs` after the iteration over the columns. -/
def columnDiffMaps (outCols originalOldSch originalNewSch : Schema)
    (mappedOld mappedNew : Row) : ColDiffs × ColDiffs :=
  outCols.foldl (colDiffStep originalOldSch originalNewSch mappedOld mappedNew) ([], [])

/-- The iteration `outCols.Iter(...)`: calling `GetColVal` on a nil row panics. -/
def columnDiffs (outCols originalOldSch originalNewSch : Schema)
    (mappedOld mappedNew : Option Row) : Except DiffErr (ColDiffs × ColDiffs) :=
  match outCols with
  | [] => .ok ([], [])
  | _ :: _ =>
    match mappedOld, mappedNew with
    | some o, some n => .ok (columnDiffMaps outCols originalOldSch originalNewSch o n)
    | _, _ => .error (.panicked "invalid memory address or nil pointer dereference")

/-- The body of the loop `for _, d := range diffs`: it appends the records of `d` to the
buffer, or returns early with an error. `fromNoms` is `row.FromNoms`. -/
def addDiff (fromNoms : Schema → Tuple → Tuple → Except DiffErr Row) (rdRd : RowDiffSource)
    (d : Difference) : Except DiffErr RowDiffSource :=
  let readRow (sch : Schema) (conv : RowConverter) (val : Option Tuple) :
      Except DiffErr (Option Row) :=
    match val with
    | none => .ok none
    | some v =>
      match fromNoms sch d.KeyValue v with
      | .error err => .error err
      | .ok r => .ok (mapped conv r)
  match readRow rdRd.originalOldSch rdRd.oldConv d.OldValue with
  | .error err => .error err
  | .ok mappedOld =>
    match readRow rdRd.originalNewSch rdRd.newConv d.NewValue with
    | .error err => .error err
    | .ok mappedNew =>
      let props : Except DiffErr (Props × Props) :=
        if d.OldValue.isSome && d.NewValue.isSome then
          match columnDiffs rdRd.outSch rdRd.originalOldSch rdRd.originalNewSch
              mappedOld mappedNew with
          | .error err => .error err
          | .ok (oldColDiffs, newColDiffs) =>
            .ok ({ difftype := some .DiffModifiedOld, collchanges := some oldColDiffs },
                 { difftype := some .DiffModifiedNew, collchanges := some newColDiffs })
        else
          .ok ({ difftype := some .DiffRemoved, collchanges := none },
               { difftype := some .DiffAdded, collchanges := none })
      match props with
      | .error err => .error err
      | .ok (oldProps, newProps) =>
        let buf1 :=
          if d.OldValue.isSome then rdRd.bufferedRows ++ [⟨mappedOld, oldProps⟩]
          else rdRd.bufferedRows
        let buf2 := if d.NewValue.isSome then buf1 ++ [⟨mappedNew, newProps⟩] else buf1
        .ok { rdRd with bufferedRows := buf2 }

/-- The loop `for _, d := range diffs`; an early return keeps what was buffered before. -/
def addDiffs (fromNoms : Schema → Tuple → Tuple → Except DiffErr Row) :
    List Difference → RowDiffSource → RowDiffSource × Except DiffErr Unit
  | [], rdRd => (rdRd, .ok ())
  | d :: rest, rdRd =>
    match addDiff fromNoms rdRd d with
    | .error err => (rdRd, .error err)
    | .ok rdRd1 => addDiffs fromNoms rest rdRd1

/-- `nextFromBuffer`: indexing an empty buffer panics. -/
def RowDiffSource.nextFromBuffer (rdRd : RowDiffSource) :
    RowDiffSource × Except DiffErr RowWithProps :=
  match rdRd.bufferedRows with
  | [] => (rdRd, .error (.panicked "index out of range [0] with length 0"))
  | r :: rest => ({ rdRd with bufferedRows := rest }, .ok r)

/-- `RowDiffSource.NextDiff`: the source it leaves behind and the row and properties, or
the error, it returns. -/
def RowDiffSource.NextDiff (fromNoms : Schema → Tuple → Tuple → Except DiffErr Row)
    (rdRd : RowDiffSource) (ad : AsyncDiffer) :
    RowDiffSource × Except DiffErr (Option Row × Props) :=
  if rdRd.bufferedRows.length ≠ 0 then
    match rdRd.nextFromBuffer with
    | (rdRd1, .error err) => (rdRd1, .error err)
    | (rdRd1, .ok rowWithProps) => (rdRd1, .ok (rowWithProps.Row, rowWithProps.Props))
  else if ad.isDone then (rdRd, .error .EOF)
  else
    match ad.diffs with
    | .error err => (rdRd, .error err)
    | .ok diffs =>
      if diffs.length = 0 then
        if ad.isDoneAfter then (rdRd, .error .EOF)
        else (rdRd, .error (.msg "timeout"))
      else
        match addDiffs fromNoms diffs rdRd with
        | (rdRd1, .error err) => (rdRd1, .error err)
        | (rdRd1, .ok _) =>
          match rdRd1.nextFromBuffer with
          | (rdRd2, .error err) => (rdRd2, .error err)
          | (rdRd2, .ok rwp) => (rdRd2, .ok (rwp.Row, rwp.Props))

/-! ### Example: rows with the columns `id` and `name` -/

def exSch : Schema := [⟨"id", 0⟩, ⟨"name", 1⟩]

/-- A reading of tuples for the example: the row holds the values of both tuples. -/
def exFromNoms (_sch : Schema) (key val : Tuple) : Except DiffErr Row := .ok (key ++ val)

def exIdentity : RowConverter :=
  { IdentityConverter := true, SrcSch := [], Convert := fun r => .ok r }

/-- A converter that fails on every row. -/
def exFailing : RowConverter :=
  { IdentityConverter := false, SrcSch := exSch, Convert := fun _ => .error (.msg "bad row") }

def exSource : RowDiffSource :=
  { oldConv := exIdentity, newConv := exIdentity, outSch := exSch, bufferedRows := [] }

def exFailingSource : RowDiffSource :=
  { oldConv := exIdentity, newConv := exFailing, outSch := exSch, bufferedRows := [] }

/-- The row `{id: 1, name: "a"}` changed into `{id: 1, name: "b"}`. -/
def exModified : Difference :=
  { KeyValue := [(0, .int 1)], OldValue := some [(1, .string "a")],
    NewValue := some [(1, .string "b")] }

def exAdded : Difference :=
  { KeyValue := [(0, .int 2)], OldValue := none, NewValue := some [(1, .string "c")] }

def exRemoved : Difference :=
  { KeyValue := [(0, .int 3)], OldValue := some [(1, .string "d")], NewValue := none }

/-- A differ that delivers one difference. -/
def exDiffer (d : Difference) : AsyncDiffer :=
  { isDone := false, diffs := .ok [d], isDoneAfter := false }

end diff

/-! ## Ordered sequences and cursors (`go/store/types/ordered_sequences.go`) -/

namespace types

/-- A meta tuple `(maxKey, childRef, subtreeLeafCount)`; `child` is the sequence the ref
points at. -/
structure metaTuple (σ : Type) where
  key : Nat
  child : σ
  numLeaves : Nat

/-- An `orderedSequence`, a node of the tree: a leaf with its keys, or a meta sequence
with its tuples. An `orderedKey` is a natural number here; `emptyKey` is `none`. -/
inductive orderedSequence where
  | leafSequence (keys : List Nat)
  | metaSequence (tuples : List (metaTuple orderedSequence))

def orderedSequence.isLeaf : orderedSequence → Bool
  | .leafSequence _ => true
  | .metaSequence _ => false

/-- The keys `getKey(0)`, `getKey(1)`, ... of a sequence. -/
def orderedSequence.getKeys : orderedSequence → List Nat
  | .leafSequence keys => keys
  | .metaSequence tuples => tuples.map (fun t => t.key)

def orderedSequence.seqLen (seq : orderedSequence) : Nat := seq.getKeys.length

/-- Modelled from the spec: "search within a sequence's sorted keys returning the first
index whose key is ≥ the probe key", the length when there is none. -/
def searchKeys : List Nat → Nat → Nat
  | [], _ => 0
  | k :: rest, key => if key ≤ k then 0 else searchKeys rest key + 1

def orderedSequence.search (seq : orderedSequence) (key : Nat) : Nat :=
  searchKeys seq.getKeys key

/-- A `sequenceCursor`: the sequence and index of its own frame, and the frames of its
parent and the parents of that, nearest first. -/
structure sequenceCursor where
  parents : List (orderedSequence × ℤ)
  seq : orderedSequence
  idx : ℤ

/-- The frames above a new cursor: those of its parent cursor, if it has one. -/
def parentFrames (parent : Option sequenceCursor) : List (orderedSequence × ℤ) :=
  match parent with
  | none => []
  | some p => (p.seq, p.idx) :: p.parents

/-- Modelled from the spec: `newSequenceCursor` of `sequence_cursor.go`, a new frame below
`parent`; a negative index counts from the end of the sequence. -/
def newSequenceCursor (parent : Option sequenceCursor) (seq : orderedSequence) (idx : ℤ) :
    Except Err sequenceCursor :=
  let parents := parentFrames parent
  if idx < 0 then
    let idx1 := idx + seq.seqLen
    if 0 ≤ idx1 then .ok { parents := parents, seq := seq, idx := idx1 }
    else .error (.panicked "PanicIfFalse: idx >= 0")
  else .ok { parents := parents, seq := seq, idx := idx }

/-- Modelled from the spec: `sequenceCursor.getChildSequence`, nil for a leaf, the child
of the tuple at the index of the cursor for a meta sequence. -/
def sequenceCursor.getChildSequence (cur : sequenceCursor) :
    Except Err (Option orderedSequence) :=
  match cur.seq with
  | .leafSequence _ => .ok none
  | .metaSequence tuples =>
    if cur.idx < 0 then .error (.panicked "index out of range")
    else
      match tuples[cur.idx.toNat]? with
      | none => .error (.panicked "index out of range")
      | some t => .ok (some t.child)

/-- `seekTo`: the cursor with its new index, and the boolean result. -/
def seekTo (cur : sequenceCursor) (key : Nat) (lastPositionIfNotFound : Bool) :
    Except Err (sequenceCursor × Bool) :=
  let seq := cur.seq
  let idx : ℤ := seq.search key
  let seqLen : ℤ := seq.seqLen
  if idx = seqLen ∧ lastPositionIfNotFound = true then
    if 0 < idx then .ok ({ cur with idx := idx - 1 }, decide (idx - 1 < seqLen))
    else .error (.panicked "PanicIfFalse: cur.idx > 0")
  else .ok ({ cur with idx := idx }, decide (idx < seqLen))

/-- The loop of `newCursorAt`, one iteration for each unit of fuel; `cur` is the cursor of
the iteration before. -/
def newCursorAtLoop : Nat → Option sequenceCursor → orderedSequence → Option Nat → Bool →
    Bool → Except Err sequenceCursor
  | 0, _, _, _, _, _ => .error .outOfFuel
  | fuel + 1, cur, seq, key, forInsertion, last =>
    let idx : ℤ := if last then -1 else 0
    match newSequenceCursor cur seq idx with
    | .error err => .error err
    | .ok cur1 =>
      let sought : Except Err (sequenceCursor × Bool) :=
        match key with
        | some k => seekTo cur1 k (forInsertion && !seq.isLeaf)
        | none => .ok (cur1, true)
      match sought with
      | .error err => .error err
      | .ok (cur2, false) => .ok cur2
      | .ok (cur2, true) =>
        match cur2.getChildSequence with
        | .error err => .error err
        | .ok none => .ok cur2
        | .ok (some cs) => newCursorAtLoop fuel (some cur2) cs key forInsertion last

def newCursorAt (fuel : Nat) (seq : orderedSequence) (key : Option Nat)
    (forInsertion last : Bool) : Except Err sequenceCursor :=
  newCursorAtLoop fuel none seq key forInsertion last

mutual
/-- The keys of the leaves of a tree, in tree order. -/
def orderedSequence.flatten : orderedSequence → List Nat
  | .leafSequence keys => keys
  | .metaSequence tuples => flattenTuples tuples
/-- The keys of the leaves below a list of tuples, in tree order. -/
def flattenTuples : List (metaTuple orderedSequence) → List Nat
  | [] => []
  | t :: ts => t.child.flatten ++ flattenTuples ts
end

mutual
/-- The number of levels below a sequence. -/
def orderedSequence.height : orderedSequence → Nat
  | .leafSequence _ => 0
  | .metaSequence tuples => heightTuples tuples + 1
/-- The largest height of a child of the tuples. -/
def heightTuples : List (metaTuple orderedSequence) → Nat
  | [] => 0
  | t :: ts => max t.child.height (heightTuples ts)
end

mutual
/-- Keys are strictly increasing within each sequence of the tree. -/
def orderedSequence.KeysIncreasing : orderedSequence → Prop
  | .leafSequence keys => keys.Pairwise (· < ·)
  | .metaSequence tuples =>
    (tuples.map (fun t => t.key)).Pairwise (· < ·) ∧ KeysIncreasingTuples tuples
/-- Keys are strictly increasing within each sequence below the tuples. -/
def KeysIncreasingTuples : List (metaTuple orderedSequence) → Prop
  | [] => True
  | t :: ts => t.child.KeysIncreasing ∧ KeysIncreasingTuples ts
end

mutual
/-- The key of each meta tuple of the tree is the maximum key of its child subtree. -/
def orderedSequence.KeysAreMax : orderedSequence → Prop
  | .leafSequence _ => True
  | .metaSequence tuples => KeysAreMaxTuples tuples
/-- The key of each of the tuples, and of each tuple below them, is the maximum key of
its child subtree. -/
def KeysAreMaxTuples : List (metaTuple orderedSequence) → Prop
  | [] => True
  | t :: ts =>
    (t.key ∈ t.child.flatten ∧ ∀ x ∈ t.child.flatten, x ≤ t.key) ∧
    t.child.KeysAreMax ∧ KeysAreMaxTuples ts
end

mutual
/-- Every sequence of the tree has at least one element. -/
def orderedSequence.NonEmpty : orderedSequence → Prop
  | .leafSequence keys => keys ≠ []
  | .metaSequence tuples => tuples ≠ [] ∧ NonEmptyTuples tuples
/-- Every sequence below the tuples has at least one element. -/
def NonEmptyTuples : List (metaTuple orderedSequence) → Prop
  | [] => True
  | t :: ts => t.child.NonEmpty ∧ NonEmptyTuples ts
end

/-- A tree in order: the leaves `[1, 5]` and `[6, 9]` under one meta sequence. -/
def exTree : orderedSequence :=
  .metaSequence [⟨5, .leafSequence [1, 5], 2⟩, ⟨9, .leafSequence [6, 9], 2⟩]

/-- A tree whose sequences are each in order, with tuple keys that are the maxima of the
children, but whose second leaf starts below the end of the first. -/
def exOverlap : orderedSequence :=
  .metaSequence [⟨5, .leafSequence [1, 5], 2⟩, ⟨9, .leafSequence [2, 9], 2⟩]

end types

/-! ## Example repository with a merge: `exDiamond` joins `exC2` and `exSide` -/

/-- A merge of `exC2` and `exSide`, the two children of `exC1`. -/
def exDiamond : Struct :=
  { name := CommitStructName, parents := [2, 4], commitMeta := exMeta 40, value := 100 }

/-- The example repository with the merge commit `exDiamond` stored under hash 5. -/
def exDiamondDb : Database :=
  { exDb with
    hashOf := fun v => if v = .struct exDiamond then 5 else exHashOf v
    values := fun h => if h = 5 then some (.struct exDiamond) else exValues h }

namespace types

/-- A cursor on the leaf with the keys 1 and 5. -/
def exLeafCursor : sequenceCursor :=
  { parents := [], seq := .leafSequence [1, 5], idx := 0 }

/-- A `NomsKind`; `SetKind` and `MapKind` are the kinds of the ordered collections. -/
inductive NomsKind where
  | SetKind
  | MapKind
  | otherKind (k : Nat)
  deriving DecidableEq

/-- A `Collection` made by `newSet` or `newMap` around a meta sequence. -/
structure Collection where
  kind : NomsKind
  level : Nat
  seq : orderedSequence

/-- Modelled from the spec: `newMetaSequenceFromTuples`, the meta sequence, an "ordered
list of `(maxKey, childRef, subtreeLeafCount)` tuples", made of the tuples given. -/
def newMetaSequenceFromTuples (_kind : NomsKind) (_level : Nat)
    (tuples : List (metaTuple orderedSequence)) : orderedSequence :=
  .metaSequence tuples

def newSetMetaSequence (level : Nat) (tuples : List (metaTuple orderedSequence)) :
    orderedSequence :=
  newMetaSequenceFromTuples .SetKind level tuples

def newMapMetaSequence (level : Nat) (tuples : List (metaTuple orderedSequence)) :
    orderedSequence :=
  newMetaSequenceFromTuples .MapKind level tuples

/-- `lastKey == emptyKey || lastKey.Less(key)`; `emptyKey` is `none`. -/
def keyFollows (lastKey : Option Nat) (key : Nat) : Bool :=
  match lastKey with
  | none => true
  | some k => decide (k < key)

/-- The loop `for i, v := range items` of the chunk function over the items that are
left: `tuples` holds the entries filled so far, `numLeaves` is a `uint64`. -/
def chunkItems : List (metaTuple orderedSequence) → Option Nat → Nat →
    List (metaTuple orderedSequence) → Except Err (List (metaTuple orderedSequence) × Nat)
  | [], _, numLeaves, tuples => .ok (tuples, numLeaves)
  | mt :: rest, lastKey, numLeaves, tuples =>
    let key := mt.key
    if keyFollows lastKey key then
      chunkItems rest (some key) ((numLeaves + mt.numLeaves) % 2 ^ 64) (tuples ++ [mt])
    else .error (.panicked "PanicIfFalse: lastKey == emptyKey || lastKey.Less(key)")

/-- The function `newOrderedMetaSequenceChunkFn(kind, f, vrw)` returns, applied to `level`
and `items`: the collection, the key and the number of leaves. -/
def newOrderedMetaSequenceChunkFn (kind : NomsKind) (level : Nat)
    (items : List (metaTuple orderedSequence)) : Except Err (Collection × Nat × Nat) :=
  match chunkItems items none 0 [] with
  | .error err => .error err
  | .ok (tuples, numLeaves) =>
    let col : Except Err Collection :=
      if kind = .SetKind then
        .ok { kind := .SetKind, level := level, seq := newSetMetaSequence level tuples }
      else if kind = .MapKind then
        .ok { kind := .MapKind, level := level, seq := newMapMetaSequence level tuples }
      else .error (.panicked "PanicIfFalse: MapKind == kind")
    match col with
    | .error err => .error err
    | .ok col =>
      match tuples.getLast? with
      | none => .error (.panicked "index out of range [-1]")
      | some t => .ok (col, t.key, numLeaves)

/-- Two meta tuples whose leaf counts add up to `2 ^ 64`. -/
def exHugeTuples : List (metaTuple orderedSequence) :=
  [⟨1, .leafSequence [1], 2 ^ 63⟩, ⟨2, .leafSequence [2], 2 ^ 63⟩]

/-- The tuples of `exTree`. -/
def exTuples : List (metaTuple orderedSequence) :=
  [⟨5, .leafSequence [1, 5], 2⟩, ⟨9, .leafSequence [6, 9], 2⟩]

end types

/-! ## The SQL export writer (`go/libraries/doltcore/table/untyped/sqlexport/sqlwriter.go`) -/

namespace sqlexport

def doubleQuot : String := "\""

/-- A `types.Value` as the writer tells values apart: null, a Bool, a UUID, a String, or a
value of another kind. -/
inductive Value where
  | null
  | bool (b : Bool)
  | uuid (bytes : List Nat)
  | string (s : String)
  | other (kind : Nat) (payload : Nat)
  deriving DecidableEq

structure Column where
  Name : String
  Tag : Nat
  deriving DecidableEq

/-- A `schema.Schema`: its columns in the order `GetAllCols().Iter` visits them. -/
abbrev Schema := List Column

/-- A `row.Row`: the values it holds, by tag. -/
abbrev Row := List (Nat × Value)

/-- Code of other packages that the writer calls: `sql.QuoteIdentifier`,
`sql.SchemaAsCreateStmt`, and the function `doltcore.GetConvFunc(kind, types.StringKind)`
applied to a value. -/
structure Externals where
  QuoteIdentifier : String → String
  SchemaAsCreateStmt : String → Schema → String
  convToString : Value → String

/-- An `io.WriteCloser`: the lines written to it so far, whether it is closed, and whether
it accepts the next line or the call of `Close`, which decides when a call fails. -/
structure WriteCloser where
  written : List String
  closed : Bool
  accepts : List String → String → Bool
  closes : List String → Bool

/-- Modelled from the spec: `iohelp.WriteLine`, which writes one line to the writer; a
write that fails leaves the output as it was. -/
def WriteLine (wr : Option WriteCloser) (line : String) : Except Err WriteCloser :=
  match wr with
  | none => .error (.panicked "invalid memory address or nil pointer dereference")
  | some wr =>
    if wr.closed then .error (.other "file already closed")
    else if wr.accepts wr.written line then .ok { wr with written := wr.written ++ [line] }
    else .error (.other "write failed")

def WriteCloser.Close (wr : WriteCloser) : WriteCloser × Except Err Unit :=
  if wr.closed then (wr, .error (.other "file already closed"))
  else if wr.closes wr.written then ({ wr with closed := true }, .ok ())
  else ({ wr with closed := true }, .error (.other "close failed"))

structure SqlExportWriter where
  tableName : String
  sch : Schema
  wr : Option WriteCloser
  writtenFirstRow : Bool

/-- Go `strings.ReplaceAll(s, old, new)` for an `old` of one character, on the characters
of `s` from left to right. -/
def replaceAllChars (old : Char) (new : List Char) : List Char → List Char
  | [] => []
  | c :: rest =>
    if c = old then new ++ replaceAllChars old new rest
    else c :: replaceAllChars old new rest

def ReplaceAll (s : String) (old : Char) (new : String) : String :=
  String.mk (replaceAllChars old new.data s.data)

def sqlString (x : Externals) (value : Value) : String :=
  match value with
  | .null => "NULL"
  | .bool b => if b then "TRUE" else "FALSE"
  | .uuid bytes => doubleQuot ++ x.convToString (.uuid bytes) ++ doubleQuot
  | .string s =>
    let s := ReplaceAll s '"' "\\\""
    doubleQuot ++ s ++ doubleQuot
  | .other kind payload => x.convToString (.other kind payload)

/-- The strings a loop writes to the builder `b`, with a comma before each but the first;
`seenOne` is the flag of the loop. -/
def writeSeparated : List String → Bool → String → String
  | [], _, b => b
  | s :: rest, seenOne, b =>
    writeSeparated rest true ((if seenOne then b.push ',' else b) ++ s)

/-- Modelled from the spec: the value `Row.IterSchema` passes for a column, the value the
row holds under the tag of the column, null when it holds none. -/
def Row.colVal (r : Row) (tag : Nat) : Value :=
  match r.find? (fun e => e.1 = tag) with
  | some e => e.2
  | none => .null

def insertStatementForRow (x : Externals) (w : SqlExportWriter) (r : Row) :
    Except Err String :=
  let b := ""
  let b := b ++ "INSERT INTO "
  let b := b ++ x.QuoteIdentifier w.tableName
  let b := b ++ " "
  let b := b ++ "("
  let b := writeSeparated (w.sch.map (fun col => x.QuoteIdentifier col.Name)) false b
  let b := b ++ ")"
  let b := b ++ " VALUES ("
  let b := writeSeparated (w.sch.map (fun col => sqlString x (r.colVal col.Tag))) false b
  let b := b ++ ");"
  .ok b

def dropCreateStatement (x : Externals) (w : SqlExportWriter) : String :=
  let b := ""
  let b := b ++ "DROP TABLE IF EXISTS "
  let b := b ++ x.QuoteIdentifier w.tableName
  let b := b ++ ";\n"
  let b := b ++ x.SchemaAsCreateStmt w.tableName w.sch
  b

def maybeWriteDropCreate (x : Externals) (w : SqlExportWriter) :
    SqlExportWriter × Except Err Unit :=
  if !w.writtenFirstRow then
    match WriteLine w.wr (dropCreateStatement x w) with
    | .error err => (w, .error err)
    | .ok wr1 => ({ w with wr := some wr1, writtenFirstRow := true }, .ok ())
  else (w, .ok ())

def WriteRow (x : Externals) (w : SqlExportWriter) (r : Row) :
    SqlExportWriter × Except Err Unit :=
  match maybeWriteDropCreate x w with
  | (w1, .error err) => (w1, .error err)
  | (w1, .ok _) =>
    match insertStatementForRow x w1 r with
    | .error err => (w1, .error err)
    | .ok stmt =>
      match WriteLine w1.wr stmt with
      | .error err => (w1, .error err)
      | .ok wr1 => ({ w1 with wr := some wr1 }, .ok ())

def Close (x : Externals) (w : SqlExportWriter) : SqlExportWriter × Except Err Unit :=
  match maybeWriteDropCreate x w with
  | (w1, .error err) => (w1, .error err)
  | (w1, .ok _) =>
    match w1.wr with
    | some wr =>
      let (wr1, res) := wr.Close
      ({ w1 with wr := some wr1 }, res)
    | none => (w1, .ok ())

/-- The calls `WriteRow` for each of the rows in turn, then `Close`, up to the first call
that fails. -/
def writeRowsThenClose (x : Externals) (w : SqlExportWriter) :
    List Row → SqlExportWriter × Except Err Unit
  | [] => Close x w
  | r :: rest =>
    match WriteRow x w r with
    | (w1, .error err) => (w1, .error err)
    | (w1, .ok _) => writeRowsThenClose x w1 rest

/-- Identifiers in backquotes, and a short create statement, for the examples. -/
def exExternals : Externals :=
  { QuoteIdentifier := fun s => "`" ++ s ++ "`"
    SchemaAsCreateStmt := fun t _ => "CREATE TABLE `" ++ t ++ "` ();"
    convToString := fun _ => "0" }

/-- An output that accepts every line. -/
def exOut : WriteCloser :=
  { written := [], closed := false, accepts := fun _ _ => true, closes := fun _ => true }

def exWriter : SqlExportWriter :=
  { tableName := "t", sch := [⟨"id", 0⟩, ⟨"name", 1⟩], wr := some exOut,
    writtenFirstRow := false }

def exRows : List Row :=
  [[(0, .other 3 1), (1, .string "a\"b")], [(0, .other 3 2), (1, .string "c\\")]]

end sqlexport

/-! ## The arguments of `put-row` (`go/cmd/dolt/commands/tblcmds/putrow.go`) -/

namespace tblcmds

/-- Go `unicode.IsSpace`: the white space characters of Unicode. -/
def IsSpace (c : Char) : Bool :=
  decide (c.toNat ∈ [0x09, 0x0A, 0x0B, 0x0C, 0x0D, 0x20, 0x85, 0xA0, 0x1680, 0x2000, 0x2001,
    0x2002, 0x2003, 0x2004, 0x2005, 0x2006, 0x2007, 0x2008, 0x2009, 0x200A, 0x2028, 0x2029,
    0x202F, 0x205F, 0x3000])

/-- Go `strings.TrimSpace`: the string without its leading and trailing white space. -/
def TrimSpace (s : String) : String :=
  String.mk ((s.data.dropWhile IsSpace).reverse.dropWhile IsSpace).reverse

/-- The scan of Go `strings.IndexByte` over the characters from position `i` on: the
position of the first `c`, or -1. -/
def indexByteFrom (c : Char) : List Char → Nat → Int
  | [], _ => -1
  | x :: rest, i => if x = c then i else indexByteFrom c rest (i + 1)

def IndexByte (s : String) (c : Char) : Int := indexByteFrom c s.data 0

/-- An `errhand.VerboseError`: its message and the details added to it. -/
structure VerboseError where
  msg : String
  details : List String
  deriving DecidableEq

/-- A Go `map[string]string`, held as its entries; no key occurs twice. -/
abbrev KVPs := List (String × String)

/-- The assignment `kvps[k] = v`. -/
def KVPs.set (m : KVPs) (k v : String) : KVPs :=
  m.filter (fun e => decide (e.1 ≠ k)) ++ [(k, v)]

/-- The lookup `kvps[k]`. -/
def KVPs.get (m : KVPs) (k : String) : Option String :=
  (m.find? (fun e => decide (e.1 = k))).map Prod.snd

/-- The loop `for i, arg := range args` of `parseKVPs` over the arguments that are left;
`fieldNames` holds the entries set so far. The three components are the three results of
`parseKVPs`; `none` is nil. -/
def parseKVPsLoop : List String → List String → KVPs →
    Option (List String) × Option KVPs × Option VerboseError
  | [], fieldNames, kvps => (some fieldNames, some kvps, none)
  | arg :: rest, fieldNames, kvps =>
    let colonIndex := IndexByte arg ':'
    if colonIndex ≠ -1 then
      let key := TrimSpace (String.mk (arg.data.take colonIndex.toNat))
      let value := String.mk (arg.data.drop (colonIndex.toNat + 1))
      if key ≠ "" then parseKVPsLoop rest (fieldNames ++ [key]) (kvps.set key value)
      else
        (none, none, some
          { msg := "\"" ++ TrimSpace arg ++ "\" is not a valid key value pair."
            details := ["Key value pairs must be in the format key:value, where the length of key must be at least 1 character.  \"" ++ TrimSpace arg ++ "\" has a length of 0 characters"] })
    else
      (none, none, some
        { msg := "\"" ++ TrimSpace arg ++ "\" is not a valid key value pair."
          details := ["Key value pairs must be in the format key:value.  \"" ++ TrimSpace arg ++ "\" has no key value separator ':'.  ",
            "To set a value to empty you may use \"key:\" but not just \"key\", however leaving this key off of the command line has the same effect."] })

def parseKVPs (args : List String) :
    Option (List String) × Option KVPs × Option VerboseError :=
  parseKVPsLoop args [] []

/-- The key `parseKVPs` reads from an argument with a colon. -/
def argKey (arg : String) : String :=
  TrimSpace (String.mk (arg.data.take (IndexByte arg ':').toNat))

/-- The value `parseKVPs` reads from an argument with a colon. -/
def argValue (arg : String) : String :=
  String.mk (arg.data.drop ((IndexByte arg ':').toNat + 1))

end tblcmds

/-! ## The hard reset (`go/cmd/dolt/commands/reset.go`) -/

namespace commands

def HardResetParam : String := "hard"

/-- A `doltdb.Table`, as the hash of its value. -/
abbrev Table := Nat

/-- A `doltdb.RootValue`: its tables by name, and whether its data can be read from the
store. -/
structure RootValue where
  tables : List (String × Table)
  readable : Bool
  deriving DecidableEq

/-- The table a root holds under a name. -/
def RootValue.tableAt (root : RootValue) (tblName : String) : Option Table :=
  (root.tables.find? (fun e => decide (e.1 = tblName))).map Prod.snd

/-- Modelled from the spec: `RootValue.GetTableNames`, the names of the tables of a root. -/
def RootValue.GetTableNames (root : RootValue) : Except Err (List String) :=
  if root.readable then .ok (root.tables.map Prod.fst)
  else .error (.other "failed to read the table map")

/-- Modelled from the spec: `RootValue.GetTable`, the table of the name if the root has
one. -/
def RootValue.GetTable (root : RootValue) (tblName : String) : Except Err (Option Table) :=
  if root.readable then .ok (root.tableAt tblName)
  else .error (.other "failed to read the table map")

/-- Modelled from the spec: `RootValue.PutTable`, the root with the table under the name,
in place of the table it had there if it had one; `writable` says whether the database
takes the write, and `tbl` is a pointer that must not be nil. -/
def RootValue.PutTable (root : RootValue) (writable : Bool) (tblName : String)
    (tbl : Option Table) : Except Err RootValue :=
  match tbl with
  | none => .error (.panicked "invalid memory address or nil pointer dereference")
  | some t =>
    if writable then
      .ok { root with
        tables := root.tables.filter (fun e => decide (e.1 ≠ tblName)) ++ [(tblName, t)] }
    else .error (.other "failed to write the table")

/-- The `argparser.ArgParseResults`: the flags given and the positional arguments. -/
structure ArgParseResults where
  options : List String
  args : List String
  deriving DecidableEq

def ArgParseResults.NArg (apr : ArgParseResults) : Nat := apr.args.length

/-- An `env.DoltEnv`: whether its database takes writes, the working and the staged root
of its repo state, and which roots the repo state can be saved with. -/
structure DoltEnv where
  dbWritable : Bool
  working : RootValue
  staged : RootValue
  savesWorking : RootValue → Bool
  savesStaged : RootValue → Bool

/-- Modelled from the spec: `DoltEnv.UpdateWorkingRoot`, which makes `newRoot` the working
root of the repo state. -/
def DoltEnv.UpdateWorkingRoot (dEnv : DoltEnv) (newRoot : RootValue) :
    DoltEnv × Except Err Unit :=
  if dEnv.savesWorking newRoot then ({ dEnv with working := newRoot }, .ok ())
  else (dEnv, .error (.other "failed to save the repo state"))

/-- Modelled from the spec: `DoltEnv.UpdateStagedRoot`, which makes `newRoot` the staged
root of the repo state. -/
def DoltEnv.UpdateStagedRoot (dEnv : DoltEnv) (newRoot : RootValue) :
    DoltEnv × Except Err Unit :=
  if dEnv.savesStaged newRoot then ({ dEnv with staged := newRoot }, .ok ())
  else (dEnv, .error (.other "failed to save the repo state"))

/-- The Go `map[string]*doltdb.Table` of `resetHard`, held as its entries; `none` is a nil
pointer. -/
abbrev TableMap := List (String × Option Table)

/-- The assignment `untrackedTables[tblName] = tbl`. -/
def TableMap.set (m : TableMap) (tblName : String) (tbl : Option Table) : TableMap :=
  if tblName ∈ m.map Prod.fst then
    m.map (fun e => if e.1 = tblName then (tblName, tbl) else e)
  else m ++ [(tblName, tbl)]

/-- The call `delete(untrackedTables, tblName)`. -/
def TableMap.delete (m : TableMap) (tblName : String) : TableMap :=
  m.filter (fun e => decide (e.1 ≠ tblName))

/-- The loop `for _, tblName := range wTblNames` of `resetHard`. -/
def readTables (workingRoot : RootValue) : List String → TableMap → Except Err TableMap
  | [], untrackedTables => .ok untrackedTables
  | tblName :: rest, untrackedTables =>
    match workingRoot.GetTable tblName with
    | .error _ => .error (.other ("error: failed to read '" ++ tblName ++ "' from the working set"))
    | .ok tbl => readTables workingRoot rest (untrackedTables.set tblName tbl)

/-- The loop `for tblName, tbl := range untrackedTables` of `resetHard`, over the entries
in the order they are held in, one of the orders a Go map may be ranged over. -/
def putTables (writable : Bool) : TableMap → RootValue → Except Err RootValue
  | [], newWkRoot => .ok newWkRoot
  | (tblName, tbl) :: rest, newWkRoot =>
    match newWkRoot.PutTable writable tblName tbl with
    | .error (.panicked msg) => .error (.panicked msg)
    | .error _ => .error (.other "error: failed to write table back to database")
    | .ok newWkRoot1 => putTables writable rest newWkRoot1

def resetHard (dEnv : DoltEnv) (apr : ArgParseResults) (workingRoot headRoot : RootValue) :
    DoltEnv × Except Err Unit :=
  if apr.NArg ≠ 0 then
    (dEnv, .error (.other ("--" ++ HardResetParam ++ " does not support additional params")))
  else
    match workingRoot.GetTableNames with
    | .error _ => (dEnv, .error (.other "error: failed to read tables from the working set"))
    | .ok wTblNames =>
      match readTables workingRoot wTblNames [] with
      | .error err => (dEnv, .error err)
      | .ok untrackedTables =>
        match headRoot.GetTableNames with
        | .error _ => (dEnv, .error (.other "error: failed to read tables from head"))
        | .ok headTblNames =>
          let untrackedTables :=
            headTblNames.foldl (fun m tblName => m.delete tblName) untrackedTables
          match putTables dEnv.dbWritable untrackedTables headRoot with
          | .error err => (dEnv, .error err)
          | .ok newWkRoot =>
            match dEnv.UpdateWorkingRoot newWkRoot with
            | (dEnv1, .error _) =>
              (dEnv1, .error (.other "error: failed to update the working tables."))
            | (dEnv1, .ok _) =>
              match dEnv1.UpdateStagedRoot headRoot with
              | (dEnv2, .error _) =>
                (dEnv2, .error (.other "error: failed to update the staged tables."))
              | (dEnv2, .ok _) => (dEnv2, .ok ())

/-- The head root of the examples: the tables `a` and `b`. -/
def exHead : RootValue := { tables := [("a", 1), ("b", 2)], readable := true }

/-- The working root of the examples: `a` is changed, `b` is dropped, `c` is new. -/
def exWorking : RootValue := { tables := [("a", 7), ("c", 3)], readable := true }

def exEnv : DoltEnv :=
  { dbWritable := true, working := exWorking, staged := exWorking,
    savesWorking := fun _ => true, savesStaged := fun _ => true }

end commands

/-! ## The cache of chunk stores (`go/utils/remotesrv/cscache.go`) -/

namespace remotesrv

/-- A `*nbs.NomsBlockStore`: the identity of an opened store; `none` is the nil pointer. -/
abbrev Handle := Nat

/-- A `filesys.Filesys`, acting on the state `ω` of the disk. -/
structure Filesys (ω : Type) where
  MkDirs : ω → String → ω × Option Err

/-- Code the cache calls: Go `filepath.Join` and `nbs.NewLocalStore`, which opens a store
on the disk in the directory given. -/
structure Externals (ω : Type) where
  Join : String → String → String
  NewLocalStore : ω → String → ω × Except Err Handle

/-- The `DBCache`: the map `dbs`, held as its entries, and `fs`, which may be nil. The
mutex `mu` makes each call of `Get` run alone, one call after the other. -/
structure DBCache (ω : Type) where
  dbs : List (String × Option Handle)
  fs : Option (Filesys ω)

def NewLocalCSCache {ω : Type} (filesys : Option (Filesys ω)) : DBCache ω :=
  { dbs := [], fs := filesys }

/-- The lookup `cs, ok := cache.dbs[id]`; `none` is `ok == false`. -/
def DBCache.lookup {ω : Type} (cache : DBCache ω) (id : String) : Option (Option Handle) :=
  (cache.dbs.find? (fun e => decide (e.1 = id))).map Prod.snd

/-- `DBCache.Get`, from the cache and the disk before the call to the cache and the disk
after it, and the result. -/
def DBCache.Get {ω : Type} (x : Externals ω) (cache : DBCache ω) (w : ω) (org repo : String) :
    (DBCache ω × ω) × Except Err (Option Handle) :=
  let id := x.Join org repo
  match cache.lookup id with
  | some cs => ((cache, w), .ok cs)
  | none =>
    match cache.fs with
    | some fs =>
      match fs.MkDirs w id with
      | (w1, some err) => ((cache, w1), .error err)
      | (w1, none) =>
        match x.NewLocalStore w1 id with
        | (w2, .error err) => ((cache, w2), .error err)
        | (w2, .ok newCS) =>
          (({ cache with dbs := cache.dbs ++ [(id, some newCS)] }, w2), .ok (some newCS))
    | none => (({ cache with dbs := cache.dbs ++ [(id, none)] }, w), .ok none)

/-- A sequence of calls of `Get`, one after the other: the cache and the disk after the
last call. -/
def runGets {ω : Type} (x : Externals ω) :
    DBCache ω × ω → List (String × String) → DBCache ω × ω
  | s, [] => s
  | s, (org, repo) :: rest => runGets x (DBCache.Get x s.1 s.2 org repo).1 rest

/-- A disk for the examples: the directories opened so far; the store of the directory
`bad/repo` cannot be opened, and a store has the number of stores opened before it. -/
def exStores : Externals (List String) :=
  { Join := fun org repo => org ++ "/" ++ repo
    NewLocalStore := fun w id =>
      if id = "bad/repo" then (w, .error (.other "cannot open store"))
      else (w ++ [id], .ok w.length) }

def exFs : Filesys (List String) := { MkDirs := fun w _ => (w, none) }

end remotesrv

namespace diff

/-- An output schema with two columns of the name `name`, under the tags 1 and 2. -/
def exRenamedSch : Schema := [⟨"id", 0⟩, ⟨"name", 1⟩, ⟨"name", 2⟩]

/-- A source whose old rows have `name` under tag 1 and whose new rows have it under
tag 2. -/
def exRenamedSource : RowDiffSource :=
  { oldConv :=
      { IdentityConverter := false, SrcSch := [⟨"id", 0⟩, ⟨"name", 1⟩],
        Convert := fun r => .ok r }
    newConv :=
      { IdentityConverter := false, SrcSch := [⟨"id", 0⟩, ⟨"name", 2⟩],
        Convert := fun r => .ok r }
    outSch := exRenamedSch
    bufferedRows := [] }

/-- The row `{id: 1, name: "a"}` with `name` moved from tag 1 to tag 2. -/
def exRenamed : Difference :=
  { KeyValue := [(0, .int 1)], OldValue := some [(1, .string "a")],
    NewValue := some [(2, .string "a")] }

end diff

namespace types

/-- The sequence `s` is reached from `root` through the frames, nearest first: each frame
holds a meta sequence and the index of the tuple whose child is the sequence below it,
and the farthest frame holds `root`. -/
def Descends (root : orderedSequence) :
    List (orderedSequence × ℤ) → orderedSequence → Prop
  | [], s => s = root
  | (p, i) :: rest, s =>
    (∃ ts t, p = .metaSequence ts ∧ 0 ≤ i ∧ ts[i.toNat]? = some t ∧ t.child = s) ∧
    Descends root rest p

/-- The index a frame of the descent holds: with a probe key the index `search` finds, or
the last index when `search` finds none and `forInsertion` is set; with the empty key the
first index, or the last one when `last` is set. -/
def FrameIdx (key : Option Nat) (forInsertion last : Bool) (f : orderedSequence × ℤ) :
    Prop :=
  match key with
  | none => f.2 = if last then (f.1.seqLen : ℤ) - 1 else 0
  | some k =>
    (f.1.search k < f.1.seqLen ∧ f.2 = (f.1.search k : ℤ)) ∨
    (f.1.search k = f.1.seqLen ∧ forInsertion = true ∧ f.2 = (f.1.seqLen : ℤ) - 1)

end types

/-! ## Theorems -/

/-! ### The history of `exC3` in the example repository -/

theorem exDb_no_parent_C1 (p : Struct) : ¬ IsParent exDb exC1 p := by
  rintro ⟨r, hr, -⟩
  simp [exC1] at hr

theorem exDb_parent_C2 (p : Struct) (h : IsParent exDb exC2 p) : p = exC1 := by
  obtain ⟨r, hr, hv⟩ := h
  simp only [exC2, List.mem_singleton] at hr
  subst hr
  simp only [exDb, exValues, if_true, Option.some.injEq, Value.struct.injEq] at hv
  exact hv.symm

theorem exDb_parent_C3 (p : Struct) (h : IsParent exDb exC3 p) : p = exC2 := by
  obtain ⟨r, hr, hv⟩ := h
  simp only [exC3, List.mem_singleton] at hr
  subst hr
  have h2 : exDb.values 2 = some (.struct exC2) := by decide
  rw [h2] at hv
  simp only [Option.some.injEq, Value.struct.injEq] at hv
  exact hv.symm

theorem exDb_isParent_C3_C2 : IsParent exDb exC3 exC2 :=
  ⟨2, by decide, by decide⟩

theorem exDb_isParent_C2_C1 : IsParent exDb exC2 exC1 :=
  ⟨1, by decide, by decide⟩

theorem exDb_reachable_C3 (a : Struct) :
    Reachable exDb exC3 a ↔ a = exC3 ∨ a = exC2 ∨ a = exC1 := by
  constructor
  · intro h
    rcases Relation.ReflTransGen.cases_head h with h3 | ⟨p, hp, h⟩
    · exact Or.inl h3.symm
    · have := exDb_parent_C3 p hp
      subst this
      rcases Relation.ReflTransGen.cases_head h with h2 | ⟨p, hp, h⟩
      · exact Or.inr (Or.inl h2.symm)
      · have := exDb_parent_C2 p hp
        subst this
        rcases Relation.ReflTransGen.cases_head h with h1 | ⟨p, hp, -⟩
        · exact Or.inr (Or.inr h1.symm)
        · exact absurd hp (exDb_no_parent_C1 p)
  · rintro (rfl | rfl | rfl)
    · exact Relation.ReflTransGen.refl
    · exact Relation.ReflTransGen.single exDb_isParent_C3_C2
    · exact Relation.ReflTransGen.head exDb_isParent_C3_C2
        (Relation.ReflTransGen.single exDb_isParent_C2_C1)

theorem exDb_reachableHash_C3 (h : Hash) :
    h ∈ ([1, 2, 3] : List Hash) ↔ ReachableHash exDb exC3 h := by
  constructor
  · intro hm
    simp only [List.mem_cons, List.mem_singleton, List.not_mem_nil, or_false] at hm
    rcases hm with rfl | rfl | rfl
    · exact ⟨exC1, (exDb_reachable_C3 exC1).mpr (Or.inr (Or.inr rfl)), by decide⟩
    · exact ⟨exC2, (exDb_reachable_C3 exC2).mpr (Or.inr (Or.inl rfl)), by decide⟩
    · exact ⟨exC3, (exDb_reachable_C3 exC3).mpr (Or.inl rfl), by decide⟩
  · rintro ⟨a, ha, hh⟩
    rcases (exDb_reachable_C3 a).mp ha with rfl | rfl | rfl
    · have : Commit.HashOf exDb exC3 = 3 := by decide
      rw [← hh, this]; decide
    · have : Commit.HashOf exDb exC2 = 2 := by decide
      rw [← hh, this]; decide
    · have : Commit.HashOf exDb exC1 = 1 := by decide
      rw [← hh, this]; decide

theorem exDb_grounded_C1 : Grounded exDb exC1 :=
  Grounded.intro exC1 (fun r hr => by simp [exC1] at hr) (fun r p hr _ => by simp [exC1] at hr)

theorem exDb_grounded_C2 : Grounded exDb exC2 :=
  Grounded.intro exC2
    (fun r hr => by
      simp only [exC2, List.mem_singleton] at hr
      subst hr
      exact ⟨exC1, by decide⟩)
    (fun r p hr hv => by
      have := exDb_parent_C2 p ⟨r, hr, hv⟩
      subst this
      exact exDb_grounded_C1)

theorem exDb_grounded_C3 : Grounded exDb exC3 :=
  Grounded.intro exC3
    (fun r hr => by
      simp only [exC3, List.mem_singleton] at hr
      subst hr
      exact ⟨exC2, by decide⟩)
    (fun r p hr hv => by
      have := exDb_parent_C3 p ⟨r, hr, hv⟩
      subst this
      exact exDb_grounded_C2)

theorem walkInstructions_iff (db : Database) (is : List Nat) :
    ∀ c a : Struct, walkInstructions db is c = .ok a ↔ followParents db c is = some a := by
  induction is with
  | nil =>
    intro c a
    simp [walkInstructions, followParents]
  | cons i rest ih =>
    intro c a
    simp only [followParents, parentAt, walkInstructions, NumParents, getParent]
    cases hg : c.parents[i]? with
    | none =>
      have hge : ¬ i < c.parents.length := Nat.not_lt.mpr (List.getElem?_eq_none_iff.mp hg)
      simp [hge]
    | some r =>
      have hlt : i < c.parents.length := (List.getElem?_eq_some.mp hg).1
      simp only [hlt, if_true]
      cases hv : db.values r with
      | none => simp
      | some v =>
        cases v with
        | other n => simp
        | struct st => exact ih st a

theorem walkAncestorSpec_iff (db : Database) (c a : Struct) (is : List Nat) :
    walkAncestorSpec db c (some ⟨is⟩) = .ok a ↔ followParents db c is = some a := by
  cases is with
  | nil => simp [walkAncestorSpec, followParents]
  | cons i rest =>
    simp only [walkAncestorSpec, List.length_cons, Nat.succ_ne_zero, if_false]
    exact walkInstructions_iff db (i :: rest) c a

theorem walkInstructions_of_followParents (db : Database) (is : List Nat) (c a : Struct)
    (h : followParents db c is = some a) : walkInstructions db is c = .ok a :=
  (walkInstructions_iff db is c a).mpr h

theorem Resolve_eq_walk (db : Database) (cs : CommitSpec) (c : Struct)
    (hb : baseCommit db cs = .ok c) :
    DoltDB.Resolve db (some cs) = walkAncestorSpec db c cs.ASpec := by
  simp only [DoltDB.Resolve, hb]
  cases walkAncestorSpec db c cs.ASpec <;> rfl

theorem grounded_parentAt (db : Database) (c : Struct) (i : Nat) (hg : Grounded db c)
    (hi : i < c.parents.length) : ∃ p, parentAt db c i = some p ∧ Grounded db p := by
  cases hg with
  | intro _ hex hrec =>
    obtain ⟨p, hp⟩ := hex (c.parents[i]) (List.getElem_mem hi)
    refine ⟨p, ?_, hrec _ p (List.getElem_mem hi) hp⟩
    simp [parentAt, List.getElem?_eq_getElem hi, hp]

theorem followParents_of_hopsInRange (db : Database) (is : List Nat) :
    ∀ c : Struct, Grounded db c → HopsInRange db c is →
      ∃ a, followParents db c is = some a := by
  induction is with
  | nil => intro c _ _; exact ⟨c, rfl⟩
  | cons i rest ih =>
    intro c hg hh
    obtain ⟨p, hp, hgp⟩ := grounded_parentAt db c i hg hh.1
    obtain ⟨a, ha⟩ := ih p hgp (hh.2 p hp)
    exact ⟨a, by simp [followParents, hp, ha]⟩

/-- C1: `walkAncestorSpec` returns a commit exactly when parent `i1` of `c`, then parent
`i2` of that commit, and so on, exist, and the commit it returns is the one this walk
ends in. In a stored history this is the case whenever at each hop the index is smaller
than the number of parents of the commit reached so far. A nil ancestor spec and an empty
instruction list return `c` itself, and `Resolve` returns what `walkAncestorSpec` returns
from the base commit of the spec. -/
theorem walkAncestorSpec_selects_parents (db : Database) (c : Struct) (is : List Nat) :
    walkAncestorSpec db c none = .ok c ∧
    walkAncestorSpec db c (some ⟨[]⟩) = .ok c ∧
    (∀ a, walkAncestorSpec db c (some ⟨is⟩) = .ok a ↔ followParents db c is = some a) ∧
    (Grounded db c → HopsInRange db c is →
      ∃ a, followParents db c is = some a ∧ walkAncestorSpec db c (some ⟨is⟩) = .ok a) ∧
    (∀ cs : CommitSpec, baseCommit db cs = .ok c →
      DoltDB.Resolve db (some cs) = walkAncestorSpec db c cs.ASpec) := by
  refine ⟨rfl, rfl, fun a => walkAncestorSpec_iff db c a is, ?_,
    fun cs hb => Resolve_eq_walk db cs c hb⟩
  intro hg hh
  obtain ⟨a, ha⟩ := followParents_of_hopsInRange db is c hg hh
  exact ⟨a, ha, (walkAncestorSpec_iff db c a is).mpr ha⟩

theorem exDb_hopsInRange : HopsInRange exDb exC3 [0, 0] := by
  refine ⟨by decide, ?_⟩
  intro p hp
  have h0 : parentAt exDb exC3 0 = some exC2 := by decide
  rw [h0] at hp
  cases hp
  exact ⟨by decide, fun _ _ => trivial⟩

/-- On the chain `exC3 → exC2 → exC1` the two-hop spec from `exC3` resolves to `exC1`. -/
theorem walkAncestorSpec_selects_parents_witness :
    followParents exDb exC3 [0, 0] = some exC1 ∧
    walkAncestorSpec exDb exC3 (some ⟨[0, 0]⟩) = .ok exC1 ∧
    (∃ a, followParents exDb exC3 [0, 0] = some a ∧
      walkAncestorSpec exDb exC3 (some ⟨[0, 0]⟩) = .ok a) ∧
    DoltDB.Resolve exDb (some ⟨"refs/heads/master", .RefCommitSpec, some ⟨[0, 0]⟩⟩)
      = walkAncestorSpec exDb exC3 (some ⟨[0, 0]⟩) :=
  ⟨by decide,
   ((walkAncestorSpec_selects_parents exDb exC3 [0, 0]).2.2.1 exC1).mpr (by decide),
   (walkAncestorSpec_selects_parents exDb exC3 [0, 0]).2.2.2.1 exDb_grounded_C3
     exDb_hopsInRange,
   (walkAncestorSpec_selects_parents exDb exC3 [0, 0]).2.2.2.2
     ⟨"refs/heads/master", .RefCommitSpec, some ⟨[0, 0]⟩⟩ (by decide)⟩

theorem walkInstructions_append (db : Database) (pre rest : List Nat) :
    ∀ c a : Struct, followParents db c pre = some a →
      walkInstructions db (pre ++ rest) c = walkInstructions db rest a := by
  induction pre with
  | nil =>
    intro c a h
    simp only [followParents, Option.some.injEq] at h
    simp [h]
  | cons i pre ih =>
    intro c a h
    simp only [followParents, parentAt] at h
    simp only [List.cons_append, walkInstructions, NumParents, getParent]
    cases hg : c.parents[i]? with
    | none => simp [hg] at h
    | some r =>
      have hlt : i < c.parents.length := (List.getElem?_eq_some.mp hg).1
      rw [hg] at h
      simp only [hlt, if_true]
      cases hv : db.values r with
      | none => simp [hv] at h
      | some v =>
        cases v with
        | other n => simp [hv] at h
        | struct st =>
          simp only [hv] at h
          exact ih st a h

theorem walkInstructions_out_of_range (db : Database) (a : Struct) (i : Nat) (post : List Nat)
    (hi : a.parents.length ≤ i) :
    walkInstructions db (i :: post) a = .error .ErrInvalidAnscestorSpec := by
  simp [walkInstructions, NumParents, Nat.not_lt.mpr hi]

/-- C2: when the hops before position `pre.length` select existing parents and reach `a`,
and the next instruction `i` is greater than or equal to the number of parents of `a`
(in particular when `a` has no parents), `walkAncestorSpec` and `DoltDB.Resolve` fail with
`ErrInvalidAnscestorSpec`; an error result carries no commit. -/
theorem walkAncestorSpec_index_out_of_range (db : Database) (c a : Struct)
    (pre post : List Nat) (i : Nat)
    (h : followParents db c pre = some a) (hi : a.parents.length ≤ i) :
    walkAncestorSpec db c (some ⟨pre ++ i :: post⟩) = .error .ErrInvalidAnscestorSpec ∧
    (∀ cs : CommitSpec, baseCommit db cs = .ok c → cs.ASpec = some ⟨pre ++ i :: post⟩ →
      DoltDB.Resolve db (some cs) = .error .ErrInvalidAnscestorSpec) := by
  have hw : walkAncestorSpec db c (some ⟨pre ++ i :: post⟩)
      = .error .ErrInvalidAnscestorSpec := by
    have hne : (pre ++ i :: post).length ≠ 0 := by simp
    simp only [walkAncestorSpec, hne, if_false]
    rw [walkInstructions_append db pre (i :: post) c a h]
    exact walkInstructions_out_of_range db a i post hi
  refine ⟨hw, ?_⟩
  intro cs hb hs
  rw [Resolve_eq_walk db cs c hb, hs]
  exact hw

/-- A five-hop spec on the three-commit chain `exC3 → exC2 → exC1` fails. -/
theorem walkAncestorSpec_index_out_of_range_witness :
    followParents exDb exC3 [0, 0] = some exC1 ∧ exC1.parents.length ≤ 0 ∧
    DoltDB.Resolve exDb (some ⟨"refs/heads/master", .RefCommitSpec, some ⟨[0, 0, 0, 0, 0]⟩⟩)
      = .error .ErrInvalidAnscestorSpec :=
  ⟨by decide, by decide,
   (walkAncestorSpec_index_out_of_range exDb exC3 exC1 [0, 0] [0, 0] 0
      (by decide) (by decide)).2
      ⟨"refs/heads/master", .RefCommitSpec, some ⟨[0, 0, 0, 0, 0]⟩⟩ (by decide) rfl⟩

theorem Resolve_base_error (db : Database) (cs : CommitSpec) (e : Err)
    (hb : baseCommit db cs = .error e) : DoltDB.Resolve db (some cs) = .error e := by
  simp [DoltDB.Resolve, hb]

/-- C3: `DoltDB.Resolve` locates the base commit first and reports each way it can be missing:
a ref spec whose dataset has no head fails with `ErrBranchNotFound`; a hash spec whose
address holds no value fails with `ErrHashNotFound`; a hash spec whose address holds a
value that is not a struct named `Commit` fails with `ErrFoundHashNotACommit`. The result
is an error, so no commit is returned, and it is the same for every ancestor spec. -/
theorem Resolve_base_not_found (db : Database) (str : String) (aSpec : Option AncestorSpec) :
    (db.datasets str = none →
      DoltDB.Resolve db (some ⟨str, .RefCommitSpec, aSpec⟩) = .error .ErrBranchNotFound) ∧
    (∀ h : Hash, db.parsePath (prefixed str) = .ok h → db.values h = none →
      DoltDB.Resolve db (some ⟨str, .HashCommitSpec, aSpec⟩) = .error .ErrHashNotFound) ∧
    (∀ (h : Hash) (v : Value), db.parsePath (prefixed str) = .ok h → db.values h = some v →
      (∀ st : Struct, v = .struct st → st.name ≠ CommitStructName) →
      DoltDB.Resolve db (some ⟨str, .HashCommitSpec, aSpec⟩) = .error .ErrFoundHashNotACommit) := by
  refine ⟨?_, ?_, ?_⟩
  · intro hd
    apply Resolve_base_error
    simp [baseCommit, getCommitStForRef, Database.GetDataset, Dataset.MaybeHead, hd]
  · intro h hp hv
    apply Resolve_base_error
    simp [baseCommit, getCommitStForHash, hp, hv]
  · intro h v hp hv hn
    apply Resolve_base_error
    cases v with
    | other n => simp [baseCommit, getCommitStForHash, hp, hv]
    | struct st =>
      have := hn st rfl
      simp [baseCommit, getCommitStForHash, hp, hv, this]

/-- In the example repository: branch `feature` has no head, address 55 holds no value,
address 7 holds a value that is no struct and address 100 a struct named otherwise. -/
theorem Resolve_base_not_found_witness :
    DoltDB.Resolve exDb (some ⟨"refs/heads/feature", .RefCommitSpec, some ⟨[0]⟩⟩)
      = .error .ErrBranchNotFound ∧
    DoltDB.Resolve exDb (some ⟨"55", .HashCommitSpec, some ⟨[0]⟩⟩) = .error .ErrHashNotFound ∧
    DoltDB.Resolve exDb (some ⟨"7", .HashCommitSpec, none⟩) = .error .ErrFoundHashNotACommit ∧
    DoltDB.Resolve exDb (some ⟨"#100", .HashCommitSpec, none⟩) = .error .ErrFoundHashNotACommit :=
  ⟨(Resolve_base_not_found exDb "refs/heads/feature" (some ⟨[0]⟩)).1 (by decide),
   (Resolve_base_not_found exDb "55" (some ⟨[0]⟩)).2.1 55 (by decide) (by decide),
   (Resolve_base_not_found exDb "7" none).2.2 7 (.other 7) (by decide) (by decide)
      (by intro st h; cases h),
   (Resolve_base_not_found exDb "#100" none).2.2 100 (.struct exRoot) (by decide) (by decide)
      (by intro st h; cases h; decide)⟩

theorem mem_setInsert (x r : Hash) (s : List Hash) :
    x ∈ setInsert r s ↔ x = r ∨ x ∈ s := by
  unfold setInsert
  split_ifs with hr
  · constructor
    · intro hx; exact Or.inr hx
    · rintro (rfl | hx)
      · exact hr
      · exact hx
  · simp [List.mem_orderedInsert]

theorem nodup_setInsert (r : Hash) (s : List Hash) (hs : s.Nodup) :
    (setInsert r s).Nodup := by
  unfold setInsert
  split_ifs with hr
  · exact hs
  · rw [(List.perm_orderedInsert (· ≤ ·) r s).nodup_iff]
    exact List.nodup_cons.mpr ⟨hr, hs⟩

theorem insertParents_spec (db : Database) (specs : List (Option CommitSpec)) :
    ∀ (editor ps : List Hash), insertParents db specs editor = .ok ps →
      (editor.Nodup → ps.Nodup) ∧
      (∀ r, r ∈ ps ↔ r ∈ editor ∨
        ∃ spec ∈ specs, ∃ p, DoltDB.Resolve db spec = .ok p ∧ r = NewRef db p) := by
  induction specs with
  | nil =>
    intro editor ps h
    simp only [insertParents, Except.ok.injEq] at h
    subst h
    simp
  | cons spec rest ih =>
    intro editor ps h
    simp only [insertParents] at h
    cases hres : DoltDB.Resolve db spec with
    | error e => simp [hres] at h
    | ok p =>
      simp only [hres] at h
      obtain ⟨hnd, hmem⟩ := ih _ ps h
      refine ⟨fun hed => hnd (nodup_setInsert _ _ hed), ?_⟩
      intro r
      rw [hmem r, mem_setInsert]
      constructor
      · rintro ((rfl | hr) | ⟨sp, hsp, q, hq, rfl⟩)
        · exact Or.inr ⟨spec, List.mem_cons_self _ _, p, hres, rfl⟩
        · exact Or.inl hr
        · exact Or.inr ⟨sp, List.mem_cons_of_mem _ hsp, q, hq, rfl⟩
      · rintro (hr | ⟨sp, hsp, q, hq, rfl⟩)
        · exact Or.inl (Or.inr hr)
        · rcases List.mem_cons.mp hsp with rfl | hsp
          · rw [hres] at hq
            cases hq
            exact Or.inl (Or.inl rfl)
          · exact Or.inr ⟨sp, hsp, q, hq, rfl⟩

theorem commitParents_spec (db : Database) (id : String) (specs : List (Option CommitSpec))
    (ps : List Hash) (h : commitParents db (db.GetDataset id) specs = .ok ps) :
    ps.Nodup ∧
    (∀ r, r ∈ ps ↔ (∃ head, db.datasets id = some head ∧ r = NewRef db head) ∨
      ∃ spec ∈ specs, ∃ p, DoltDB.Resolve db spec = .ok p ∧ r = NewRef db p) := by
  unfold commitParents at h
  simp only [Dataset.MaybeHeadRef, Database.GetDataset] at h
  cases hd : db.datasets id with
  | none =>
    simp only [hd, Option.map_none'] at h
    obtain ⟨hnd, hmem⟩ := insertParents_spec db specs _ ps h
    refine ⟨hnd List.nodup_nil, ?_⟩
    intro r
    rw [hmem r]
    simp
  | some head =>
    simp only [hd, Option.map_some'] at h
    obtain ⟨hnd, hmem⟩ := insertParents_spec db specs _ ps h
    refine ⟨hnd (nodup_setInsert _ _ List.nodup_nil), ?_⟩
    intro r
    rw [hmem r, mem_setInsert]
    simp

theorem CommitWithParents_ok (db db1 : Database) (valHash : Hash) (dref : DoltRef)
    (specs : List (Option CommitSpec)) (cm : CommitMeta) (c : Commit)
    (h : DoltDB.CommitWithParents db valHash dref specs cm = (db1, .ok c)) :
    ∃ root ps, db.values valHash = some (.struct root) ∧ root.name = ddbRootStructName ∧
      commitParents db (db.GetDataset dref.String) specs = .ok ps ∧
      c = { name := CommitStructName, parents := ps, commitMeta := cm,
            value := db.hashOf (.struct root) } ∧
      db1 = (db.Commit (db.GetDataset dref.String) (.struct root) ⟨ps, cm⟩).1 := by
  unfold DoltDB.CommitWithParents at h
  cases hv : db.values valHash with
  | none => simp [hv] at h
  | some v =>
    cases v with
    | other n => simp [hv] at h
    | struct root =>
      simp only [hv] at h
      by_cases hn : root.name = ddbRootStructName
      · simp only [hn, ne_eq, not_true_eq_false, if_false] at h
        cases hp : commitParents db (db.GetDataset dref.String) specs with
        | error e => simp [hp] at h
        | ok ps =>
          simp only [hp] at h
          simp only [Database.Commit, Database.GetDataset, Dataset.MaybeHead,
            if_true, Prod.mk.injEq, Except.ok.injEq] at h
          refine ⟨root, ps, rfl, hn, rfl, h.2.symm, ?_⟩
          simp only [Database.Commit, Database.GetDataset]
          exact h.1.symm
      · simp [hn] at h

/-- C4: when `CommitWithParents` succeeds, the parent set handed to the new commit holds
the ref of the current head of the branch (when there is one) and the ref of the commit
each parent spec resolves to, and nothing else; each element occurs once, so a spec that
resolves to the head, or two specs that resolve to the same commit, add one element. With
no head and no parent specs the parent set is empty. -/
theorem CommitWithParents_parent_set (db db1 : Database) (valHash : Hash) (dref : DoltRef)
    (specs : List (Option CommitSpec)) (cm : CommitMeta) (c : Commit)
    (h : DoltDB.CommitWithParents db valHash dref specs cm = (db1, .ok c)) :
    commitParents db (db.GetDataset dref.String) specs = .ok c.parents ∧
    (∀ r, r ∈ c.parents ↔
      (∃ head, db.datasets dref.String = some head ∧ r = NewRef db head) ∨
      ∃ spec ∈ specs, ∃ p, DoltDB.Resolve db spec = .ok p ∧ r = NewRef db p) ∧
    c.parents.Nodup ∧ (∀ r, c.parents.count r ≤ 1) ∧
    (db.datasets dref.String = none → specs = [] → c.parents = []) := by
  obtain ⟨root, ps, -, -, hp, hc, -⟩ := CommitWithParents_ok db db1 valHash dref specs cm c h
  have hps : c.parents = ps := by rw [hc]
  rw [hps]
  obtain ⟨hnd, hmem⟩ := commitParents_spec db dref.String specs ps hp
  refine ⟨hp, hmem, hnd, fun r => List.nodup_iff_count_le_one.mp hnd r, ?_⟩
  intro hd hs
  apply List.eq_nil_iff_forall_not_mem.mpr
  intro r hr
  rcases (hmem r).mp hr with ⟨head, hh, -⟩ | ⟨sp, hsp, -⟩
  · rw [hd] at hh; cases hh
  · rw [hs] at hsp; cases hsp

/-- On `master` at `exC3`, with parent specs resolving to `exC3`, `exC2` and `exC2`, the
new commit has the two parents `exC2` and `exC3`. -/
theorem CommitWithParents_parent_set_witness :
    (DoltDB.CommitWithParents exDb 100 exMaster exSpecs (exMeta 40)).2 = .ok exMerge ∧
    commitParents exDb (exDb.GetDataset exMaster.String) exSpecs = .ok [2, 3] ∧
    exMerge.parents.Nodup :=
  ⟨rfl,
   (CommitWithParents_parent_set exDb
      (DoltDB.CommitWithParents exDb 100 exMaster exSpecs (exMeta 40)).1
      100 exMaster exSpecs (exMeta 40) exMerge rfl).1,
   (CommitWithParents_parent_set exDb
      (DoltDB.CommitWithParents exDb 100 exMaster exSpecs (exMeta 40)).1
      100 exMaster exSpecs (exMeta 40) exMerge rfl).2.2.1⟩

theorem insertParents_error (db : Database) (specs : List (Option CommitSpec))
    (hfail : ∃ spec ∈ specs, ∃ e, DoltDB.Resolve db spec = .error e) :
    ∀ editor : List Hash, ∃ e, insertParents db specs editor = .error e := by
  induction specs with
  | nil =>
    obtain ⟨sp, hsp, -⟩ := hfail
    cases hsp
  | cons spec rest ih =>
    intro editor
    simp only [insertParents]
    cases hres : DoltDB.Resolve db spec with
    | error e => exact ⟨e, rfl⟩
    | ok p =>
      obtain ⟨sp, hsp, e, he⟩ := hfail
      rcases List.mem_cons.mp hsp with rfl | hsp
      · rw [hres] at he; cases he
      · exact ih ⟨sp, hsp, e, he⟩ _

/-- C5: if the value at `valHash` is missing, is not a struct, or is a struct that does
not carry the root-value struct name, or if some parent commit spec fails to resolve, then
`CommitWithParents` returns an error, hence no commit, and leaves the database as it
was: every ref has the head it had before the call and no value was written. -/
theorem CommitWithParents_failure_keeps_refs (db : Database) (valHash : Hash) (dref : DoltRef)
    (specs : List (Option CommitSpec)) (cm : CommitMeta)
    (hbad : db.values valHash = none ∨ (∃ n, db.values valHash = some (.other n)) ∨
      (∃ st, db.values valHash = some (.struct st) ∧ st.name ≠ ddbRootStructName) ∨
      (∃ spec ∈ specs, ∃ e, DoltDB.Resolve db spec = .error e)) :
    (∃ e, DoltDB.CommitWithParents db valHash dref specs cm = (db, .error e)) ∧
    (DoltDB.CommitWithParents db valHash dref specs cm).1.datasets = db.datasets ∧
    (DoltDB.CommitWithParents db valHash dref specs cm).1.values = db.values := by
  have key : ∃ e, DoltDB.CommitWithParents db valHash dref specs cm = (db, .error e) := by
    unfold DoltDB.CommitWithParents
    cases hv : db.values valHash with
    | none => exact ⟨_, rfl⟩
    | some v =>
      cases v with
      | other n => exact ⟨_, rfl⟩
      | struct st =>
        by_cases hn : st.name = ddbRootStructName
        · have hfail : ∃ spec ∈ specs, ∃ e, DoltDB.Resolve db spec = .error e := by
            rcases hbad with h | ⟨n, h⟩ | ⟨st2, h, hne⟩ | h
            · rw [hv] at h; cases h
            · rw [hv] at h; cases h
            · rw [hv] at h; cases h; exact absurd hn hne
            · exact h
          obtain ⟨e, he⟩ := insertParents_error db specs hfail
            (match (db.GetDataset dref.String).MaybeHeadRef db with
              | some headRef => setInsert headRef []
              | none => [])
          have hp : commitParents db (db.GetDataset dref.String) specs = .error e := he
          simp only [hn, ne_eq, not_true_eq_false, if_false, hp]
          exact ⟨e, rfl⟩
        · simp only [ne_eq, hn, not_false_eq_true, if_true]
          exact ⟨_, rfl⟩
  obtain ⟨e, he⟩ := key
  exact ⟨⟨e, he⟩, by rw [he], by rw [he]⟩

/-- Committing the address of a value that is no root value, or with a parent spec naming
a branch without head, fails and leaves `master` at `exC3`. -/
theorem CommitWithParents_failure_keeps_refs_witness :
    (∃ e, DoltDB.CommitWithParents exDb 1 exMaster [] (exMeta 40) = (exDb, .error e)) ∧
    (DoltDB.CommitWithParents exDb 100 exMaster
      [some ⟨"refs/heads/feature", .RefCommitSpec, none⟩] (exMeta 40)).1.datasets
        = exDb.datasets ∧
    exDb.datasets exMaster.String = some exC3 :=
  ⟨(CommitWithParents_failure_keeps_refs exDb 1 exMaster [] (exMeta 40)
      (Or.inr (Or.inr (Or.inl ⟨exC1, by decide, by decide⟩)))).1,
   (CommitWithParents_failure_keeps_refs exDb 100 exMaster
      [some ⟨"refs/heads/feature", .RefCommitSpec, none⟩] (exMeta 40)
      (Or.inr (Or.inr (Or.inr ⟨_, List.mem_cons_self _ _, .ErrBranchNotFound, by decide⟩)))).2.1,
   by decide⟩

/-- C6: let branch `dref` have head `H`, let the address `H.value` hold a root value stored
under its own content address, and let `H` be neither one of its own parents nor share
its address with another commit. Then committing `H.value` to the branch succeeds with a
new commit whose hash differs from the hash of `H`, whose root-value hash is `H.value`,
which has `H` as a parent and which is the new head of the branch. -/
theorem Commit_same_root_new_commit (db : Database) (dref : DoltRef) (H root : Struct)
    (cm : CommitMeta)
    (hbranch : dref.GetType = .BranchRefType)
    (hhead : db.datasets dref.String = some H)
    (hroot : db.values H.value = some (.struct root))
    (hname : root.name = ddbRootStructName)
    (haddr : db.hashOf (.struct root) = H.value)
    (hacyclic : NewRef db H ∉ H.parents)
    (hunique : ∀ st : Struct, NewRef db st = NewRef db H → st = H) :
    ∃ c : Commit,
      DoltDB.Commit db H.value dref cm
        = ((DoltDB.Commit db H.value dref cm).1, .ok c) ∧
      NewRef db c ≠ NewRef db H ∧
      c.value = H.value ∧
      NewRef db H ∈ c.parents ∧
      (DoltDB.Commit db H.value dref cm).1.datasets dref.String = some c ∧
      (DoltDB.Commit db H.value dref cm).1.values (NewRef db c) = some (.struct c) := by
  have hparents : commitParents db (db.GetDataset dref.String) [] = .ok [NewRef db H] := by
    simp [commitParents, Database.GetDataset, Dataset.MaybeHeadRef, hhead, insertParents,
      setInsert]
  have hrun : DoltDB.Commit db H.value dref cm
      = ((db.Commit (db.GetDataset dref.String) (.struct root) ⟨[NewRef db H], cm⟩).1,
         .ok { name := CommitStructName, parents := [NewRef db H], commitMeta := cm,
               value := db.hashOf (.struct root) }) := by
    simp only [DoltDB.Commit, hbranch, ne_eq, not_true_eq_false, if_false,
      DoltDB.CommitWithParents, hroot, hname, hparents]
    simp [Database.Commit, Database.GetDataset, Dataset.MaybeHead]
  refine ⟨{ name := CommitStructName, parents := [NewRef db H], commitMeta := cm,
            value := db.hashOf (.struct root) }, ?_, ?_, haddr, ?_, ?_, ?_⟩
  · rw [hrun]
  · intro heq
    have hp : [NewRef db H] = H.parents := congrArg Struct.parents (hunique _ heq)
    apply hacyclic
    rw [← hp]
    exact List.mem_singleton_self _
  · exact List.mem_singleton_self _
  · rw [hrun]
    simp [Database.Commit, Database.GetDataset]
  · rw [hrun]
    simp [Database.Commit]

/-- Committing root value 100, the root value of its head `exC3`, to `master` gives the
new head `exNext`, whose only parent is `exC3`. -/
theorem Commit_same_root_new_commit_witness :
    (DoltDB.Commit exDb exC3.value exMaster (exMeta 40)).2 = .ok exNext ∧
    ∃ c : Commit,
      DoltDB.Commit exDb exC3.value exMaster (exMeta 40)
        = ((DoltDB.Commit exDb exC3.value exMaster (exMeta 40)).1, .ok c) ∧
      NewRef exDb c ≠ NewRef exDb exC3 ∧
      c.value = exC3.value ∧
      NewRef exDb exC3 ∈ c.parents ∧
      (DoltDB.Commit exDb exC3.value exMaster (exMeta 40)).1.datasets exMaster.String
        = some c ∧
      (DoltDB.Commit exDb exC3.value exMaster (exMeta 40)).1.values (NewRef exDb c)
        = some (.struct c) :=
  ⟨by decide,
   Commit_same_root_new_commit exDb exMaster exC3 exRoot (exMeta 40)
    (by decide) (by decide) (by decide) (by decide) (by decide) (by decide)
    (by
      intro st h
      have h3 : NewRef exDb exC3 = 3 := by decide
      rw [h3] at h
      unfold NewRef at h
      simp only [exDb, exHashOf] at h
      split_ifs at h with h1 h2 h3 h4 h5 <;> first
        | exact Value.struct.inj h3
        | exact absurd h (by decide))⟩

/-- C8: for a ref whose dataset has no head `DeleteBranch` returns `ErrBranchNotFound` and
leaves the database, so every ref binding, as it was; for a ref that has a head it calls
the delete of the store on the dataset of that ref and returns its database and its
error, if any. -/
theorem DeleteBranch_requires_head (db : Database) (dref : DoltRef) :
    (db.datasets dref.String = none →
      DoltDB.DeleteBranch db dref = (db, .error .ErrBranchNotFound)) ∧
    (∀ head, db.datasets dref.String = some head →
      (DoltDB.DeleteBranch db dref).1 = (db.Delete (db.GetDataset dref.String)).1 ∧
      (DoltDB.DeleteBranch db dref).2
        = (db.Delete (db.GetDataset dref.String)).2.map (fun _ => ())) := by
  constructor
  · intro hd
    simp [DoltDB.DeleteBranch, Database.GetDataset, Dataset.HasHead, hd]
  · intro head hd
    simp only [DoltDB.DeleteBranch, Database.GetDataset, Dataset.HasHead, hd,
      Option.isSome_some, Bool.not_true, Bool.false_eq_true, if_false]
    cases hdel : db.Delete { id := dref.String, head := some head } with
    | mk db1 r =>
      cases r with
      | error e => exact ⟨rfl, rfl⟩
      | ok ds => exact ⟨rfl, rfl⟩

/-- Branch `feature` has no head and cannot be deleted; deleting `master` removes its
head. -/
theorem DeleteBranch_requires_head_witness :
    DoltDB.DeleteBranch exDb ⟨.BranchRefType, "feature"⟩ = (exDb, .error .ErrBranchNotFound) ∧
    (DoltDB.DeleteBranch exDb exMaster).2 = .ok () ∧
    (DoltDB.DeleteBranch exDb exMaster).1.datasets exMaster.String = none :=
  ⟨(DeleteBranch_requires_head exDb ⟨.BranchRefType, "feature"⟩).1 (by decide),
   ((DeleteBranch_requires_head exDb exMaster).2 exC3 (by decide)).2,
   by decide⟩

theorem mem_sortSliceInsert {α : Type} (less : α → α → Bool) (x y : α) (run : List α) :
    y ∈ sortSliceInsert less x run ↔ y = x ∨ y ∈ run := by
  induction run with
  | nil => simp [sortSliceInsert]
  | cons p ps ih =>
    simp only [sortSliceInsert]
    split_ifs
    · simp only [List.mem_cons, ih]
      tauto
    · simp only [List.mem_cons]

theorem length_sortSliceInsert {α : Type} (less : α → α → Bool) (x : α) (run : List α) :
    (sortSliceInsert less x run).length = run.length + 1 := by
  induction run with
  | nil => simp [sortSliceInsert]
  | cons p ps ih =>
    simp only [sortSliceInsert]
    split_ifs
    · simp [ih]
    · simp

theorem length_sortSlice {α : Type} (less : α → α → Bool) (data : List α) :
    (sortSlice less data).length = data.length := by
  have key : ∀ (data run : List α),
      (data.foldl (fun run x => sortSliceInsert less x run) run).length
        = run.length + data.length := by
    intro data
    induction data with
    | nil => intro run; simp
    | cons x xs ih =>
      intro run
      simp only [List.foldl_cons, ih, length_sortSliceInsert, List.length_cons]
      omega
  simp [sortSlice, key]

/-- Inserting into a run that ascends by `key` (last element first) keeps it ascending,
when `less a b` is `key a > key b`. -/
theorem pairwise_sortSliceInsert {α : Type} (key : α → Nat) (x : α) (run : List α)
    (h : run.Pairwise (fun a b => key a ≤ key b)) :
    (sortSliceInsert (fun a b => decide (key a > key b)) x run).Pairwise
      (fun a b => key a ≤ key b) := by
  induction run with
  | nil => simp [sortSliceInsert]
  | cons p ps ih =>
    have hp := List.pairwise_cons.mp h
    simp only [sortSliceInsert]
    split_ifs with hlt
    · have hlt2 : key p < key x := by simpa using hlt
      refine List.pairwise_cons.mpr ⟨?_, ih hp.2⟩
      intro y hy
      rcases (mem_sortSliceInsert _ x y ps).mp hy with rfl | hy
      · exact Nat.le_of_lt hlt2
      · exact hp.1 y hy
    · have hle : key x ≤ key p := by simpa using hlt
      refine List.pairwise_cons.mpr ⟨?_, h⟩
      intro y hy
      rcases List.mem_cons.mp hy with rfl | hy
      · exact hle
      · exact Nat.le_trans hle (hp.1 y hy)

/-- The result of `sortSlice` with `less a b = key a > key b` descends by `key`. -/
theorem pairwise_sortSlice {α : Type} (key : α → Nat) (data : List α) :
    (sortSlice (fun a b => decide (key a > key b)) data).Pairwise
      (fun a b => key b ≤ key a) := by
  have inv : ∀ (data run : List α), run.Pairwise (fun a b => key a ≤ key b) →
      (data.foldl (fun run x => sortSliceInsert (fun a b => decide (key a > key b)) x run)
        run).Pairwise (fun a b => key a ≤ key b) := by
    intro data
    induction data with
    | nil => intro run h; simpa using h
    | cons x xs ih =>
      intro run h
      simp only [List.foldl_cons]
      exact ih _ (pairwise_sortSliceInsert key x run h)
  unfold sortSlice
  rw [List.pairwise_reverse]
  exact inv data [] List.Pairwise.nil

/-- C9: when `TimeSortedCommits` succeeds, the list it returns is ordered by descending
commit timestamp: for all positions `i < j` the timestamp of `res[i]` is greater than or
equal to the timestamp of `res[j]`. -/
theorem TimeSortedCommits_sorted (fuel : Nat) (db : Database) (commit : Commit) (n : Int)
    (res : List Commit) (h : TimeSortedCommits fuel db commit n = .ok res)
    (i j : Nat) (hij : i < j) (hj : j < res.length) :
    (res.get ⟨j, hj⟩).commitMeta.Timestamp
      ≤ (res.get ⟨i, Nat.lt_trans hij hj⟩).commitMeta.Timestamp := by
  unfold TimeSortedCommits at h
  cases hadd : AddCommits db fuel commit [] n with
  | error e => simp [hadd] at h
  | ok m =>
    simp only [hadd, Except.ok.injEq] at h
    have hs := pairwise_sortSlice (fun c : Commit => c.commitMeta.Timestamp)
      (m.map Prod.snd)
    rw [h] at hs
    exact (List.pairwise_iff_get.mp hs) ⟨i, Nat.lt_trans hij hj⟩ ⟨j, hj⟩ hij

/-- The history of `exC3`, newest first: `exC3`, `exC2`, `exC1`. -/
theorem TimeSortedCommits_sorted_witness :
    TimeSortedCommits 3 exDb exC3 (-1) = .ok [exC3, exC2, exC1] ∧
    exC1.commitMeta.Timestamp ≤ exC3.commitMeta.Timestamp :=
  ⟨by decide,
   TimeSortedCommits_sorted 3 exDb exC3 (-1) [exC3, exC2, exC1] (by decide) 0 2
     (by decide) (by decide)⟩

theorem ancestor_iff_parent (db : Database) (c t : Struct) :
    Ancestor db c t ↔ ∃ p, IsParent db c p ∧ (p = t ∨ Ancestor db p t) := by
  unfold Ancestor
  rw [Relation.TransGen.head'_iff]
  constructor
  · rintro ⟨p, hp, hpt⟩
    refine ⟨p, hp, ?_⟩
    rcases Relation.reflTransGen_iff_eq_or_transGen.mp hpt with h | h
    · exact Or.inl h.symm
    · exact Or.inr h
  · rintro ⟨p, hp, hpt⟩
    refine ⟨p, hp, ?_⟩
    rcases hpt with rfl | h
    · exact Relation.ReflTransGen.refl
    · exact h.to_reflTransGen

theorem searchParents_sound (db : Database) (t : Struct) (recur : Struct → Except Err Bool)
    (hrec : ∀ p, (recur p = .ok true → Ancestor db p t) ∧
      (recur p = .ok false → ¬ Ancestor db p t))
    (rs : List Hash) :
    (searchParents db t recur rs = .ok true →
      ∃ r ∈ rs, ∃ p, db.values r = some (.struct p) ∧ (p = t ∨ Ancestor db p t)) ∧
    (searchParents db t recur rs = .ok false →
      ∀ r ∈ rs, ∀ p, db.values r = some (.struct p) → p ≠ t ∧ ¬ Ancestor db p t) := by
  induction rs with
  | nil =>
    constructor
    · intro h; simp [searchParents] at h
    · intro _ r hr; cases hr
  | cons r rest ih =>
    simp only [searchParents]
    cases hv : db.values r with
    | none => simp
    | some v =>
      cases v with
      | other k => simp
      | struct p =>
        simp only
        by_cases hpt : p = t
        · simp only [hpt, if_true]
          constructor
          · intro _
            exact ⟨r, List.mem_cons_self _ _, p, hv, Or.inl hpt⟩
          · intro h; simp at h
        · simp only [hpt, if_false]
          cases hr : recur p with
          | error e => simp
          | ok b =>
            cases b with
            | true =>
              simp only [true_implies]
              constructor
              · exact ⟨r, List.mem_cons_self _ _, p, hv, Or.inr ((hrec p).1 hr)⟩
              · intro h; simp at h
            | false =>
              simp only
              constructor
              · intro h
                obtain ⟨r2, hr2, q, hq, hqt⟩ := ih.1 h
                exact ⟨r2, List.mem_cons_of_mem _ hr2, q, hq, hqt⟩
              · intro h r2 hr2 q hq
                rcases List.mem_cons.mp hr2 with rfl | hr2
                · rw [hv] at hq
                  cases hq
                  exact ⟨hpt, (hrec p).2 hr⟩
                · exact ih.2 h r2 hr2 q hq

theorem ancestorFound_sound (db : Database) (t : Struct) :
    ∀ (fuel : Nat) (c : Struct),
      (ancestorFound db t fuel c = .ok true → Ancestor db c t) ∧
      (ancestorFound db t fuel c = .ok false → ¬ Ancestor db c t) := by
  intro fuel
  induction fuel with
  | zero =>
    intro c
    constructor <;> intro h <;> simp [ancestorFound] at h
  | succ fuel ih =>
    intro c
    have hs := searchParents_sound db t (ancestorFound db t fuel) ih c.parents
    simp only [ancestorFound]
    constructor
    · intro h
      obtain ⟨r, hr, p, hp, hpt⟩ := hs.1 h
      exact (ancestor_iff_parent db c t).mpr ⟨p, ⟨r, hr, hp⟩, hpt⟩
    · intro h hanc
      obtain ⟨p, ⟨r, hr, hp⟩, hpt⟩ := (ancestor_iff_parent db c t).mp hanc
      have := hs.2 h r hr p hp
      rcases hpt with hpt | hpt
      · exact this.1 hpt
      · exact this.2 hpt

theorem searchParents_total (db : Database) (t : Struct) (recur : Struct → Except Err Bool)
    (rs : List Hash)
    (hrs : ∀ r ∈ rs, ∃ p, db.values r = some (.struct p) ∧ ∃ b, recur p = .ok b) :
    ∃ b, searchParents db t recur rs = .ok b := by
  induction rs with
  | nil => exact ⟨false, rfl⟩
  | cons r rest ih =>
    obtain ⟨p, hp, b, hb⟩ := hrs r (List.mem_cons_self _ _)
    simp only [searchParents, hp]
    by_cases hpt : p = t
    · exact ⟨true, by simp [hpt]⟩
    · simp only [hpt, if_false, hb]
      cases b with
      | true => exact ⟨true, rfl⟩
      | false => exact ih (fun r2 hr2 => hrs r2 (List.mem_cons_of_mem _ hr2))

/-- A bound on the fuel that serves every member of a list. -/
theorem exists_fuel_for_all {α : Type} (P : α → Nat → Prop) (l : List α)
    (h : ∀ a ∈ l, ∃ F, ∀ fuel, F ≤ fuel → P a fuel) :
    ∃ F, ∀ a ∈ l, ∀ fuel, F ≤ fuel → P a fuel := by
  induction l with
  | nil => exact ⟨0, fun a ha => by cases ha⟩
  | cons x xs ih =>
    obtain ⟨F1, h1⟩ := h x (List.mem_cons_self _ _)
    obtain ⟨F2, h2⟩ := ih (fun a ha => h a (List.mem_cons_of_mem _ ha))
    refine ⟨max F1 F2, ?_⟩
    intro a ha fuel hf
    rcases List.mem_cons.mp ha with rfl | ha
    · exact h1 fuel (le_trans (le_max_left _ _) hf)
    · exact h2 a ha fuel (le_trans (le_max_right _ _) hf)

theorem ancestorFound_total (db : Database) (t c : Struct) (hg : Grounded db c) :
    ∃ F, ∀ fuel, F ≤ fuel → ∃ b, ancestorFound db t fuel c = .ok b := by
  induction hg with
  | intro c hex _ ih =>
    have hall : ∀ r ∈ c.parents, ∃ F, ∀ fuel, F ≤ fuel →
        ∃ p, db.values r = some (.struct p) ∧ ∃ b, ancestorFound db t fuel p = .ok b := by
      intro r hr
      obtain ⟨p, hp⟩ := hex r hr
      obtain ⟨F, hF⟩ := ih r p hr hp
      exact ⟨F, fun fuel hf => ⟨p, hp, hF fuel hf⟩⟩
    obtain ⟨F, hF⟩ := exists_fuel_for_all
      (fun r fuel => ∃ p, db.values r = some (.struct p) ∧
        ∃ b, ancestorFound db t fuel p = .ok b) c.parents hall
    refine ⟨F + 1, ?_⟩
    intro fuel hf
    obtain ⟨k, rfl⟩ : ∃ k, fuel = k + 1 := ⟨fuel - 1, by omega⟩
    simp only [ancestorFound]
    exact searchParents_total db t _ c.parents (fun r hr => hF r hr k (by omega))

theorem CanFastForward_of_head (fuel : Nat) (db : Database) (branch : DoltRef)
    (c h : Commit) (hd : db.datasets branch.String = some h) :
    DoltDB.CanFastForward fuel db branch c = ancestorFound db h fuel c := by
  simp [DoltDB.CanFastForward, NewCommitSpecHEAD, DoltDB.Resolve, baseCommit,
    getCommitStForRef, Database.GetDataset, Dataset.MaybeHead, hd, walkAncestorSpec,
    Commit.CanFastForwardTo]

/-- C7: `CanFastForward(branch, c)` returns true, without error, when the branch has no
head. When the branch has head `h`, the answer true means that `h` is an ancestor of `c`
(it was found walking the parents of `c`), the answer false that it is not; when the
answer is false and `c` is stored under its address, `FastForward(branch, c)` returns an
error and leaves the database, so the branch, as it was; and on a finite stored history
of `c` every large enough fuel gives an answer. -/
theorem CanFastForward_spec (fuel : Nat) (db : Database) (branch : DoltRef) (c : Commit) :
    (db.datasets branch.String = none →
      DoltDB.CanFastForward fuel db branch c = .ok true) ∧
    (∀ h : Commit, db.datasets branch.String = some h →
      (DoltDB.CanFastForward fuel db branch c = .ok true → Ancestor db c h) ∧
      (DoltDB.CanFastForward fuel db branch c = .ok false → ¬ Ancestor db c h) ∧
      (DoltDB.CanFastForward fuel db branch c = .ok false →
        db.values (NewRef db c) = some (.struct c) →
        ∃ e, DoltDB.FastForward fuel db branch c = (db, .error e)) ∧
      (Grounded db c → ∃ F, ∀ f, F ≤ f →
        ∃ b, DoltDB.CanFastForward f db branch c = .ok b ∧ (b = true ↔ Ancestor db c h))) := by
  constructor
  · intro hd
    simp [DoltDB.CanFastForward, NewCommitSpecHEAD, DoltDB.Resolve, baseCommit,
      getCommitStForRef, Database.GetDataset, Dataset.MaybeHead, hd]
  · intro h hd
    rw [CanFastForward_of_head fuel db branch c h hd]
    refine ⟨(ancestorFound_sound db h fuel c).1, (ancestorFound_sound db h fuel c).2, ?_, ?_⟩
    · intro hfalse hstored
      refine ⟨.other "merge needed", ?_⟩
      simp [DoltDB.FastForward, Database.FastForward, Database.GetDataset, hstored, hd,
        hfalse]
    · intro hg
      obtain ⟨F, hF⟩ := ancestorFound_total db h c hg
      refine ⟨F, ?_⟩
      intro f hf
      obtain ⟨b, hb⟩ := hF f hf
      refine ⟨b, ?_, ?_⟩
      · rw [CanFastForward_of_head f db branch c h hd]
        exact hb
      · cases b with
        | true => simp [(ancestorFound_sound db h f c).1 hb]
        | false => simp [(ancestorFound_sound db h f c).2 hb]

/-- Branch `base` is at `exC1`, an ancestor of `exC2`: it can be fast-forwarded to `exC2`.
Branch `side` is at `exSide`, a sibling of `exC2`: it cannot, and `FastForward` is rejected.
Branch `feature` has no head. -/
theorem CanFastForward_spec_witness :
    DoltDB.CanFastForward 3 exDb ⟨.BranchRefType, "feature"⟩ exC2 = .ok true ∧
    DoltDB.CanFastForward 3 exDb ⟨.BranchRefType, "base"⟩ exC2 = .ok true ∧
    Ancestor exDb exC2 exC1 ∧
    DoltDB.CanFastForward 3 exDb ⟨.BranchRefType, "side"⟩ exC2 = .ok false ∧
    ¬ Ancestor exDb exC2 exSide ∧
    (∃ e, DoltDB.FastForward 3 exDb ⟨.BranchRefType, "side"⟩ exC2 = (exDb, .error e)) :=
  ⟨(CanFastForward_spec 3 exDb ⟨.BranchRefType, "feature"⟩ exC2).1 (by decide),
   by decide,
   ((CanFastForward_spec 3 exDb ⟨.BranchRefType, "base"⟩ exC2).2 exC1 (by decide)).1
     (by decide),
   by decide,
   ((CanFastForward_spec 3 exDb ⟨.BranchRefType, "side"⟩ exC2).2 exSide (by decide)).2.1
     (by decide),
   ((CanFastForward_spec 3 exDb ⟨.BranchRefType, "side"⟩ exC2).2 exSide (by decide)).2.2.1
     (by decide) (by decide)⟩

theorem length_keys (m : CommitMap) : m.keys.length = m.length := by
  simp [CommitMap.keys]

theorem keys_set (m : CommitMap) (k : Hash) (v : Commit) :
    (m.set k v).keys = if k ∈ m.keys then m.keys else m.keys ++ [k] := by
  unfold CommitMap.set
  split_ifs with hk
  · simp only [CommitMap.keys, List.map_map]
    apply List.map_congr_left
    intro e _
    simp only [Function.comp]
    split_ifs with he
    · exact he.symm
    · rfl
  · simp [CommitMap.keys]

theorem mem_keys_set (m : CommitMap) (k : Hash) (v : Commit) (h : Hash) :
    h ∈ (m.set k v).keys ↔ h ∈ m.keys ∨ h = k := by
  rw [keys_set]
  split_ifs with hk
  · constructor
    · exact Or.inl
    · rintro (hm | rfl)
      · exact hm
      · exact hk
  · simp

theorem nodup_keys_set (m : CommitMap) (k : Hash) (v : Commit) (hm : m.keys.Nodup) :
    (m.set k v).keys.Nodup := by
  rw [keys_set]
  split_ifs with hk
  · exact hm
  · exact List.Nodup.append hm (List.nodup_singleton k) (by simpa using hk)

theorem length_set_le (m : CommitMap) (k : Hash) (v : Commit) :
    (m.set k v).length ≤ m.length + 1 ∧ 1 ≤ (m.set k v).length := by
  rw [← length_keys, ← length_keys m, keys_set]
  split_ifs with hk
  · exact ⟨Nat.le_succ _, List.length_pos_of_mem hk⟩
  · simp

theorem ResolveParent_isParent (db : Database) (c p : Commit) (i : Nat)
    (h : DoltDB.ResolveParent db c i = .ok p) : IsParent db c p := by
  unfold DoltDB.ResolveParent at h
  simp only at h
  cases hg : c.parents[i]? with
  | none => simp [hg] at h
  | some r =>
    rw [hg] at h
    simp only at h
    cases hv : db.values r with
    | none => simp [hv] at h
    | some v =>
      cases v with
      | other k => simp [hv] at h
      | struct q =>
        simp only [hv, Except.ok.injEq] at h
        subst h
        exact ⟨r, List.getElem?_mem hg, hv⟩

theorem isParent_resolveParent (db : Database) (c p : Commit) (h : IsParent db c p) :
    ∃ i ∈ List.range c.parents.length, DoltDB.ResolveParent db c i = .ok p := by
  obtain ⟨r, hr, hv⟩ := h
  obtain ⟨i, hi, hget⟩ := List.getElem_of_mem hr
  refine ⟨i, List.mem_range.mpr hi, ?_⟩
  have hg : c.parents[i]? = some r := by
    rw [List.getElem?_eq_getElem hi, hget]
  simp [DoltDB.ResolveParent, hg, hv]

theorem reachableHash_of_parent (db : Database) (c p : Commit) (h : Hash)
    (hp : IsParent db c p) (hr : ReachableHash db p h) : ReachableHash db c h := by
  obtain ⟨a, ha, hh⟩ := hr
  exact ⟨a, Relation.ReflTransGen.head hp ha, hh⟩

/-- Once the map has size `n` the loop of `AddCommits` adds nothing. -/
theorem addParentCommits_full (db : Database)
    (recur : Commit → CommitMap → Except Err CommitMap) (commit : Commit) (n : Int)
    (is : List Nat) (m : CommitMap) (hfull : (m.length : Int) = n) :
    addParentCommits db recur commit n is m = .ok m := by
  cases is with
  | nil => rfl
  | cons i rest => simp [addParentCommits, hfull]

theorem addParentCommits_spec (db : Database)
    (recur : Commit → CommitMap → Except Err CommitMap) (commit : Commit) (n : Int)
    (hrec : ∀ p m m1, recur p m = .ok m1 → WalkResult db n p m m1) (is : List Nat) :
    ∀ m m1 : CommitMap, addParentCommits db recur commit n is m = .ok m1 →
      (∀ h, h ∈ m.keys → h ∈ m1.keys) ∧
      (∀ h, h ∈ m1.keys → h ∈ m.keys ∨
        ∃ i ∈ is, ∃ p, DoltDB.ResolveParent db commit i = .ok p ∧ ReachableHash db p h) ∧
      (m.keys.Nodup → m1.keys.Nodup) ∧
      (1 ≤ n → (m.length : Int) ≤ n → (m1.length : Int) ≤ n) ∧
      ((m1.length : Int) ≠ n → ∀ i ∈ is, ∃ p, DoltDB.ResolveParent db commit i = .ok p ∧
        ∀ h, ReachableHash db p h → h ∈ m1.keys) := by
  induction is with
  | nil =>
    intro m m1 h
    simp only [addParentCommits, Except.ok.injEq] at h
    subst h
    refine ⟨fun _ hh => hh, fun _ hh => Or.inl hh, fun hh => hh, fun _ hh => hh, ?_⟩
    intro _ i hi
    cases hi
  | cons i rest ih =>
    intro m m1 h
    simp only [addParentCommits] at h
    by_cases hlen : (m.length : Int) = n
    · simp only [hlen, if_true, Except.ok.injEq] at h
      subst h
      refine ⟨fun _ hh => hh, fun _ hh => Or.inl hh, fun hh => hh, fun _ hh => hh, ?_⟩
      intro hne
      exact absurd hlen hne
    · simp only [hlen, if_false] at h
      cases hres : DoltDB.ResolveParent db commit i with
      | error e => simp [hres] at h
      | ok p =>
        simp only [hres] at h
        cases hcall : recur p m with
        | error e => simp [hcall] at h
        | ok m2 =>
          simp only [hcall] at h
          obtain ⟨r1, r2, r3, r4, r5, -⟩ := hrec p m m2 hcall
          obtain ⟨l1, l2, l3, l4, l5⟩ := ih m2 m1 h
          refine ⟨fun k hk => l1 k (r1 k hk), ?_, fun hm => l3 (r3 hm), ?_, ?_⟩
          · intro k hk
            rcases l2 k hk with hk2 | ⟨j, hj, q, hq, hreach⟩
            · rcases r2 k hk2 with hk3 | hreach
              · exact Or.inl hk3
              · exact Or.inr ⟨i, List.mem_cons_self _ _, p, hres, hreach⟩
            · exact Or.inr ⟨j, List.mem_cons_of_mem _ hj, q, hq, hreach⟩
          · intro hn hle
            have hlt : (m.length : Int) < n := lt_of_le_of_ne hle hlen
            exact l4 hn (r4 hn hlt)
          · intro hne j hj
            rcases List.mem_cons.mp hj with rfl | hj
            · refine ⟨p, hres, ?_⟩
              intro k hk
              have hm2 : (m2.length : Int) ≠ n := by
                intro hfull
                rw [addParentCommits_full db recur commit n rest m2 hfull] at h
                simp only [Except.ok.injEq] at h
                subst h
                exact hne hfull
              exact l1 k (r5 hm2 k hk)
            · exact l5 hne j hj

theorem AddCommits_spec (db : Database) (n : Int) :
    ∀ (fuel : Nat) (c : Commit) (m m1 : CommitMap),
      AddCommits db fuel c m n = .ok m1 → WalkResult db n c m m1 := by
  intro fuel
  induction fuel with
  | zero =>
    intro c m m1 h
    simp [AddCommits] at h
  | succ fuel ih =>
    intro c m m1 h
    simp only [AddCommits, NumParents] at h
    obtain ⟨l1, l2, l3, l4, l5⟩ := addParentCommits_spec db
      (fun parentCommit m => AddCommits db fuel parentCommit m n) c n
      (fun p m m2 hp => ih p m m2 hp) (List.range c.parents.length) _ m1 h
    have hself : ReachableHash db c (Commit.HashOf db c) :=
      ⟨c, Relation.ReflTransGen.refl, rfl⟩
    refine ⟨?_, ?_, ?_, ?_, ?_, l1 _ ((mem_keys_set m _ c _).mpr (Or.inr rfl))⟩
    · intro k hk
      exact l1 k ((mem_keys_set m _ c k).mpr (Or.inl hk))
    · intro k hk
      rcases l2 k hk with hk0 | ⟨i, _, p, hp, hreach⟩
      · rcases (mem_keys_set m _ c k).mp hk0 with hk1 | rfl
        · exact Or.inl hk1
        · exact Or.inr hself
      · exact Or.inr (reachableHash_of_parent db c p k (ResolveParent_isParent db c p i hp)
          hreach)
    · intro hm
      exact l3 (nodup_keys_set m _ c hm)
    · intro hn hlt
      apply l4 hn
      have := (length_set_le m (Commit.HashOf db c) c).1
      omega
    · intro hne k hk
      obtain ⟨a, ha, hh⟩ := hk
      rcases Relation.ReflTransGen.cases_head ha with rfl | ⟨p, hp, hpa⟩
      · rw [← hh]
        exact l1 _ ((mem_keys_set m _ c _).mpr (Or.inr rfl))
      · obtain ⟨i, hi, hres⟩ := isParent_resolveParent db c p hp
        obtain ⟨q, hq, hall⟩ := l5 hne i hi
        rw [hres] at hq
        cases hq
        exact hall k ⟨a, hpa, hh⟩

theorem addParentCommits_total (db : Database)
    (recur : Commit → CommitMap → Except Err CommitMap) (commit : Commit) (n : Int)
    (is : List Nat)
    (h : ∀ i ∈ is, ∃ p, DoltDB.ResolveParent db commit i = .ok p ∧
      ∀ m, ∃ m1, recur p m = .ok m1) :
    ∀ m : CommitMap, ∃ m1, addParentCommits db recur commit n is m = .ok m1 := by
  induction is with
  | nil => intro m; exact ⟨m, rfl⟩
  | cons i rest ih =>
    intro m
    simp only [addParentCommits]
    by_cases hlen : (m.length : Int) = n
    · exact ⟨m, by simp [hlen]⟩
    · obtain ⟨p, hp, hcall⟩ := h i (List.mem_cons_self _ _)
      obtain ⟨m2, hm2⟩ := hcall m
      simp only [hlen, if_false, hp, hm2]
      exact ih (fun j hj => h j (List.mem_cons_of_mem _ hj)) m2

/-- On a finite stored history `AddCommits` returns a map for every large enough fuel. -/
theorem AddCommits_total (db : Database) (n : Int) (c : Commit) (hg : Grounded db c) :
    ∃ F, ∀ fuel, F ≤ fuel → ∀ m : CommitMap, ∃ m1, AddCommits db fuel c m n = .ok m1 := by
  induction hg with
  | intro c hex _ ih =>
    have hall : ∀ r ∈ c.parents, ∃ F, ∀ fuel, F ≤ fuel →
        ∀ p, db.values r = some (.struct p) →
          ∀ m : CommitMap, ∃ m1, AddCommits db fuel p m n = .ok m1 := by
      intro r hr
      obtain ⟨p, hp⟩ := hex r hr
      obtain ⟨F, hF⟩ := ih r p hr hp
      refine ⟨F, ?_⟩
      intro fuel hf q hq
      rw [hp] at hq
      cases hq
      exact hF fuel hf
    obtain ⟨F, hF⟩ := exists_fuel_for_all
      (fun r fuel => ∀ p, db.values r = some (.struct p) →
        ∀ m : CommitMap, ∃ m1, AddCommits db fuel p m n = .ok m1) c.parents hall
    refine ⟨F + 1, ?_⟩
    intro fuel hf m
    obtain ⟨k, rfl⟩ : ∃ k, fuel = k + 1 := ⟨fuel - 1, by omega⟩
    simp only [AddCommits, NumParents]
    apply addParentCommits_total
    intro i hi
    have hlt : i < c.parents.length := List.mem_range.mp hi
    obtain ⟨p, hp⟩ := hex (c.parents[i]) (List.getElem_mem hlt)
    refine ⟨p, ?_, hF _ (List.getElem_mem hlt) k (by omega) p hp⟩
    simp [DoltDB.ResolveParent, List.getElem?_eq_getElem hlt, hp]

/-- The size of the list `TimeSortedCommits` returns, for every limit: with `r` the number
of distinct hashes of commits reachable from the start, it is `min n r` for `1 ≤ n` and
`r` for `n ≤ 0`. -/
theorem TimeSortedCommits_size_of_ok (fuel : Nat) (db : Database) (c : Commit) (n : Int)
    (R : List Hash) (res : List Commit) (hnd : R.Nodup)
    (hR : ∀ h, h ∈ R ↔ ReachableHash db c h)
    (h : TimeSortedCommits fuel db c n = .ok res) :
    (1 ≤ n → (res.length : Int) = min n (R.length : Int)) ∧
    (n ≤ 0 → res.length = R.length) := by
  unfold TimeSortedCommits at h
  cases hadd : AddCommits db fuel c [] n with
  | error e => simp [hadd] at h
  | ok m =>
    simp only [hadd, Except.ok.injEq] at h
    have hlen : res.length = m.keys.length := by
      rw [← h, length_sortSlice, List.length_map, length_keys]
    obtain ⟨-, w2, w3, w4, w5, w6⟩ := AddCommits_spec db n fuel c [] m hadd
    have hd : m.keys.Nodup := w3 List.nodup_nil
    have hsub : m.keys ⊆ R := by
      intro k hk
      rcases w2 k hk with hk0 | hreach
      · cases hk0
      · exact (hR k).mpr hreach
    have hle : m.keys.length ≤ R.length := (List.Nodup.subperm hd hsub).length_le
    have hpos : 1 ≤ m.keys.length := List.length_pos_of_mem w6
    have hall : (m.length : Int) ≠ n → m.keys.length = R.length := by
      intro hne
      apply List.Perm.length_eq
      apply (List.perm_ext_iff_of_nodup hd hnd).mpr
      intro k
      exact ⟨fun hk => hsub hk, fun hk => w5 hne k ((hR k).mp hk)⟩
    have hkl := length_keys m
    constructor
    · intro hn
      have hmax : (m.length : Int) ≤ n := w4 hn (by simpa using hn)
      by_cases hfull : (m.length : Int) = n
      · rw [hlen, hkl, hfull]
        have : n ≤ (R.length : Int) := by omega
        exact (min_eq_left this).symm
      · have := hall hfull
        rw [hlen, this]
        have : (R.length : Int) ≤ n := by omega
        exact (min_eq_right this).symm
    · intro hn
      have hne : (m.length : Int) ≠ n := by omega
      rw [hlen]
      exact hall hne

/-- C10 (amended): for every commit whose history is finite and stored, and every limit
`n ≥ 1`, `TimeSortedCommits` returns, for every large enough fuel, a list of exactly
`min n r` commits, where `r` is the number of distinct hashes of commits reachable from
the start commit through parent links, the start commit included. -/
theorem TimeSortedCommits_length (db : Database) (c : Commit) (n : Int) (R : List Hash)
    (hn : 1 ≤ n) (hg : Grounded db c) (hnd : R.Nodup)
    (hR : ∀ h, h ∈ R ↔ ReachableHash db c h) :
    ∃ F, ∀ fuel, F ≤ fuel → ∃ res, TimeSortedCommits fuel db c n = .ok res ∧
      (res.length : Int) = min n (R.length : Int) := by
  obtain ⟨F, hF⟩ := AddCommits_total db n c hg
  refine ⟨F, ?_⟩
  intro fuel hf
  obtain ⟨m, hm⟩ := hF fuel hf []
  have hrun : ∃ res, TimeSortedCommits fuel db c n = .ok res := by
    simp [TimeSortedCommits, hm]
  obtain ⟨res, hres⟩ := hrun
  exact ⟨res, hres, (TimeSortedCommits_size_of_ok fuel db c n R res hnd hR hres).1 hn⟩

/-- From `exC3`, whose history has the three commits `exC3`, `exC2`, `exC1`, the limit 2
gives two commits. -/
theorem TimeSortedCommits_length_witness :
    TimeSortedCommits 3 exDb exC3 2 = .ok [exC3, exC2] ∧
    ∃ F, ∀ fuel, F ≤ fuel → ∃ res, TimeSortedCommits fuel exDb exC3 2 = .ok res ∧
      (res.length : Int) = min 2 ((([1, 2, 3] : List Hash).length : Nat) : Int) :=
  ⟨by decide,
   TimeSortedCommits_length exDb exC3 2 [1, 2, 3] (by decide) exDb_grounded_C3 (by decide)
     exDb_reachableHash_C3⟩

/-- C10 as stated fails at the limit `n = 0`: from `exC3`, whose history has three
distinct commits, `TimeSortedCommits` returns all three, not `min 0 3 = 0` of them. -/
theorem TimeSortedCommits_limit_zero_counterexample :
    Grounded exDb exC3 ∧ ([1, 2, 3] : List Hash).Nodup ∧
    (∀ h, h ∈ ([1, 2, 3] : List Hash) ↔ ReachableHash exDb exC3 h) ∧ (0 : Int) ≤ 0 ∧
    TimeSortedCommits 3 exDb exC3 0 = .ok [exC3, exC2, exC1] ∧
    ((([exC3, exC2, exC1] : List Commit).length : Nat) : Int)
      ≠ min 0 ((([1, 2, 3] : List Hash).length : Nat) : Int) :=
  ⟨exDb_grounded_C3, by decide, exDb_reachableHash_C3, le_refl 0, by decide, by decide⟩

/-! ### C11: the commits of the history listing -/

theorem perm_sortSliceInsert {α : Type} (less : α → α → Bool) (x : α) (run : List α) :
    (sortSliceInsert less x run).Perm (x :: run) := by
  induction run with
  | nil => exact List.Perm.refl _
  | cons p ps ih =>
    simp only [sortSliceInsert]
    split_ifs
    · exact (List.Perm.cons p ih).trans (List.Perm.swap x p ps)
    · exact List.Perm.refl _

theorem perm_sortSlice {α : Type} (less : α → α → Bool) (data : List α) :
    (sortSlice less data).Perm data := by
  have key : ∀ (data run : List α),
      (data.foldl (fun run x => sortSliceInsert less x run) run).Perm (data.reverse ++ run) := by
    intro data
    induction data with
    | nil => intro run; simp
    | cons x xs ih =>
      intro run
      simp only [List.foldl_cons, List.reverse_cons, List.append_assoc, List.singleton_append]
      exact (ih _).trans (List.Perm.append_left _ (perm_sortSliceInsert less x run))
  unfold sortSlice
  have h := key data []
  rw [List.append_nil] at h
  exact (List.reverse_perm _).trans (h.trans (List.reverse_perm _))

theorem mem_commitMap_set (m : CommitMap) (k : Hash) (v : Commit) (e : Hash × Commit)
    (he : e ∈ m.set k v) : e ∈ m ∨ e = (k, v) := by
  unfold CommitMap.set at he
  split_ifs at he with hk
  · obtain ⟨e0, he0, hf⟩ := List.mem_map.mp he
    split_ifs at hf with h0
    · exact Or.inr hf.symm
    · exact Or.inl (hf ▸ he0)
  · rcases List.mem_append.mp he with h | h
    · exact Or.inl h
    · exact Or.inr (List.mem_singleton.mp h)

theorem addParentCommits_entries (db : Database) (c0 : Struct)
    (recur : Commit → CommitMap → Except Err CommitMap) (commit : Commit) (n : Int)
    (hc : Reachable db c0 commit)
    (hrec : ∀ p m m1, Reachable db c0 p → EntriesOK db c0 m → recur p m = .ok m1 →
      EntriesOK db c0 m1)
    (is : List Nat) :
    ∀ m m1 : CommitMap, EntriesOK db c0 m →
      addParentCommits db recur commit n is m = .ok m1 → EntriesOK db c0 m1 := by
  induction is with
  | nil =>
    intro m m1 hm h
    simp only [addParentCommits, Except.ok.injEq] at h
    exact h ▸ hm
  | cons i rest ih =>
    intro m m1 hm h
    simp only [addParentCommits] at h
    by_cases hlen : (m.length : Int) = n
    · simp only [hlen, if_true, Except.ok.injEq] at h
      exact h ▸ hm
    · simp only [hlen, if_false] at h
      cases hres : DoltDB.ResolveParent db commit i with
      | error e => simp [hres] at h
      | ok p =>
        simp only [hres] at h
        cases hcall : recur p m with
        | error e => simp [hcall] at h
        | ok m2 =>
          simp only [hcall] at h
          have hp : Reachable db c0 p :=
            Relation.ReflTransGen.tail hc (ResolveParent_isParent db commit p i hres)
          exact ih m2 m1 (hrec p m m2 hp hm hcall) h

theorem AddCommits_entries (db : Database) (c0 : Struct) (n : Int) :
    ∀ (fuel : Nat) (c : Commit) (m m1 : CommitMap), Reachable db c0 c →
      EntriesOK db c0 m → AddCommits db fuel c m n = .ok m1 → EntriesOK db c0 m1 := by
  intro fuel
  induction fuel with
  | zero =>
    intro c m m1 _ _ h
    simp [AddCommits] at h
  | succ fuel ih =>
    intro c m m1 hc hm h
    simp only [AddCommits, NumParents] at h
    refine addParentCommits_entries db c0 _ c n hc
      (fun p m m2 hp hm2 hcall => ih p m m2 hp hm2 hcall) _ _ m1 ?_ h
    intro e he
    rcases mem_commitMap_set m _ c e he with h0 | h0
    · exact hm e h0
    · rw [h0]
      exact ⟨rfl, hc⟩

/-- The hashes of the commits `TimeSortedCommits` returns are the keys of the map that
`AddCommits` filled, in some order, and every returned commit is reachable. -/
theorem TimeSortedCommits_of_map (fuel : Nat) (db : Database) (c : Commit) (n : Int)
    (res : List Commit) (h : TimeSortedCommits fuel db c n = .ok res) :
    ∃ m : CommitMap, AddCommits db fuel c [] n = .ok m ∧
      (res.map (Commit.HashOf db)).Perm m.keys ∧ ∀ a ∈ res, Reachable db c a := by
  unfold TimeSortedCommits at h
  cases hadd : AddCommits db fuel c [] n with
  | error e => simp [hadd] at h
  | ok m =>
    simp only [hadd, Except.ok.injEq] at h
    have hent : EntriesOK db c m :=
      AddCommits_entries db c n fuel c [] m Relation.ReflTransGen.refl
        (fun e he => by cases he) hadd
    have hperm : res.Perm (m.map Prod.snd) := h ▸ perm_sortSlice _ _
    refine ⟨m, rfl, ?_, ?_⟩
    · have hkeys : (m.map Prod.snd).map (Commit.HashOf db) = m.keys := by
        simp only [CommitMap.keys, List.map_map]
        apply List.map_congr_left
        intro e he
        exact (hent e he).1.symm
      rw [← hkeys]
      exact hperm.map _
    · intro a ha
      obtain ⟨e, he, hea⟩ := List.mem_map.mp (hperm.mem_iff.mp ha)
      rw [← hea]
      exact (hent e he).2

/-- C11: the list `TimeSortedCommits` returns holds no two commits with the same hash,
holds a commit with the hash of the start commit (the start commit itself when no other
commit of its history shares its hash), and holds only commits reachable from the start
commit through parent links. When `n` is negative the hash of every reachable commit
occurs in it exactly once. On a finite stored history every large enough fuel returns
such a list. -/
theorem TimeSortedCommits_unique_reachable (db : Database) (c : Commit) (n : Int) :
    (∀ (fuel : Nat) (res : List Commit), TimeSortedCommits fuel db c n = .ok res →
      (res.map (Commit.HashOf db)).Nodup ∧
      (∃ a ∈ res, Commit.HashOf db a = Commit.HashOf db c) ∧
      ((∀ a, Reachable db c a → Commit.HashOf db a = Commit.HashOf db c → a = c) →
        c ∈ res) ∧
      (∀ a ∈ res, Reachable db c a) ∧
      (n < 0 → ∀ a, Reachable db c a →
        (res.map (Commit.HashOf db)).count (Commit.HashOf db a) = 1)) ∧
    (Grounded db c → ∃ F, ∀ fuel, F ≤ fuel →
      ∃ res, TimeSortedCommits fuel db c n = .ok res) := by
  constructor
  · intro fuel res h
    obtain ⟨m, hadd, hperm, hreach⟩ := TimeSortedCommits_of_map fuel db c n res h
    obtain ⟨-, -, w3, -, w5, w6⟩ := AddCommits_spec db n fuel c [] m hadd
    have hnd : (res.map (Commit.HashOf db)).Nodup :=
      hperm.nodup_iff.mpr (w3 List.nodup_nil)
    have hstart : ∃ a ∈ res, Commit.HashOf db a = Commit.HashOf db c := by
      have := hperm.mem_iff.mpr w6
      obtain ⟨a, ha, hh⟩ := List.mem_map.mp this
      exact ⟨a, ha, hh⟩
    refine ⟨hnd, hstart, ?_, hreach, ?_⟩
    · intro hinj
      obtain ⟨a, ha, hh⟩ := hstart
      have := hinj a (hreach a ha) hh
      exact this ▸ ha
    · intro hn a ha
      have hne : (m.length : Int) ≠ n := by omega
      have hk : Commit.HashOf db a ∈ m.keys := w5 hne _ ⟨a, ha, rfl⟩
      exact List.count_eq_one_of_mem hnd (hperm.mem_iff.mpr hk)
  · intro hg
    obtain ⟨F, hF⟩ := AddCommits_total db n c hg
    refine ⟨F, ?_⟩
    intro fuel hf
    obtain ⟨m, hm⟩ := hF fuel hf []
    simp [TimeSortedCommits, hm]

/-- The log of `exC3` without limit: its three commits, each once. -/
theorem TimeSortedCommits_unique_reachable_witness :
    TimeSortedCommits 3 exDb exC3 (-1) = .ok [exC3, exC2, exC1] ∧
    (([exC3, exC2, exC1] : List Commit).map (Commit.HashOf exDb)).Nodup ∧
    (([exC3, exC2, exC1] : List Commit).map (Commit.HashOf exDb)).count
      (Commit.HashOf exDb exC1) = 1 ∧
    (∃ F, ∀ fuel, F ≤ fuel → ∃ res, TimeSortedCommits fuel exDb exC3 (-1) = .ok res) :=
  ⟨by decide,
   ((TimeSortedCommits_unique_reachable exDb exC3 (-1)).1 3 [exC3, exC2, exC1]
      (by decide)).1,
   ((TimeSortedCommits_unique_reachable exDb exC3 (-1)).1 3 [exC3, exC2, exC1]
      (by decide)).2.2.2.2 (by decide) exC1
      ((exDb_reachable_C3 exC1).mpr (Or.inr (Or.inr rfl))),
   (TimeSortedCommits_unique_reachable exDb exC3 (-1)).2 exDb_grounded_C3⟩

/-- C19 (code at the failing input): `exC1` has no parents, and `ResolveParent` for
index 0 panics on the nil value the iterator yields, where `getParent`, its sibling,
answers nil and lets `walkAncestorSpec` return `ErrInvalidAnscestorSpec`. For an index
below the number of parents it returns the commit that parent ref points at. -/
theorem ResolveParent_past_end_panics :
    NumParents exC1 = .ok 0 ∧
    DoltDB.ResolveParent exDb exC1 0
      = .error (.panicked "interface conversion: interface is nil, not types.Ref") ∧
    getParent exDb exC1 0 = .ok none ∧
    walkAncestorSpec exDb exC1 (some ⟨[0]⟩) = .error .ErrInvalidAnscestorSpec ∧
    DoltDB.ResolveParent exDb exC2 0 = .ok exC1 := by
  decide

/-! ### C20: data locations -/

/-- C20: `NewDataLocation(p, "")` keeps the path and infers the format: a valid table
name gives `DoltDB`; otherwise a path whose extension is, ignoring case, `.csv`, `.psv`,
`.xlsx`, `.json` or `.sql` gives the format of that name. For a location with one of
these six formats `IsFileType` is true exactly when the format is not `DoltDB`,
`RequiresPK` exactly when it is, and `MustWriteSorted` is false. -/
theorem NewDataLocation_infers_format (valid : String → Bool) (p : String) :
    (mvdata.NewDataLocation valid p "").Path = p ∧
    (valid p = true → (mvdata.NewDataLocation valid p "").Format = mvdata.DoltDB) ∧
    (valid p = false →
      ∀ fmt ∈ [mvdata.CsvFile, mvdata.PsvFile, mvdata.XlsxFile, mvdata.JsonFile,
        mvdata.SqlFile],
      mvdata.ToLower (mvdata.Ext p) = fmt → (mvdata.NewDataLocation valid p "").Format = fmt) ∧
    (∀ dl : mvdata.DataLocation,
      dl.Format ∈ [mvdata.DoltDB, mvdata.CsvFile, mvdata.PsvFile, mvdata.XlsxFile,
        mvdata.JsonFile, mvdata.SqlFile] →
      dl.IsFileType = .ok (decide (dl.Format ≠ mvdata.DoltDB)) ∧
      dl.RequiresPK = decide (dl.Format = mvdata.DoltDB) ∧
      dl.MustWriteSorted = false) := by
  refine ⟨rfl, ?_, ?_, ?_⟩
  · intro hv
    simp [mvdata.NewDataLocation, hv]
  · intro hv fmt hfmt hext
    simp only [List.mem_cons, List.mem_singleton, List.not_mem_nil, or_false] at hfmt
    rcases hfmt with rfl | rfl | rfl | rfl | rfl <;>
      simp [mvdata.NewDataLocation, hv, hext, mvdata.CsvFile, mvdata.PsvFile,
        mvdata.XlsxFile, mvdata.JsonFile, mvdata.SqlFile]
  · intro dl hdl
    simp only [List.mem_cons, List.mem_singleton, List.not_mem_nil, or_false] at hdl
    refine ⟨?_, rfl, rfl⟩
    rcases hdl with h | h | h | h | h | h <;>
      simp [mvdata.DataLocation.IsFileType, h, mvdata.DoltDB, mvdata.CsvFile,
        mvdata.PsvFile, mvdata.XlsxFile, mvdata.JsonFile, mvdata.SqlFile,
        mvdata.InvalidDataFormat]

/-- The rows of `TestBasics`, and an extension in capitals. -/
theorem NewDataLocation_infers_format_witness :
    mvdata.NewDataLocation mvdata.exIsValidTableName "table-name" "" = ⟨"table-name", mvdata.DoltDB⟩ ∧
    mvdata.NewDataLocation mvdata.exIsValidTableName "file.csv" "" = ⟨"file.csv", mvdata.CsvFile⟩ ∧
    mvdata.NewDataLocation mvdata.exIsValidTableName "file.psv" "" = ⟨"file.psv", mvdata.PsvFile⟩ ∧
    mvdata.NewDataLocation mvdata.exIsValidTableName "file.json" "" = ⟨"file.json", mvdata.JsonFile⟩ ∧
    (mvdata.NewDataLocation mvdata.exIsValidTableName "table-name" "").Format = mvdata.DoltDB ∧
    (mvdata.NewDataLocation mvdata.exIsValidTableName "dir/Data.SQL" "").Format = mvdata.SqlFile ∧
    (⟨"file.csv", mvdata.CsvFile⟩ : mvdata.DataLocation).IsFileType = .ok true ∧
    (⟨"table-name", mvdata.DoltDB⟩ : mvdata.DataLocation).IsFileType = .ok false :=
  ⟨by decide, by decide, by decide, by decide,
   (NewDataLocation_infers_format mvdata.exIsValidTableName "table-name").2.1 (by decide),
   (NewDataLocation_infers_format mvdata.exIsValidTableName "dir/Data.SQL").2.2.1 (by decide)
     mvdata.SqlFile (by decide) (by decide),
   ((NewDataLocation_infers_format mvdata.exIsValidTableName "file.csv").2.2.2
     ⟨"file.csv", mvdata.CsvFile⟩ (by decide)).1,
   ((NewDataLocation_infers_format mvdata.exIsValidTableName "table-name").2.2.2
     ⟨"table-name", mvdata.DoltDB⟩ (by decide)).1⟩

/-! ### C16: the order of Int and UUID values -/

theorem lessBytes_irrefl (l : List Nat) : types.lessBytes l l = false := by
  induction l with
  | nil => rfl
  | cons b rest ih => simp [types.lessBytes, ih]

theorem lessBytes_trans :
    ∀ a b c : List Nat, types.lessBytes a b = true → types.lessBytes b c = true →
      types.lessBytes a c = true := by
  intro a
  induction a with
  | nil => intro b c h; simp [types.lessBytes] at h
  | cons x a ih =>
    intro b c hab hbc
    cases b with
    | nil => simp [types.lessBytes] at hab
    | cons y b =>
      cases c with
      | nil => simp [types.lessBytes] at hbc
      | cons z c =>
        simp only [types.lessBytes] at hab hbc ⊢
        by_cases hxy : x = y
        · subst hxy
          simp only [ne_eq, not_true_eq_false, if_false] at hab
          by_cases hxz : x = z
          · subst hxz
            simp only [ne_eq, not_true_eq_false, if_false] at hbc ⊢
            exact ih b c hab hbc
          · simp only [ne_eq, hxz, not_false_eq_true, if_true] at hbc ⊢
            exact hbc
        · simp only [ne_eq, hxy, not_false_eq_true, if_true, decide_eq_true_eq] at hab
          by_cases hyz : y = z
          · subst hyz
            simp [hxy, hab]
          · simp only [ne_eq, hyz, not_false_eq_true, if_true, decide_eq_true_eq] at hbc
            have hlt : x < z := Nat.lt_trans hab hbc
            simp [Nat.ne_of_lt hlt, hlt]

theorem lessBytes_total :
    ∀ a b : List Nat, a.length = b.length → a ≠ b →
      types.lessBytes a b = true ∨ types.lessBytes b a = true := by
  intro a
  induction a with
  | nil =>
    intro b hlen hne
    cases b with
    | nil => exact absurd rfl hne
    | cons y b => simp at hlen
  | cons x a ih =>
    intro b hlen hne
    cases b with
    | nil => simp at hlen
    | cons y b =>
      simp only [types.lessBytes]
      by_cases hxy : x = y
      · subst hxy
        simp only [ne_eq, not_true_eq_false, if_false]
        apply ih b (by simpa using hlen)
        intro hab
        exact hne (by rw [hab])
      · have hyx : ¬ y = x := fun h => hxy h.symm
        simp only [ne_eq, hxy, hyx, not_false_eq_true, if_true, decide_eq_true_eq]
        omega

theorem lessBytes_iff_lex :
    ∀ a b : List Nat, a.length = b.length →
      (types.lessBytes a b = true ↔ List.Lex (· < ·) a b) := by
  intro a
  induction a with
  | nil =>
    intro b hlen
    cases b with
    | nil => simp [types.lessBytes]
    | cons y b => simp at hlen
  | cons x a ih =>
    intro b hlen
    cases b with
    | nil => simp at hlen
    | cons y b =>
      simp only [types.lessBytes]
      by_cases hxy : x = y
      · subst hxy
        simp only [ne_eq, not_true_eq_false, if_false]
        rw [ih b (by simpa using hlen)]
        exact List.Lex.cons_iff.symm
      · simp only [ne_eq, hxy, not_false_eq_true, if_true, decide_eq_true_eq]
        constructor
        · exact List.Lex.rel
        · intro h
          cases h with
          | cons _ => exact absurd rfl hxy
          | rel h => exact h

theorem uuid_eq_of_bytes (u w : types.UUID) (h : u.bytes = w.bytes) : u = w := by
  cases u
  cases w
  simp only at h
  subst h
  rfl

/-- C16: `Less` on the values of kind Int and UUID, whose kind tags differ, is a strict
total order. Between two Ints it is numeric less-than, between two UUIDs the
lexicographic order of the 16 bytes, and between an Int and a UUID it is decided by the
kind tags alone, the same way for every pair. It is irreflexive and transitive, of two
distinct values one is less than the other, and for two values of the same kind `Equals`
holds exactly when neither is less than the other. -/
theorem Less_strict_total_order (ks : types.NomsKinds) (hk : ks.IntKind ≠ ks.UUIDKind) :
    (∀ i j : ℤ, types.Less ks (.int i) (.int j) = decide (i < j)) ∧
    (∀ u w : types.UUID,
      types.Less ks (.uuid u) (.uuid w) = true ↔ List.Lex (· < ·) u.bytes w.bytes) ∧
    ((∀ (i : ℤ) (u : types.UUID),
        types.Less ks (.int i) (.uuid u) = true ∧ types.Less ks (.uuid u) (.int i) = false) ∨
      (∀ (i : ℤ) (u : types.UUID),
        types.Less ks (.int i) (.uuid u) = false ∧ types.Less ks (.uuid u) (.int i) = true)) ∧
    (∀ a, types.Less ks a a = false) ∧
    (∀ a b c, types.Less ks a b = true → types.Less ks b c = true →
      types.Less ks a c = true) ∧
    (∀ a b, a ≠ b → types.Less ks a b = true ∨ types.Less ks b a = true) ∧
    (∀ i j : ℤ, types.Equals (.int i) (.int j) = true ↔
      (types.Less ks (.int i) (.int j) = false ∧ types.Less ks (.int j) (.int i) = false)) ∧
    (∀ u w : types.UUID, types.Equals (.uuid u) (.uuid w) = true ↔
      (types.Less ks (.uuid u) (.uuid w) = false ∧
        types.Less ks (.uuid w) (.uuid u) = false)) := by
  have hlen : ∀ u w : types.UUID, u.bytes.length = w.bytes.length :=
    fun u w => u.size.trans w.size.symm
  refine ⟨?_, ?_, ?_, ?_, ?_, ?_, ?_, ?_⟩
  · intro i j
    rfl
  · intro u w
    exact lessBytes_iff_lex u.bytes w.bytes (hlen u w)
  · rcases Nat.lt_or_gt_of_ne hk with h | h
    · left
      intro i u
      simp only [types.Less, types.Int.Less, types.UUID.Less, types.LesserValuable.Kind,
        decide_eq_true_eq, decide_eq_false_iff_not]
      omega
    · right
      intro i u
      simp only [types.Less, types.Int.Less, types.UUID.Less, types.LesserValuable.Kind,
        decide_eq_true_eq, decide_eq_false_iff_not]
      omega
  · intro a
    cases a with
    | int i => simp [types.Less, types.Int.Less]
    | uuid u => simp [types.Less, types.UUID.Less, lessBytes_irrefl]
  · intro a b c hab hbc
    cases a <;> cases b <;> cases c <;>
      simp only [types.Less, types.Int.Less, types.UUID.Less, types.LesserValuable.Kind,
        decide_eq_true_eq] at hab hbc ⊢ <;>
      first
        | omega
        | exact lessBytes_trans _ _ _ hab hbc
  · intro a b hne
    cases a with
    | int i =>
      cases b with
      | int j =>
        have hij : i ≠ j := fun h => hne (by rw [h])
        simp only [types.Less, types.Int.Less, decide_eq_true_eq]
        omega
      | uuid w =>
        simp only [types.Less, types.Int.Less, types.UUID.Less, types.LesserValuable.Kind,
          decide_eq_true_eq]
        omega
    | uuid u =>
      cases b with
      | int j =>
        simp only [types.Less, types.Int.Less, types.UUID.Less, types.LesserValuable.Kind,
          decide_eq_true_eq]
        omega
      | uuid w =>
        have huw : u.bytes ≠ w.bytes := fun h => hne (by rw [uuid_eq_of_bytes u w h])
        exact lessBytes_total u.bytes w.bytes (hlen u w) huw
  · intro i j
    simp only [types.Equals, types.Int.Equals, types.Less, types.Int.Less,
      decide_eq_true_eq, decide_eq_false_iff_not]
    omega
  · intro u w
    simp only [types.Equals, types.UUID.Equals, types.Less, types.UUID.Less,
      decide_eq_true_eq]
    constructor
    · intro h
      subst h
      exact ⟨lessBytes_irrefl _, lessBytes_irrefl _⟩
    · intro h
      by_contra hne
      have huw : u.bytes ≠ w.bytes := fun hb => hne (uuid_eq_of_bytes u w hb)
      rcases lessBytes_total u.bytes w.bytes (hlen u w) huw with h1 | h1
      · rw [h.1] at h1; cases h1
      · rw [h.2] at h1; cases h1

/-- With `UUIDKind = 14 < IntKind = 15` every UUID is less than every Int. -/
theorem Less_strict_total_order_witness :
    types.Less types.exKinds (.int (-3)) (.int 4) = true ∧
    types.Less types.exKinds (.uuid types.exUUID1) (.uuid types.exUUID2) = true ∧
    types.Less types.exKinds (.uuid types.exUUID2) (.int (-3)) = true ∧
    types.Less types.exKinds (.int (-3)) (.uuid types.exUUID2) = false ∧
    types.Less types.exKinds (.uuid types.exUUID1) (.int 4) = true :=
  ⟨by decide, by decide, by decide, by decide,
   (Less_strict_total_order types.exKinds (by decide)).2.2.2.2.1
     (.uuid types.exUUID1) (.uuid types.exUUID2) (.int 4) (by decide) (by decide)⟩

/-! ### C12 to C15: the row diff source -/

section RowDiffSource

open diff

theorem NextDiff_added (fromNoms : Schema → Tuple → Tuple → Except DiffErr Row)
    (rdRd : RowDiffSource) (ad : AsyncDiffer) (d : Difference) (nv : Tuple) (newRow : Row)
    (hbuf : rdRd.bufferedRows = []) (hnd : ad.isDone = false) (hd : ad.diffs = .ok [d])
    (hold : d.OldValue = none) (hnew : d.NewValue = some nv)
    (hrow : fromNoms rdRd.originalNewSch d.KeyValue nv = .ok newRow) :
    (rdRd.NextDiff fromNoms ad).2
      = .ok (mapped rdRd.newConv newRow, ⟨some .DiffAdded, none⟩) ∧
    (rdRd.NextDiff fromNoms ad).1.bufferedRows = [] := by
  simp [RowDiffSource.NextDiff, hbuf, hnd, hd, addDiffs, addDiff, hold, hnew, hrow,
    RowDiffSource.nextFromBuffer]

theorem NextDiff_removed (fromNoms : Schema → Tuple → Tuple → Except DiffErr Row)
    (rdRd : RowDiffSource) (ad : AsyncDiffer) (d : Difference) (ov : Tuple) (oldRow : Row)
    (hbuf : rdRd.bufferedRows = []) (hnd : ad.isDone = false) (hd : ad.diffs = .ok [d])
    (hold : d.OldValue = some ov) (hnew : d.NewValue = none)
    (hrow : fromNoms rdRd.originalOldSch d.KeyValue ov = .ok oldRow) :
    (rdRd.NextDiff fromNoms ad).2
      = .ok (mapped rdRd.oldConv oldRow, ⟨some .DiffRemoved, none⟩) ∧
    (rdRd.NextDiff fromNoms ad).1.bufferedRows = [] := by
  simp [RowDiffSource.NextDiff, hbuf, hnd, hd, addDiffs, addDiff, hold, hnew, hrow,
    RowDiffSource.nextFromBuffer]

theorem columnDiffs_some (outCols oldSch newSch : Schema) (mo mn : Row) :
    columnDiffs outCols oldSch newSch (some mo) (some mn)
      = .ok (columnDiffMaps outCols oldSch newSch mo mn) := by
  cases outCols with
  | nil => rfl
  | cons c rest => rfl

theorem NextDiff_modified (fromNoms : Schema → Tuple → Tuple → Except DiffErr Row)
    (rdRd : RowDiffSource) (ad : AsyncDiffer) (d : Difference) (ov nv : Tuple)
    (oldRow newRow mo mn : Row)
    (hbuf : rdRd.bufferedRows = []) (hnd : ad.isDone = false) (hd : ad.diffs = .ok [d])
    (hold : d.OldValue = some ov) (hnew : d.NewValue = some nv)
    (hrowOld : fromNoms rdRd.originalOldSch d.KeyValue ov = .ok oldRow)
    (hrowNew : fromNoms rdRd.originalNewSch d.KeyValue nv = .ok newRow)
    (hconvOld : rdRd.oldConv.Convert oldRow = .ok mo)
    (hconvNew : rdRd.newConv.Convert newRow = .ok mn) :
    (rdRd.NextDiff fromNoms ad).2
      = .ok (some mo, ⟨some .DiffModifiedOld,
          some (columnDiffMaps rdRd.outSch rdRd.originalOldSch rdRd.originalNewSch mo mn).1⟩) ∧
    (rdRd.NextDiff fromNoms ad).1.bufferedRows
      = [⟨some mn, ⟨some .DiffModifiedNew,
          some (columnDiffMaps rdRd.outSch rdRd.originalOldSch rdRd.originalNewSch mo mn).2⟩⟩] := by
  simp [RowDiffSource.NextDiff, hbuf, hnd, hd, addDiffs, addDiff, hold, hnew, hrowOld,
    hrowNew, mapped, hconvOld, hconvNew, columnDiffs_some, RowDiffSource.nextFromBuffer]

theorem NextDiff_buffered (fromNoms : Schema → Tuple → Tuple → Except DiffErr Row)
    (rdRd : RowDiffSource) (ad : AsyncDiffer) (r : RowWithProps) (rest : List RowWithProps)
    (hbuf : rdRd.bufferedRows = r :: rest) :
    (rdRd.NextDiff fromNoms ad).2 = .ok (r.Row, r.Props) ∧
    (rdRd.NextDiff fromNoms ad).1.bufferedRows = rest := by
  simp [RowDiffSource.NextDiff, hbuf, RowDiffSource.nextFromBuffer]

theorem colDiffs_get_filter (m : ColDiffs) (k name : String) (hne : name ≠ k) :
    ColDiffs.get (m.filter (fun e => decide (e.1 ≠ k))) name = ColDiffs.get m name := by
  induction m with
  | nil => rfl
  | cons e rest ih =>
    obtain ⟨k1, v⟩ := e
    by_cases hk : k1 = k
    · subst hk
      have hne2 : ¬ k1 = name := fun h => hne h.symm
      simp only [List.filter, ne_eq, not_true_eq_false, decide_False, ColDiffs.get, hne2,
        if_false]
      exact ih
    · simp only [List.filter, ne_eq, hk, not_false_eq_true, decide_True, ColDiffs.get]
      rw [ih]

theorem colDiffs_get_set_self (m : ColDiffs) (k : String) (v : DiffChType) :
    (m.set k v).get k = some v := by
  simp [ColDiffs.set, ColDiffs.get]

theorem colDiffs_get_set_ne (m : ColDiffs) (k name : String) (v : DiffChType)
    (hne : name ≠ k) : (m.set k v).get name = m.get name := by
  have hne2 : ¬ k = name := fun h => hne h.symm
  simp only [ColDiffs.set, ColDiffs.get, hne2, if_false]
  exact colDiffs_get_filter m k name hne

theorem colDiffStep_get_other (oldSch newSch : Schema) (mo mn : Row)
    (acc : ColDiffs × ColDiffs) (col : Column) (name : String) (hne : name ≠ col.Name) :
    (colDiffStep oldSch newSch mo mn acc col).1.get name = acc.1.get name ∧
    (colDiffStep oldSch newSch mo mn acc col).2.get name = acc.2.get name := by
  unfold colDiffStep
  simp only
  split_ifs <;> simp [colDiffs_get_set_ne _ _ _ _ hne]

theorem colDiffStep_foldl_get_other (oldSch newSch : Schema) (mo mn : Row)
    (cols : List Column) :
    ∀ (acc : ColDiffs × ColDiffs) (name : String), name ∉ cols.map (fun c => c.Name) →
      (cols.foldl (colDiffStep oldSch newSch mo mn) acc).1.get name = acc.1.get name ∧
      (cols.foldl (colDiffStep oldSch newSch mo mn) acc).2.get name = acc.2.get name := by
  induction cols with
  | nil => intro acc name _; exact ⟨rfl, rfl⟩
  | cons c rest ih =>
    intro acc name hn
    simp only [List.map_cons, List.mem_cons, not_or] at hn
    simp only [List.foldl_cons]
    obtain ⟨h1, h2⟩ := ih (colDiffStep oldSch newSch mo mn acc c) name hn.2
    obtain ⟨s1, s2⟩ := colDiffStep_get_other oldSch newSch mo mn acc c name hn.1
    exact ⟨h1.trans s1, h2.trans s2⟩

/-- The entries one step leaves under the name of its column, when there were none. -/
theorem colDiffStep_get_self (oldSch newSch : Schema) (mo mn : Row)
    (acc : ColDiffs × ColDiffs) (col : Column)
    (h1 : acc.1.get col.Name = none) (h2 : acc.2.get col.Name = none) :
    (colDiffStep oldSch newSch mo mn acc col).1.get col.Name
      = (if oldSch.hasTag col.Tag && newSch.hasTag col.Tag then
          (if mo.GetColVal col.Tag = mn.GetColVal col.Tag then none
           else some DiffChType.DiffModifiedOld)
         else if oldSch.hasTag col.Tag then some DiffChType.DiffRemoved else none) ∧
    (colDiffStep oldSch newSch mo mn acc col).2.get col.Name
      = (if oldSch.hasTag col.Tag && newSch.hasTag col.Tag then
          (if mo.GetColVal col.Tag = mn.GetColVal col.Tag then none
           else some DiffChType.DiffModifiedNew)
         else if oldSch.hasTag col.Tag then none else some DiffChType.DiffAdded) := by
  unfold colDiffStep
  simp only [NilSafeEqCheck]
  by_cases hb : (oldSch.hasTag col.Tag && newSch.hasTag col.Tag) = true
  · by_cases he : mo.GetColVal col.Tag = mn.GetColVal col.Tag
    · simp [hb, he, h1, h2]
    · simp [hb, he, colDiffs_get_set_self]
  · by_cases ho : oldSch.hasTag col.Tag = true
    · have hn : newSch.hasTag col.Tag = false := by simpa [ho] using hb
      simp [ho, hn, colDiffs_get_set_self, h2]
    · simp [ho, colDiffs_get_set_self, h1]

theorem columnDiffMaps_get (outCols oldSch newSch : Schema) (mo mn : Row) :
    ∀ (acc : ColDiffs × ColDiffs), (outCols.map (fun c => c.Name)).Nodup →
      (∀ c ∈ outCols, acc.1.get c.Name = none ∧ acc.2.get c.Name = none) →
      ∀ col ∈ outCols,
        (outCols.foldl (colDiffStep oldSch newSch mo mn) acc).1.get col.Name
          = (if oldSch.hasTag col.Tag && newSch.hasTag col.Tag then
              (if mo.GetColVal col.Tag = mn.GetColVal col.Tag then none
               else some DiffChType.DiffModifiedOld)
             else if oldSch.hasTag col.Tag then some DiffChType.DiffRemoved else none) ∧
        (outCols.foldl (colDiffStep oldSch newSch mo mn) acc).2.get col.Name
          = (if oldSch.hasTag col.Tag && newSch.hasTag col.Tag then
              (if mo.GetColVal col.Tag = mn.GetColVal col.Tag then none
               else some DiffChType.DiffModifiedNew)
             else if oldSch.hasTag col.Tag then none else some DiffChType.DiffAdded) := by
  induction outCols with
  | nil => intro acc _ _ col hcol; cases hcol
  | cons c rest ih =>
    intro acc hnd hacc col hcol
    simp only [List.map_cons, List.nodup_cons] at hnd
    simp only [List.foldl_cons]
    rcases List.mem_cons.mp hcol with rfl | hrest
    · obtain ⟨f1, f2⟩ := colDiffStep_foldl_get_other oldSch newSch mo mn rest
        (colDiffStep oldSch newSch mo mn acc col) col.Name hnd.1
      obtain ⟨s1, s2⟩ := colDiffStep_get_self oldSch newSch mo mn acc col
        (hacc col (List.mem_cons_self _ _)).1 (hacc col (List.mem_cons_self _ _)).2
      exact ⟨f1.trans s1, f2.trans s2⟩
    · apply ih (colDiffStep oldSch newSch mo mn acc c) hnd.2 _ col hrest
      intro c2 hc2
      have hne : c2.Name ≠ c.Name := by
        intro heq
        apply hnd.1
        rw [← heq]
        exact List.mem_map_of_mem _ hc2
      obtain ⟨s1, s2⟩ := colDiffStep_get_other oldSch newSch mo mn acc c c2.Name hne
      have := hacc c2 (List.mem_cons_of_mem _ hc2)
      exact ⟨s1.trans this.1, s2.trans this.2⟩

/-- C12: with an empty buffer and a differ that delivers the difference `d`, `NextDiff`
emits: for a key with only a new value one record, the converted new row tagged
`DiffAdded`; for a key with only an old value one record, the converted old row tagged
`DiffRemoved`; for a key with both values two records from two consecutive calls, first
the converted old row tagged `DiffModifiedOld`, then the converted new row tagged
`DiffModifiedNew`, the second from the buffer whatever the differ does. After the last
record of `d` the buffer is empty again. -/
theorem NextDiff_emits_records (fromNoms : Schema → Tuple → Tuple → Except DiffErr Row)
    (rdRd : RowDiffSource) (ad : AsyncDiffer) (d : Difference)
    (hbuf : rdRd.bufferedRows = []) (hnd : ad.isDone = false) (hd : ad.diffs = .ok [d]) :
    (∀ nv newRow mn, d.OldValue = none → d.NewValue = some nv →
      fromNoms rdRd.originalNewSch d.KeyValue nv = .ok newRow →
      rdRd.newConv.Convert newRow = .ok mn →
      (rdRd.NextDiff fromNoms ad).2 = .ok (some mn, ⟨some .DiffAdded, none⟩) ∧
      (rdRd.NextDiff fromNoms ad).1.bufferedRows = []) ∧
    (∀ ov oldRow mo, d.OldValue = some ov → d.NewValue = none →
      fromNoms rdRd.originalOldSch d.KeyValue ov = .ok oldRow →
      rdRd.oldConv.Convert oldRow = .ok mo →
      (rdRd.NextDiff fromNoms ad).2 = .ok (some mo, ⟨some .DiffRemoved, none⟩) ∧
      (rdRd.NextDiff fromNoms ad).1.bufferedRows = []) ∧
    (∀ ov nv oldRow newRow mo mn, d.OldValue = some ov → d.NewValue = some nv →
      fromNoms rdRd.originalOldSch d.KeyValue ov = .ok oldRow →
      fromNoms rdRd.originalNewSch d.KeyValue nv = .ok newRow →
      rdRd.oldConv.Convert oldRow = .ok mo →
      rdRd.newConv.Convert newRow = .ok mn →
      ∃ oldCols newCols : ColDiffs,
        (rdRd.NextDiff fromNoms ad).2
          = .ok (some mo, ⟨some .DiffModifiedOld, some oldCols⟩) ∧
        (rdRd.NextDiff fromNoms ad).1.bufferedRows
          = [⟨some mn, ⟨some .DiffModifiedNew, some newCols⟩⟩] ∧
        ∀ ad2 : AsyncDiffer,
          ((rdRd.NextDiff fromNoms ad).1.NextDiff fromNoms ad2).2
            = .ok (some mn, ⟨some .DiffModifiedNew, some newCols⟩) ∧
          ((rdRd.NextDiff fromNoms ad).1.NextDiff fromNoms ad2).1.bufferedRows = []) := by
  refine ⟨?_, ?_, ?_⟩
  · intro nv newRow mn hold hnew hrow hconv
    have h := NextDiff_added fromNoms rdRd ad d nv newRow hbuf hnd hd hold hnew hrow
    simpa [mapped, hconv] using h
  · intro ov oldRow mo hold hnew hrow hconv
    have h := NextDiff_removed fromNoms rdRd ad d ov oldRow hbuf hnd hd hold hnew hrow
    simpa [mapped, hconv] using h
  · intro ov nv oldRow newRow mo mn hold hnew hrowOld hrowNew hconvOld hconvNew
    obtain ⟨h1, h2⟩ := NextDiff_modified fromNoms rdRd ad d ov nv oldRow newRow mo mn
      hbuf hnd hd hold hnew hrowOld hrowNew hconvOld hconvNew
    refine ⟨_, _, h1, h2, ?_⟩
    intro ad2
    exact NextDiff_buffered fromNoms _ ad2 _ [] h2

/-- The spec scenario: the row `{id: 1, name: "a"}` changed into `{id: 1, name: "b"}`
gives a `DiffModifiedOld` and then a `DiffModifiedNew` record; an added row gives one
`DiffAdded` record. -/
theorem NextDiff_emits_records_witness :
    (exSource.NextDiff exFromNoms (exDiffer exAdded)).2
      = .ok (some [(0, .int 2), (1, .string "c")], ⟨some .DiffAdded, none⟩) ∧
    (exSource.NextDiff exFromNoms (exDiffer exRemoved)).2
      = .ok (some [(0, .int 3), (1, .string "d")], ⟨some .DiffRemoved, none⟩) ∧
    (∃ oldCols newCols : ColDiffs,
      (exSource.NextDiff exFromNoms (exDiffer exModified)).2
        = .ok (some [(0, .int 1), (1, .string "a")],
            ⟨some .DiffModifiedOld, some oldCols⟩) ∧
      (exSource.NextDiff exFromNoms (exDiffer exModified)).1.bufferedRows
        = [⟨some [(0, .int 1), (1, .string "b")], ⟨some .DiffModifiedNew, some newCols⟩⟩] ∧
      ∀ ad2 : AsyncDiffer,
        ((exSource.NextDiff exFromNoms (exDiffer exModified)).1.NextDiff exFromNoms ad2).2
          = .ok (some [(0, .int 1), (1, .string "b")],
              ⟨some .DiffModifiedNew, some newCols⟩) ∧
        ((exSource.NextDiff exFromNoms (exDiffer exModified)).1.NextDiff
          exFromNoms ad2).1.bufferedRows = []) :=
  ⟨((NextDiff_emits_records exFromNoms exSource (exDiffer exAdded) exAdded rfl rfl rfl).1
      [(1, .string "c")] _ _ rfl rfl rfl rfl).1,
   ((NextDiff_emits_records exFromNoms exSource (exDiffer exRemoved) exRemoved
      rfl rfl rfl).2.1 [(1, .string "d")] _ _ rfl rfl rfl rfl).1,
   (NextDiff_emits_records exFromNoms exSource (exDiffer exModified) exModified
      rfl rfl rfl).2.2 [(1, .string "a")] [(1, .string "b")] _ _ _ _ rfl rfl rfl rfl rfl rfl⟩

/-- C13 (amended): for a modified row, whose old and new value both convert, and an
output schema whose column names are distinct, the column maps of the two records say for every output
column: present in both source schemas with unequal converted values, `DiffModifiedOld`
in the old record's map and `DiffModifiedNew` in the new record's; present in both with
equal values, in neither map; present only in the old schema, `DiffRemoved` in the old
record's map and absent from the new record's; present only in the new schema, `DiffAdded`
in the new record's map and absent from the old record's. `DiffAdded` and `DiffRemoved`
records carry no column map. -/
theorem NextDiff_column_diffs (fromNoms : Schema → Tuple → Tuple → Except DiffErr Row)
    (rdRd : RowDiffSource) (ad : AsyncDiffer) (d : Difference)
    (hbuf : rdRd.bufferedRows = []) (hnd : ad.isDone = false) (hd : ad.diffs = .ok [d]) :
    (∀ ov nv oldRow newRow mo mn, d.OldValue = some ov → d.NewValue = some nv →
      fromNoms rdRd.originalOldSch d.KeyValue ov = .ok oldRow →
      fromNoms rdRd.originalNewSch d.KeyValue nv = .ok newRow →
      rdRd.oldConv.Convert oldRow = .ok mo →
      rdRd.newConv.Convert newRow = .ok mn →
      (rdRd.outSch.map (fun c => c.Name)).Nodup →
      ∃ oldCols newCols : ColDiffs,
        (rdRd.NextDiff fromNoms ad).2
          = .ok (some mo, ⟨some .DiffModifiedOld, some oldCols⟩) ∧
        (rdRd.NextDiff fromNoms ad).1.bufferedRows
          = [⟨some mn, ⟨some .DiffModifiedNew, some newCols⟩⟩] ∧
        ∀ col ∈ rdRd.outSch,
          (rdRd.originalOldSch.hasTag col.Tag = true →
            rdRd.originalNewSch.hasTag col.Tag = true →
            mo.GetColVal col.Tag ≠ mn.GetColVal col.Tag →
            oldCols.get col.Name = some .DiffModifiedOld ∧
            newCols.get col.Name = some .DiffModifiedNew) ∧
          (rdRd.originalOldSch.hasTag col.Tag = true →
            rdRd.originalNewSch.hasTag col.Tag = true →
            mo.GetColVal col.Tag = mn.GetColVal col.Tag →
            oldCols.get col.Name = none ∧ newCols.get col.Name = none) ∧
          (rdRd.originalOldSch.hasTag col.Tag = true →
            rdRd.originalNewSch.hasTag col.Tag = false →
            oldCols.get col.Name = some .DiffRemoved ∧ newCols.get col.Name = none) ∧
          (rdRd.originalOldSch.hasTag col.Tag = false →
            rdRd.originalNewSch.hasTag col.Tag = true →
            newCols.get col.Name = some .DiffAdded ∧ oldCols.get col.Name = none)) ∧
    (∀ nv newRow, d.OldValue = none → d.NewValue = some nv →
      fromNoms rdRd.originalNewSch d.KeyValue nv = .ok newRow →
      ∃ row, (rdRd.NextDiff fromNoms ad).2 = .ok (row, ⟨some .DiffAdded, none⟩)) ∧
    (∀ ov oldRow, d.OldValue = some ov → d.NewValue = none →
      fromNoms rdRd.originalOldSch d.KeyValue ov = .ok oldRow →
      ∃ row, (rdRd.NextDiff fromNoms ad).2 = .ok (row, ⟨some .DiffRemoved, none⟩)) := by
  refine ⟨?_, ?_, ?_⟩
  · intro ov nv oldRow newRow mo mn hold hnew hrowOld hrowNew hconvOld hconvNew hnames
    obtain ⟨h1, h2⟩ := NextDiff_modified fromNoms rdRd ad d ov nv oldRow newRow mo mn
      hbuf hnd hd hold hnew hrowOld hrowNew hconvOld hconvNew
    refine ⟨_, _, h1, h2, ?_⟩
    intro col hcol
    obtain ⟨g1, g2⟩ := columnDiffMaps_get rdRd.outSch rdRd.originalOldSch
      rdRd.originalNewSch mo mn ([], []) hnames (fun c _ => ⟨rfl, rfl⟩) col hcol
    unfold columnDiffMaps
    rw [g1, g2]
    refine ⟨?_, ?_, ?_, ?_⟩
    · intro ho hn hne
      simp [ho, hn, hne]
    · intro ho hn he
      simp [ho, hn, he]
    · intro ho hn
      simp [ho, hn]
    · intro ho hn
      simp [ho, hn]
  · intro nv newRow hold hnew hrow
    exact ⟨_, (NextDiff_added fromNoms rdRd ad d nv newRow hbuf hnd hd hold hnew hrow).1⟩
  · intro ov oldRow hold hnew hrow
    exact ⟨_, (NextDiff_removed fromNoms rdRd ad d ov oldRow hbuf hnd hd hold hnew hrow).1⟩

/-- The spec scenario: for `{id: 1, name: "a"}` changed into `{id: 1, name: "b"}` the
column maps mark `name` and leave `id` out. -/
theorem NextDiff_column_diffs_witness :
    (exSource.NextDiff exFromNoms (exDiffer exModified)).2
      = .ok (some [(0, .int 1), (1, .string "a")],
          ⟨some .DiffModifiedOld, some [("name", .DiffModifiedOld)]⟩) ∧
    (exSource.NextDiff exFromNoms (exDiffer exModified)).1.bufferedRows
      = [⟨some [(0, .int 1), (1, .string "b")],
          ⟨some .DiffModifiedNew, some [("name", .DiffModifiedNew)]⟩⟩] ∧
    (∃ oldCols newCols : ColDiffs,
      (exSource.NextDiff exFromNoms (exDiffer exModified)).2
        = .ok (some [(0, .int 1), (1, .string "a")],
            ⟨some .DiffModifiedOld, some oldCols⟩) ∧
      (exSource.NextDiff exFromNoms (exDiffer exModified)).1.bufferedRows
        = [⟨some [(0, .int 1), (1, .string "b")], ⟨some .DiffModifiedNew, some newCols⟩⟩] ∧
      oldCols.get "name" = some .DiffModifiedOld ∧
      newCols.get "name" = some .DiffModifiedNew ∧
      oldCols.get "id" = none ∧ newCols.get "id" = none) := by
  refine ⟨by decide, by decide, ?_⟩
  obtain ⟨oldCols, newCols, h1, h2, hcols⟩ :=
    (NextDiff_column_diffs exFromNoms exSource (exDiffer exModified) exModified
      rfl rfl rfl).1 [(1, .string "a")] [(1, .string "b")]
      [(0, .int 1), (1, .string "a")] [(0, .int 1), (1, .string "b")]
      [(0, .int 1), (1, .string "a")] [(0, .int 1), (1, .string "b")]
      rfl rfl rfl rfl rfl rfl (by decide)
  refine ⟨oldCols, newCols, h1, h2, ?_⟩
  have hname := (hcols ⟨"name", 1⟩ (by decide)).1 (by decide) (by decide) (by decide)
  have hid := (hcols ⟨"id", 0⟩ (by decide)).2.1 (by decide) (by decide) (by decide)
  exact ⟨hname.1, hname.2, hid.1, hid.2⟩

/-- C13 as stated fails for an output schema with two columns of one name: the column
`name` under tag 1 is in the old source schema only, yet the map of the new record holds
`DiffAdded` under its name, which the column `name` under tag 2 has put there. -/
theorem NextDiff_column_names_counterexample :
    (⟨"name", 1⟩ : Column) ∈ exRenamedSource.outSch ∧
    exRenamedSource.originalOldSch.hasTag 1 = true ∧
    exRenamedSource.originalNewSch.hasTag 1 = false ∧
    (exRenamedSource.NextDiff exFromNoms (exDiffer exRenamed)).2
      = .ok (some [(0, .int 1), (1, .string "a")],
          ⟨some .DiffModifiedOld, some [("name", .DiffRemoved)]⟩) ∧
    (exRenamedSource.NextDiff exFromNoms (exDiffer exRenamed)).1.bufferedRows
      = [⟨some [(0, .int 1), (2, .string "a")],
          ⟨some .DiffModifiedNew, some [("name", .DiffAdded)]⟩⟩] ∧
    ColDiffs.get [("name", .DiffAdded)] "name" ≠ none := by
  refine ⟨by decide, by decide, by decide, by decide, by decide, by decide⟩

/-- C14: with an empty buffer `NextDiff` returns `io.EOF` when the differ is done, also
when the wait returned no diffs and the differ has become done meanwhile; when the wait
returned no diffs and the differ is not done it returns the error "timeout", which is
not `io.EOF`; in these cases the source is left as it was. With rows in its buffer it
returns a row, so never `io.EOF`. -/
theorem NextDiff_end_of_input (fromNoms : Schema → Tuple → Tuple → Except DiffErr Row)
    (rdRd : RowDiffSource) (ad : AsyncDiffer) :
    (rdRd.bufferedRows = [] → ad.isDone = true →
      rdRd.NextDiff fromNoms ad = (rdRd, .error .EOF)) ∧
    (rdRd.bufferedRows = [] → ad.isDone = false → ad.diffs = .ok [] →
      ad.isDoneAfter = true → rdRd.NextDiff fromNoms ad = (rdRd, .error .EOF)) ∧
    (rdRd.bufferedRows = [] → ad.isDone = false → ad.diffs = .ok [] →
      ad.isDoneAfter = false →
      rdRd.NextDiff fromNoms ad = (rdRd, .error (.msg "timeout")) ∧
      DiffErr.msg "timeout" ≠ DiffErr.EOF) ∧
    (rdRd.bufferedRows ≠ [] →
      (∃ r rest, rdRd.bufferedRows = r :: rest ∧
        (rdRd.NextDiff fromNoms ad).2 = .ok (r.Row, r.Props)) ∧
      (rdRd.NextDiff fromNoms ad).2 ≠ .error .EOF) := by
  refine ⟨?_, ?_, ?_, ?_⟩
  · intro hbuf hdone
    simp [RowDiffSource.NextDiff, hbuf, hdone]
  · intro hbuf hdone hd hafter
    simp [RowDiffSource.NextDiff, hbuf, hdone, hd, hafter]
  · intro hbuf hdone hd hafter
    refine ⟨?_, by decide⟩
    simp [RowDiffSource.NextDiff, hbuf, hdone, hd, hafter]
  · intro hne
    cases hb : rdRd.bufferedRows with
    | nil => exact absurd hb hne
    | cons r rest =>
      have h := (NextDiff_buffered fromNoms rdRd ad r rest hb).1
      refine ⟨⟨r, rest, rfl, h⟩, ?_⟩
      rw [h]
      intro hc
      cases hc

/-- A done differ ends the input; a slow one gives "timeout"; a buffered row comes
first. -/
theorem NextDiff_end_of_input_witness :
    (exSource.NextDiff exFromNoms ⟨true, .ok [], true⟩).2 = .error .EOF ∧
    (exSource.NextDiff exFromNoms ⟨false, .ok [], true⟩).2 = .error .EOF ∧
    (exSource.NextDiff exFromNoms ⟨false, .ok [], false⟩).2 = .error (.msg "timeout") ∧
    ((exSource.NextDiff exFromNoms (exDiffer exModified)).1.NextDiff exFromNoms
      ⟨true, .ok [], true⟩).2 ≠ .error .EOF :=
  ⟨by rw [(NextDiff_end_of_input exFromNoms exSource ⟨true, .ok [], true⟩).1 rfl rfl],
   by rw [(NextDiff_end_of_input exFromNoms exSource ⟨false, .ok [], true⟩).2.1
      rfl rfl rfl rfl],
   by rw [((NextDiff_end_of_input exFromNoms exSource ⟨false, .ok [], false⟩).2.2.1
      rfl rfl rfl rfl).1],
   ((NextDiff_end_of_input exFromNoms
      (exSource.NextDiff exFromNoms (exDiffer exModified)).1 ⟨true, .ok [], true⟩).2.2.2
      (by decide)).2⟩

/-- C15 (code at the failing input): the new row of `exAdded` does not convert, yet
`NextDiff` returns no error: it emits a record with a nil row tagged `DiffAdded`. For a
modified row with a failed conversion it panics on the nil row. -/
theorem NextDiff_drops_convert_error :
    exFromNoms exFailingSource.originalNewSch exAdded.KeyValue [(1, .string "c")]
      = .ok [(0, .int 2), (1, .string "c")] ∧
    exFailingSource.newConv.Convert [(0, .int 2), (1, .string "c")]
      = .error (.msg "bad row") ∧
    (exFailingSource.NextDiff exFromNoms (exDiffer exAdded)).2
      = .ok (none, ⟨some .DiffAdded, none⟩) ∧
    (exFailingSource.NextDiff exFromNoms (exDiffer exModified)).2
      = .error (.panicked "invalid memory address or nil pointer dereference") := by
  decide

end RowDiffSource

/-! ### C17 and C18: cursors into ordered sequences -/

section OrderedSequences

open types

theorem searchKeys_le (ks : List Nat) (k : Nat) : searchKeys ks k ≤ ks.length := by
  induction ks with
  | nil => simp [searchKeys]
  | cons a rest ih =>
    simp only [searchKeys]
    split_ifs
    · simp
    · simp only [List.length_cons]; omega

/-- The index `searchKeys` returns holds the first key that is not below the probe. -/
theorem searchKeys_found (ks : List Nat) (k : Nat) (hex : ∃ x ∈ ks, k ≤ x) :
    ∃ y, ks[searchKeys ks k]? = some y ∧ k ≤ y ∧
      (ks.Pairwise (· < ·) → ∀ x ∈ ks, k ≤ x → y ≤ x) := by
  induction ks with
  | nil =>
    obtain ⟨x, hx, -⟩ := hex
    cases hx
  | cons a rest ih =>
    simp only [searchKeys]
    by_cases hka : k ≤ a
    · simp only [hka, if_true]
      refine ⟨a, by simp, hka, ?_⟩
      intro hs x hx _
      rcases List.mem_cons.mp hx with rfl | hx
      · exact Nat.le_refl _
      · exact Nat.le_of_lt ((List.pairwise_cons.mp hs).1 x hx)
    · simp only [hka, if_false]
      have hex2 : ∃ x ∈ rest, k ≤ x := by
        obtain ⟨x, hx, hkx⟩ := hex
        rcases List.mem_cons.mp hx with rfl | hx
        · exact absurd hkx hka
        · exact ⟨x, hx, hkx⟩
      obtain ⟨y, hy, hky, hmin⟩ := ih hex2
      refine ⟨y, by simpa using hy, hky, ?_⟩
      intro hs x hx hkx
      rcases List.mem_cons.mp hx with rfl | hx
      · exact absurd hkx hka
      · exact hmin (List.pairwise_cons.mp hs).2 x hx hkx

theorem searchKeys_eq_length (ks : List Nat) (k : Nat)
    (h : searchKeys ks k = ks.length) : ∀ x ∈ ks, x < k := by
  induction ks with
  | nil => intro x hx; cases hx
  | cons a rest ih =>
    simp only [searchKeys] at h
    by_cases hka : k ≤ a
    · simp [hka] at h
    · simp only [hka, if_false, List.length_cons, Nat.add_right_cancel_iff] at h
      intro x hx
      rcases List.mem_cons.mp hx with rfl | hx
      · omega
      · exact ih h x hx

theorem mem_flattenTuples (ts : List (metaTuple orderedSequence)) (x : Nat) :
    x ∈ flattenTuples ts ↔ ∃ t ∈ ts, x ∈ t.child.flatten := by
  induction ts with
  | nil => simp [flattenTuples]
  | cons t rest ih =>
    simp only [flattenTuples, List.mem_append, ih, List.mem_cons]
    constructor
    · rintro (h | ⟨t2, ht2, h⟩)
      · exact ⟨t, Or.inl rfl, h⟩
      · exact ⟨t2, Or.inr ht2, h⟩
    · rintro ⟨t2, rfl | ht2, h⟩
      · exact Or.inl h
      · exact Or.inr ⟨t2, ht2, h⟩

/-- In a meta sequence whose tuple keys are the maxima of their children and whose leaves
are in order, the tuple `searchKeys` selects has the child that holds the first key not
below the probe. -/
theorem searchKeys_tuples (k : Nat) (ts : List (metaTuple orderedSequence))
    (hmax : KeysAreMaxTuples ts) (hsorted : (flattenTuples ts).Pairwise (· < ·))
    (hex : ∃ x ∈ flattenTuples ts, k ≤ x) :
    ∃ t, ts[searchKeys (ts.map (fun t => t.key)) k]? = some t ∧
      t.child.KeysAreMax ∧ t.child.flatten.Pairwise (· < ·) ∧
      (∃ x ∈ t.child.flatten, k ≤ x) ∧
      (∀ y ∈ t.child.flatten, y ∈ flattenTuples ts) ∧
      (∀ x ∈ flattenTuples ts, k ≤ x →
        x ∈ t.child.flatten ∨ ∀ y ∈ t.child.flatten, y < x) ∧
      t.child.height ≤ heightTuples ts := by
  induction ts with
  | nil =>
    obtain ⟨x, hx, -⟩ := hex
    simp [flattenTuples] at hx
  | cons t rest ih =>
    simp only [KeysAreMaxTuples] at hmax
    obtain ⟨⟨hkey, hle⟩, hchild, hrest⟩ := hmax
    simp only [flattenTuples] at hsorted hex
    obtain ⟨hs1, hs2, hcross⟩ := List.pairwise_append.mp hsorted
    simp only [List.map_cons, searchKeys]
    by_cases hkt : k ≤ t.key
    · simp only [hkt, if_true]
      refine ⟨t, by simp, hchild, hs1, ⟨t.key, hkey, hkt⟩, ?_, ?_, ?_⟩
      · intro y hy
        simp only [flattenTuples]
        exact List.mem_append_left _ hy
      · intro x hx _
        simp only [flattenTuples] at hx
        rcases List.mem_append.mp hx with h | h
        · exact Or.inl h
        · exact Or.inr (fun y hy => hcross y hy x h)
      · simp only [heightTuples]
        exact le_max_left _ _
    · simp only [hkt, if_false]
      have hex2 : ∃ x ∈ flattenTuples rest, k ≤ x := by
        obtain ⟨x, hx, hkx⟩ := hex
        rcases List.mem_append.mp hx with h | h
        · have := hle x h
          omega
        · exact ⟨x, h, hkx⟩
      obtain ⟨t2, ht2, c1, c2, c3, c4, c5, c6⟩ := ih hrest hs2 hex2
      refine ⟨t2, by simpa using ht2, c1, c2, c3, ?_, ?_, ?_⟩
      · intro y hy
        simp only [flattenTuples]
        exact List.mem_append_right _ (c4 y hy)
      · intro x hx hkx
        simp only [flattenTuples] at hx
        rcases List.mem_append.mp hx with h | h
        · have := hle x h
          omega
        · exact c5 x h hkx
      · simp only [heightTuples]
        exact le_trans c6 (le_max_right _ _)

theorem newSequenceCursor_ok (parent : Option sequenceCursor) (seq : orderedSequence)
    (last : Bool) (hpos : 0 < seq.seqLen) :
    ∃ cur, newSequenceCursor parent seq (if last then -1 else 0) = .ok cur ∧
      cur.seq = seq ∧ (0 ≤ cur.idx ∧ cur.idx < seq.seqLen) := by
  cases last with
  | false =>
    refine ⟨_, by simp [newSequenceCursor]; rfl, rfl, ?_⟩
    simp only
    omega
  | true =>
    have h0 : (0 : ℤ) ≤ -1 + (seq.seqLen : ℤ) := by omega
    refine ⟨⟨parentFrames parent, seq, -1 + (seq.seqLen : ℤ)⟩,
      by simp [newSequenceCursor, h0], rfl, ?_⟩
    simp only
    omega

theorem seekTo_found (cur : sequenceCursor) (key : Nat) (b : Bool)
    (h : cur.seq.search key < cur.seq.seqLen) :
    seekTo cur key b = .ok ({ cur with idx := (cur.seq.search key : ℤ) }, true) := by
  have hne : ¬ ((cur.seq.search key : ℤ) = (cur.seq.seqLen : ℤ)) := by omega
  have hlt : ((cur.seq.search key : ℤ) < (cur.seq.seqLen : ℤ)) := by omega
  simp [seekTo, hne, hlt]

theorem seqLen_pos_of_flatten (seq : orderedSequence) (h : ∃ x, x ∈ seq.flatten) :
    0 < seq.seqLen := by
  obtain ⟨x, hx⟩ := h
  cases seq with
  | leafSequence keys =>
    simp only [orderedSequence.flatten] at hx
    simp only [orderedSequence.seqLen, orderedSequence.getKeys]
    exact List.length_pos_of_mem hx
  | metaSequence ts =>
    simp only [orderedSequence.flatten] at hx
    obtain ⟨t, ht, -⟩ := (mem_flattenTuples ts x).mp hx
    simp only [orderedSequence.seqLen, orderedSequence.getKeys, List.length_map]
    exact List.length_pos_of_mem ht

/-- The descent of `newCursorAt` in a tree in order with a probe that is not above every
key: it ends in a leaf, at the first key of the tree that is not below the probe. -/
theorem newCursorAtLoop_finds (k : Nat) (forInsertion last : Bool) :
    ∀ (fuel : Nat) (seq : orderedSequence) (parent : Option sequenceCursor),
      seq.height < fuel → seq.KeysAreMax → seq.flatten.Pairwise (· < ·) →
      (∃ x ∈ seq.flatten, k ≤ x) →
      ∃ (cur : sequenceCursor) (keys : List Nat) (i y : Nat),
        newCursorAtLoop fuel parent seq (some k) forInsertion last = .ok cur ∧
        cur.seq = .leafSequence keys ∧ cur.idx = (i : ℤ) ∧ keys[i]? = some y ∧
        k ≤ y ∧ y ∈ seq.flatten ∧ ∀ x ∈ seq.flatten, k ≤ x → y ≤ x := by
  intro fuel
  induction fuel with
  | zero => intro seq parent h; omega
  | succ fuel ih =>
    intro seq parent hh hmax hsorted hex
    have hpos : 0 < seq.seqLen :=
      seqLen_pos_of_flatten seq (hex.imp (fun x hx => hx.1))
    obtain ⟨cur1, hcur1, hseq1, -⟩ := newSequenceCursor_ok parent seq last hpos
    simp only [newCursorAtLoop, hcur1]
    rcases cur1 with ⟨ps, sq, ix⟩
    simp only at hseq1
    subst hseq1
    cases sq with
    | leafSequence keys =>
      simp only [orderedSequence.flatten] at hsorted hex ⊢
      obtain ⟨y, hy, hky, hmin⟩ := searchKeys_found keys k hex
      have hlt : searchKeys keys k < keys.length := (List.getElem?_eq_some.mp hy).1
      rw [seekTo_found _ k _ (by
        simpa [orderedSequence.search, orderedSequence.seqLen, orderedSequence.getKeys]
          using hlt)]
      simp only [sequenceCursor.getChildSequence]
      exact ⟨_, keys, searchKeys keys k, y, rfl, rfl, rfl, hy, hky, List.getElem?_mem hy,
        hmin hsorted⟩
    | metaSequence ts =>
      simp only [orderedSequence.flatten] at hsorted hex ⊢
      simp only [orderedSequence.KeysAreMax] at hmax
      simp only [orderedSequence.height] at hh
      obtain ⟨t, ht, c1, c2, c3, c4, c5, c6⟩ := searchKeys_tuples k ts hmax hsorted hex
      have hlt : searchKeys (ts.map (fun t => t.key)) k < ts.length :=
        (List.getElem?_eq_some.mp ht).1
      rw [seekTo_found _ k _ (by
        simpa [orderedSequence.search, orderedSequence.seqLen, orderedSequence.getKeys]
          using hlt)]
      have hnn : ¬ (((searchKeys (ts.map (fun t => t.key)) k : Nat) : ℤ) < 0) := by omega
      simp only [sequenceCursor.getChildSequence, orderedSequence.search,
        orderedSequence.getKeys, hnn, if_false, Int.toNat_ofNat, ht]
      obtain ⟨cur, keys, i, y, hrun, hleaf, hi, hy, hky, hmem, hmin⟩ :=
        ih t.child (some ⟨ps, .metaSequence ts,
          ((searchKeys (ts.map (fun t => t.key)) k : Nat) : ℤ)⟩) (by omega) c1 c2 c3
      refine ⟨cur, keys, i, y, hrun, hleaf, hi, hy, hky, c4 y hmem, ?_⟩
      intro x hx hkx
      rcases c5 x hx hkx with h | h
      · exact hmin x h hkx
      · exact Nat.le_of_lt (h y hmem)

theorem nonEmpty_child (ts : List (metaTuple orderedSequence)) (h : NonEmptyTuples ts) :
    ∀ t ∈ ts, t.child.NonEmpty := by
  induction ts with
  | nil => intro t ht; cases ht
  | cons a rest ih =>
    simp only [NonEmptyTuples] at h
    intro t ht
    rcases List.mem_cons.mp ht with rfl | ht
    · exact h.1
    · exact ih h.2 t ht

theorem height_child_le (ts : List (metaTuple orderedSequence)) :
    ∀ t ∈ ts, t.child.height ≤ heightTuples ts := by
  induction ts with
  | nil => intro t ht; cases ht
  | cons a rest ih =>
    intro t ht
    simp only [heightTuples]
    rcases List.mem_cons.mp ht with rfl | ht
    · exact le_max_left _ _
    · exact le_trans (ih t ht) (le_max_right _ _)

theorem seqLen_pos_of_nonEmpty (seq : orderedSequence) (h : seq.NonEmpty) :
    0 < seq.seqLen := by
  cases seq with
  | leafSequence keys =>
    simp only [orderedSequence.NonEmpty] at h
    simp only [orderedSequence.seqLen, orderedSequence.getKeys]
    exact List.length_pos.mpr h
  | metaSequence ts =>
    simp only [orderedSequence.NonEmpty] at h
    simp only [orderedSequence.seqLen, orderedSequence.getKeys, List.length_map]
    exact List.length_pos.mpr h.1

/-- Where the descent of `newCursorAt` ends in a tree without empty sequences: in a leaf,
or, when `forInsertion` is false, at a meta sequence all of whose keys are below the
probe, with the index at its length. -/
theorem newCursorAtLoop_stops (key : Option Nat) (forInsertion last : Bool) :
    ∀ (fuel : Nat) (seq : orderedSequence) (parent : Option sequenceCursor),
      seq.height < fuel → seq.NonEmpty →
      ∃ cur : sequenceCursor,
        newCursorAtLoop fuel parent seq key forInsertion last = .ok cur ∧
        (cur.seq.isLeaf = true ∨
          (forInsertion = false ∧ ∃ (k : Nat) (ts : List (metaTuple orderedSequence)),
            key = some k ∧ cur.seq = .metaSequence ts ∧ (∀ t ∈ ts, t.key < k) ∧
            cur.idx = (ts.length : ℤ))) := by
  intro fuel
  induction fuel with
  | zero => intro seq parent h; omega
  | succ fuel ih =>
    intro seq parent hh hne
    obtain ⟨cur1, hcur1, hseq1, hix0, hix1⟩ :=
      newSequenceCursor_ok parent seq last (seqLen_pos_of_nonEmpty seq hne)
    simp only [newCursorAtLoop, hcur1]
    rcases cur1 with ⟨ps, sq, ix⟩
    simp only at hseq1 hix0 hix1
    subst hseq1
    cases sq with
    | leafSequence keys =>
      cases key with
      | none =>
        simp only [sequenceCursor.getChildSequence]
        exact ⟨_, rfl, Or.inl rfl⟩
      | some k =>
        simp only [seekTo, orderedSequence.isLeaf, Bool.not_true, Bool.and_false,
          Bool.false_eq_true, and_false, if_false]
        by_cases hlt : (((orderedSequence.leafSequence keys).search k : Nat) : ℤ)
            < (((orderedSequence.leafSequence keys).seqLen : Nat) : ℤ)
        · simp only [hlt, decide_True, sequenceCursor.getChildSequence]
          exact ⟨_, rfl, Or.inl rfl⟩
        · simp only [hlt, decide_False]
          exact ⟨_, rfl, Or.inl rfl⟩
    | metaSequence ts =>
      simp only [orderedSequence.NonEmpty] at hne
      simp only [orderedSequence.height] at hh
      simp only [orderedSequence.seqLen, orderedSequence.getKeys, List.length_map] at hix1
      have hchild : ∀ (j : Nat), j < ts.length → ∀ (p : Option sequenceCursor),
          ∃ t, ts[j]? = some t ∧ ∃ cur : sequenceCursor,
            newCursorAtLoop fuel p t.child key forInsertion last = .ok cur ∧
            (cur.seq.isLeaf = true ∨
              (forInsertion = false ∧ ∃ (k : Nat) (ts : List (metaTuple orderedSequence)),
                key = some k ∧ cur.seq = .metaSequence ts ∧ (∀ t ∈ ts, t.key < k) ∧
                cur.idx = (ts.length : ℤ))) := by
        intro j hj p
        have hmem : ts[j] ∈ ts := List.getElem_mem hj
        refine ⟨ts[j], List.getElem?_eq_getElem hj, ?_⟩
        exact ih ts[j].child p (by have := height_child_le ts _ hmem; omega)
          (nonEmpty_child ts hne.2 _ hmem)
      cases key with
      | none =>
        have hnn : ¬ ix < 0 := by omega
        obtain ⟨t, ht, cur, hrun, hres⟩ := hchild ix.toNat (by omega)
          (some ⟨ps, .metaSequence ts, ix⟩)
        simp only [sequenceCursor.getChildSequence, hnn, if_false, ht]
        exact ⟨cur, hrun, hres⟩
      | some k =>
        have hle := searchKeys_le (ts.map (fun t => t.key)) k
        simp only [List.length_map] at hle
        have hpos : 0 < ts.length := List.length_pos.mpr hne.1
        simp only [seekTo, orderedSequence.isLeaf, Bool.not_false, Bool.and_true,
          orderedSequence.search, orderedSequence.seqLen, orderedSequence.getKeys,
          List.length_map]
        by_cases hfull : searchKeys (ts.map (fun t => t.key)) k = ts.length
        · cases forInsertion with
          | true =>
            have h1 : (0 : ℤ) < (ts.length : ℤ) := by omega
            have h2 : (ts.length : ℤ) - 1 < (ts.length : ℤ) := by omega
            have hnn : ¬ ((ts.length : ℤ) - 1 < 0) := by omega
            obtain ⟨t, ht, cur, hrun, hres⟩ := hchild (ts.length - 1) (by omega)
              (some ⟨ps, .metaSequence ts, (ts.length : ℤ) - 1⟩)
            have htn : ((ts.length : ℤ) - 1).toNat = ts.length - 1 := by omega
            simp only [hfull, and_self, if_true, h1, h2, decide_True,
              sequenceCursor.getChildSequence, hnn, if_false, htn, ht]
            exact ⟨cur, hrun, hres⟩
          | false =>
            simp only [hfull, Bool.false_eq_true, and_false, if_false, lt_self_iff_false,
              decide_False]
            have hall : ∀ t ∈ ts, t.key < k := by
              intro t ht
              exact searchKeys_eq_length (ts.map (fun t => t.key)) k
                (by simpa using hfull) t.key (List.mem_map_of_mem _ ht)
            refine ⟨_, rfl, Or.inr ⟨?_, k, ts, ?_, ?_, hall, ?_⟩⟩ <;>
              first
                | rfl
                | trivial
        · have hlt : searchKeys (ts.map (fun t => t.key)) k < ts.length := by omega
          have hne2 : ¬ (((searchKeys (ts.map (fun t => t.key)) k : Nat) : ℤ)
              = (ts.length : ℤ)) := by omega
          have hlt2 : ((searchKeys (ts.map (fun t => t.key)) k : Nat) : ℤ)
              < (ts.length : ℤ) := by omega
          have hnn : ¬ (((searchKeys (ts.map (fun t => t.key)) k : Nat) : ℤ) < 0) := by
            omega
          obtain ⟨t, ht, cur, hrun, hres⟩ := hchild _ hlt
            (some ⟨ps, .metaSequence ts, ((searchKeys (ts.map (fun t => t.key)) k : Nat) : ℤ)⟩)
          simp only [hne2, false_and, if_false, hlt2, decide_True,
            sequenceCursor.getChildSequence, hnn, Int.toNat_ofNat, ht]
          exact ⟨cur, hrun, hres⟩

/-- C17 (amended): in a tree whose leaf keys are strictly increasing in tree order and in
which the key of each meta tuple is the maximum key of its child subtree, for a probe key
not greater than the maximum key of the tree and either value of `forInsertion` (and of
`last`), `newCursorAt` returns, for every large enough fuel, a cursor in a leaf sequence
at the first key of the whole tree that is greater than or equal to the probe; when the
probe key is present the cursor is at that key. -/
theorem newCursorAt_first_not_below (seq : orderedSequence) (k : Nat)
    (forInsertion last : Bool)
    (hmax : seq.KeysAreMax) (hsorted : seq.flatten.Pairwise (· < ·))
    (hex : ∃ x ∈ seq.flatten, k ≤ x) :
    ∃ F, ∀ fuel, F ≤ fuel →
      ∃ (cur : sequenceCursor) (keys : List Nat) (i y : Nat),
        newCursorAt fuel seq (some k) forInsertion last = .ok cur ∧
        cur.seq = .leafSequence keys ∧ cur.idx = (i : ℤ) ∧ keys[i]? = some y ∧
        k ≤ y ∧ y ∈ seq.flatten ∧ (∀ x ∈ seq.flatten, k ≤ x → y ≤ x) ∧
        (k ∈ seq.flatten → y = k) := by
  refine ⟨seq.height + 1, ?_⟩
  intro fuel hf
  obtain ⟨cur, keys, i, y, hrun, hleaf, hi, hy, hky, hmem, hmin⟩ :=
    newCursorAtLoop_finds k forInsertion last fuel seq none (by omega) hmax hsorted hex
  refine ⟨cur, keys, i, y, hrun, hleaf, hi, hy, hky, hmem, hmin, ?_⟩
  intro hk
  exact Nat.le_antisymm (hmin k hk (Nat.le_refl k)) hky

theorem exTree_keysAreMax : exTree.KeysAreMax := by
  simp [exTree, orderedSequence.KeysAreMax, KeysAreMaxTuples, orderedSequence.flatten]

theorem exTree_sorted : exTree.flatten.Pairwise (· < ·) := by
  simp [exTree, orderedSequence.flatten, flattenTuples]

/-- In the tree with the leaves `[1, 5]` and `[6, 9]` the probe 6 is found at index 0 of
the second leaf, and the probe 2 lands on 5 in the first. -/
theorem newCursorAt_first_not_below_witness :
    (∃ cur : sequenceCursor, newCursorAt 2 exTree (some 6) false false = .ok cur ∧
      cur.seq = .leafSequence [6, 9] ∧ cur.idx = 0) ∧
    (∃ cur : sequenceCursor, newCursorAt 2 exTree (some 2) true false = .ok cur ∧
      cur.seq = .leafSequence [1, 5] ∧ cur.idx = 1) ∧
    (∃ F, ∀ fuel, F ≤ fuel →
      ∃ (cur : sequenceCursor) (keys : List Nat) (i y : Nat),
        newCursorAt fuel exTree (some 6) false false = .ok cur ∧
        cur.seq = .leafSequence keys ∧ cur.idx = (i : ℤ) ∧ keys[i]? = some y ∧
        6 ≤ y ∧ y ∈ exTree.flatten ∧ (∀ x ∈ exTree.flatten, 6 ≤ x → y ≤ x) ∧
        (6 ∈ exTree.flatten → y = 6)) :=
  ⟨⟨_, rfl, rfl, rfl⟩, ⟨_, rfl, rfl, rfl⟩,
   newCursorAt_first_not_below exTree 6 false false exTree_keysAreMax exTree_sorted
     ⟨9, by simp [exTree, orderedSequence.flatten, flattenTuples], by decide⟩⟩

/-- C17 as stated fails: in `exOverlap` the keys are strictly increasing within each
sequence and every tuple key is the maximum key of its child subtree, the probe 2 is
present and not above the maximum 9, yet `newCursorAt` returns the cursor at key 5 of the
leaf `[1, 5]`, which is neither the element of key 2 nor the first key not below 2. -/
theorem newCursorAt_overlap_counterexample :
    exOverlap.KeysIncreasing ∧ exOverlap.KeysAreMax ∧
    2 ∈ exOverlap.flatten ∧ (∃ x ∈ exOverlap.flatten, 2 ≤ x) ∧
    (∃ cur : sequenceCursor, newCursorAt 2 exOverlap (some 2) false false = .ok cur ∧
      cur.seq = .leafSequence [1, 5] ∧ cur.idx = 1 ∧
      ([1, 5] : List Nat)[1]? = some 5) ∧
    (∃ cur : sequenceCursor, newCursorAt 2 exOverlap (some 2) true false = .ok cur ∧
      cur.seq = .leafSequence [1, 5] ∧ cur.idx = 1) := by
  refine ⟨?_, ?_, ?_, ?_, ⟨_, rfl, rfl, rfl, rfl⟩, ⟨_, rfl, rfl, rfl⟩⟩
  · simp [exOverlap, orderedSequence.KeysIncreasing, KeysIncreasingTuples]
  · simp [exOverlap, orderedSequence.KeysAreMax, KeysAreMaxTuples, orderedSequence.flatten]
  · simp [exOverlap, orderedSequence.flatten, flattenTuples]
  · exact ⟨9, by simp [exOverlap, orderedSequence.flatten, flattenTuples], by decide⟩

theorem exTree_nonEmpty : exTree.NonEmpty := by
  simp [exTree, orderedSequence.NonEmpty, NonEmptyTuples]

/-- C18 as stated fails: in `exTree`, which has no empty sequence, the probe 10 with
`forInsertion` false makes `newCursorAt` return at the root, a meta sequence, with the
index at its length 2. -/
theorem newCursorAt_meta_counterexample :
    exTree.NonEmpty ∧
    ∃ cur : sequenceCursor, newCursorAt 2 exTree (some 10) false false = .ok cur ∧
      cur.seq.isLeaf = false ∧ cur.idx = 2 ∧ cur.parents = [] :=
  ⟨exTree_nonEmpty, _, rfl, rfl, rfl, rfl⟩

end OrderedSequences

/-! ### C24 and C28: the truncated listing and the termination of the walk -/

theorem exDiamondDb_grounded_C1 : Grounded exDiamondDb exC1 :=
  Grounded.intro exC1 (fun r hr => by simp [exC1] at hr) (fun r p hr _ => by simp [exC1] at hr)

theorem exDiamondDb_grounded_C2 : Grounded exDiamondDb exC2 :=
  Grounded.intro exC2
    (fun r hr => by
      simp only [exC2, List.mem_singleton] at hr
      subst hr
      exact ⟨exC1, by decide⟩)
    (fun r p hr hv => by
      simp only [exC2, List.mem_singleton] at hr
      subst hr
      have h1 : exDiamondDb.values 1 = some (.struct exC1) := by decide
      rw [h1] at hv
      cases hv
      exact exDiamondDb_grounded_C1)

theorem exDiamondDb_grounded_side : Grounded exDiamondDb exSide :=
  Grounded.intro exSide
    (fun r hr => by
      simp only [exSide, List.mem_singleton] at hr
      subst hr
      exact ⟨exC1, by decide⟩)
    (fun r p hr hv => by
      simp only [exSide, List.mem_singleton] at hr
      subst hr
      have h1 : exDiamondDb.values 1 = some (.struct exC1) := by decide
      rw [h1] at hv
      cases hv
      exact exDiamondDb_grounded_C1)

theorem exDiamondDb_grounded : Grounded exDiamondDb exDiamond :=
  Grounded.intro exDiamond
    (fun r hr => by
      simp only [exDiamond, List.mem_cons, List.mem_singleton, List.not_mem_nil, or_false] at hr
      rcases hr with rfl | rfl
      · exact ⟨exC2, by decide⟩
      · exact ⟨exSide, by decide⟩)
    (fun r p hr hv => by
      simp only [exDiamond, List.mem_cons, List.mem_singleton, List.not_mem_nil, or_false] at hr
      rcases hr with rfl | rfl
      · have h1 : exDiamondDb.values 2 = some (.struct exC2) := by decide
        rw [h1] at hv
        cases hv
        exact exDiamondDb_grounded_C2
      · have h1 : exDiamondDb.values 4 = some (.struct exSide) := by decide
        rw [h1] at hv
        cases hv
        exact exDiamondDb_grounded_side)

/-- With the limit 3 the walk from `exDiamond` goes down its first parent and stops before
it looks at the second one, whatever fuel is left over. -/
theorem exDiamond_walk (fuel : Nat) :
    AddCommits exDiamondDb (fuel + 3) exDiamond [] 3
      = .ok [(5, exDiamond), (2, exC2), (1, exC1)] := by
  rfl

/-- The loop over the parents calls `recur` on parents of the commit only: two functions
that agree on the parents give the same loop. -/
theorem addParentCommits_congr (db : Database) (c : Commit) (n : Int)
    (recur recur' : Commit → CommitMap → Except Err CommitMap)
    (h : ∀ p m, IsParent db c p → recur p m = recur' p m) (is : List Nat) :
    ∀ m, addParentCommits db recur c n is m = addParentCommits db recur' c n is m := by
  induction is with
  | nil => intro m; rfl
  | cons i rest ih =>
    intro m
    simp only [addParentCommits]
    split_ifs with hlen
    · rfl
    · cases hp : DoltDB.ResolveParent db c i with
      | error e => rfl
      | ok p =>
        simp only
        rw [h p m (ResolveParent_isParent db c p i hp)]
        cases recur' p m with
        | error e => rfl
        | ok m1 => exact ih m1

/-- C24: the listing truncated by `n` is not the `n` most recent commits. In the
repository where `exDiamond` merges `exC2` (time 20) and `exSide` (time 25), the children
of `exC1` (time 10), `TimeSortedCommits` with the limit 3 returns the three commits
`exDiamond`, `exC2`, `exC1` for every fuel from 3 on; it omits `exSide`, which is
reachable from `exDiamond` and is newer than the returned `exC2`. -/
theorem TimeSortedCommits_truncation_not_most_recent :
    ∃ (db : Database) (c omitted kept : Commit) (n : Int) (cs : List Commit),
      1 ≤ n ∧ (∀ fuel, TimeSortedCommits (fuel + 3) db c n = .ok cs) ∧
      (cs.length : Int) = n ∧ Reachable db c omitted ∧ omitted ∉ cs ∧ kept ∈ cs ∧
      kept.commitMeta.Timestamp < omitted.commitMeta.Timestamp := by
  refine ⟨exDiamondDb, exDiamond, exSide, exC2, 3, [exDiamond, exC2, exC1], by decide, ?_,
    by decide, ?_, by decide, by decide, by decide⟩
  · intro fuel
    unfold TimeSortedCommits
    rw [exDiamond_walk]
    rfl
  · exact Relation.ReflTransGen.single ⟨4, by decide, by decide⟩

/-- C28: on a finite acyclic stored history `AddCommits` terminates for every limit `n`
and every map it starts from: from some fuel on it returns a map. Every recursive call is
made on a parent of the current commit: the loop over the parents does not depend on what
`recur` does on commits that are not parents. The walk keeps no visited set: started on
`exC2` with `exC2` already in the map, it still goes on to the parent `exC1`. -/
theorem AddCommits_terminates (db : Database) (n : Int) (c : Commit)
    (hg : Grounded db c) :
    (∃ F, ∀ fuel, F ≤ fuel → ∀ m : CommitMap, ∃ m1, AddCommits db fuel c m n = .ok m1) ∧
    (∀ (c1 : Commit) (recur recur' : Commit → CommitMap → Except Err CommitMap)
      (is : List Nat) (m : CommitMap),
      (∀ p m0, IsParent db c1 p → recur p m0 = recur' p m0) →
      addParentCommits db recur c1 n is m = addParentCommits db recur' c1 n is m) ∧
    AddCommits exDiamondDb 2 exC2 [(2, exC2)] 5 = .ok [(2, exC2), (1, exC1)] :=
  ⟨AddCommits_total db n c hg,
   fun c1 recur recur' is m h => addParentCommits_congr db c1 n recur recur' h is m,
   by decide⟩

theorem AddCommits_terminates_witness :
    Grounded exDiamondDb exDiamond ∧
    ∃ F, ∀ fuel, F ≤ fuel → ∀ m : CommitMap, ∃ m1,
      AddCommits exDiamondDb fuel exDiamond m 2 = .ok m1 :=
  ⟨exDiamondDb_grounded, (AddCommits_terminates exDiamondDb 2 exDiamond exDiamondDb_grounded).1⟩

/-! ### C25 and C26: `seekTo` and the chunk function of ordered meta sequences -/

section OrderedSequenceChunks
open types

theorem searchKeys_all_lt (ks : List Nat) (k : Nat) (h : ∀ x ∈ ks, x < k) :
    searchKeys ks k = ks.length := by
  induction ks with
  | nil => rfl
  | cons a rest ih =>
    have ha : ¬ k ≤ a := Nat.not_le.mpr (h a (List.mem_cons_self _ _))
    simp only [searchKeys, ha, if_false, List.length_cons]
    rw [ih (fun x hx => h x (List.mem_cons_of_mem _ hx))]

theorem searchKeys_before (ks : List Nat) (k : Nat) :
    ∀ j z, j < searchKeys ks k → ks[j]? = some z → z < k := by
  induction ks with
  | nil => intro j z hj; simp [searchKeys] at hj
  | cons a rest ih =>
    intro j z hj hz
    simp only [searchKeys] at hj
    by_cases hka : k ≤ a
    · simp [hka] at hj
    · simp only [hka, if_false] at hj
      cases j with
      | zero =>
        simp only [List.getElem?_cons_zero, Option.some.injEq] at hz
        omega
      | succ j =>
        simp only [List.getElem?_cons_succ] at hz
        exact ih j z (by omega) hz

/-- C25: `seekTo` on a sequence whose `search` returns the smallest index with a key not
below the probe, the length when there is none. When such an index exists, `seekTo` sets
the index of the cursor to it and returns true. When none exists, the sequence is not
empty and `lastPositionIfNotFound` is set, it sets the index to the length minus one and
returns true. When none exists and `lastPositionIfNotFound` is not set, it sets the index
to the length and returns false. It returns false only when `lastPositionIfNotFound` is
false and the probe exceeds every key, and on a non-empty sequence it returns: the
assertion `cur.idx > 0` does not fail. -/
theorem seekTo_spec (cur : sequenceCursor) (key : Nat) (lastPositionIfNotFound : Bool) :
    ((∃ x ∈ cur.seq.getKeys, key ≤ x) →
      ∃ (i y : Nat), seekTo cur key lastPositionIfNotFound = .ok ({ cur with idx := i }, true) ∧
        cur.seq.getKeys[i]? = some y ∧ key ≤ y ∧
        ∀ j z, j < i → cur.seq.getKeys[j]? = some z → z < key) ∧
    ((∀ x ∈ cur.seq.getKeys, x < key) → 0 < cur.seq.seqLen → lastPositionIfNotFound = true →
      seekTo cur key lastPositionIfNotFound
        = .ok ({ cur with idx := (cur.seq.seqLen : ℤ) - 1 }, true)) ∧
    ((∀ x ∈ cur.seq.getKeys, x < key) → lastPositionIfNotFound = false →
      seekTo cur key lastPositionIfNotFound
        = .ok ({ cur with idx := (cur.seq.seqLen : ℤ) }, false)) ∧
    (∀ cur1, seekTo cur key lastPositionIfNotFound = .ok (cur1, false) →
      lastPositionIfNotFound = false ∧ ∀ x ∈ cur.seq.getKeys, x < key) ∧
    (0 < cur.seq.seqLen → ∃ r, seekTo cur key lastPositionIfNotFound = .ok r) := by
  have hle : cur.seq.search key ≤ cur.seq.seqLen := searchKeys_le _ _
  refine ⟨?_, ?_, ?_, ?_, ?_⟩
  · intro hex
    obtain ⟨y, hy, hky, -⟩ := searchKeys_found cur.seq.getKeys key hex
    have hlt : cur.seq.search key < cur.seq.seqLen := (List.getElem?_eq_some.mp hy).1
    exact ⟨cur.seq.search key, y, seekTo_found cur key _ hlt, hy, hky,
      fun j z hj hz => searchKeys_before _ _ j z hj hz⟩
  · intro hall hpos hlast
    have hs : cur.seq.search key = cur.seq.seqLen := searchKeys_all_lt _ _ hall
    have hpos1 : (0 : ℤ) < (cur.seq.seqLen : ℤ) := by exact_mod_cast hpos
    simp [seekTo, hs, hlast, hpos1]
  · intro hall hlast
    have hs : cur.seq.search key = cur.seq.seqLen := searchKeys_all_lt _ _ hall
    simp [seekTo, hs, hlast]
  · intro cur1 h
    by_cases hs : cur.seq.search key = cur.seq.seqLen
    · cases hl : lastPositionIfNotFound with
      | false => exact ⟨rfl, searchKeys_eq_length _ _ hs⟩
      | true =>
        subst hl
        simp only [seekTo, hs, and_self, if_true] at h
        split_ifs at h with hp
        simp only [Except.ok.injEq, Prod.mk.injEq, decide_eq_false_iff_not] at h
        omega
    · have hlt : cur.seq.search key < cur.seq.seqLen := lt_of_le_of_ne hle hs
      rw [seekTo_found cur key _ hlt] at h
      simp at h
  · intro hpos
    by_cases hs : cur.seq.search key = cur.seq.seqLen
    · have hpos1 : (0 : ℤ) < (cur.seq.seqLen : ℤ) := by exact_mod_cast hpos
      cases hl : lastPositionIfNotFound with
      | false => exact ⟨_, by simp [seekTo, hs]; rfl⟩
      | true => exact ⟨_, by simp [seekTo, hs, hpos1]; rfl⟩
    · have hlt : cur.seq.search key < cur.seq.seqLen := lt_of_le_of_ne hle hs
      exact ⟨_, seekTo_found cur key _ hlt⟩

theorem seekTo_spec_witness :
    (∃ x ∈ exLeafCursor.seq.getKeys, 3 ≤ x) ∧
    (∃ (i y : Nat), seekTo exLeafCursor 3 true = .ok ({ exLeafCursor with idx := i }, true) ∧
      exLeafCursor.seq.getKeys[i]? = some y ∧ 3 ≤ y ∧
      ∀ j z, j < i → exLeafCursor.seq.getKeys[j]? = some z → z < 3) :=
  ⟨⟨5, by decide, by decide⟩, (seekTo_spec exLeafCursor 3 true).1 ⟨5, by decide, by decide⟩⟩
theorem chunkItems_ok (items : List (metaTuple orderedSequence)) :
    ∀ (lastKey : Option Nat) (numLeaves : Nat) (tuples : List (metaTuple orderedSequence)),
      numLeaves < 2 ^ 64 →
      (lastKey.toList ++ items.map (fun t => t.key)).Chain' (· < ·) →
      chunkItems items lastKey numLeaves tuples
        = .ok (tuples ++ items,
            (numLeaves + (items.map (fun t => t.numLeaves)).sum) % 2 ^ 64) := by
  induction items with
  | nil =>
    intro lastKey numLeaves tuples hn _
    have hn1 : numLeaves % 2 ^ 64 = numLeaves := Nat.mod_eq_of_lt hn
    simp only [chunkItems, List.append_nil, List.map_nil, List.sum_nil, Nat.add_zero, hn1]
  | cons mt rest ih =>
    intro lastKey numLeaves tuples hn hc
    have hstep : keyFollows lastKey mt.key = true ∧
        ((some mt.key).toList ++ rest.map (fun t => t.key)).Chain' (· < ·) := by
      cases lastKey with
      | none => exact ⟨rfl, by simpa using hc⟩
      | some k =>
        simp only [Option.toList, List.map_cons, List.singleton_append,
          List.chain'_cons] at hc
        exact ⟨by simpa [keyFollows] using hc.1, by simpa using hc.2⟩
    simp only [chunkItems, hstep.1, if_true]
    rw [ih (some mt.key) _ (tuples ++ [mt]) (Nat.mod_lt _ (by norm_num)) hstep.2]
    simp only [List.append_assoc, List.singleton_append, List.map_cons, List.sum_cons,
      Nat.add_mod_mod, Nat.mod_add_mod, Nat.add_assoc]

theorem chunkItems_panics (items : List (metaTuple orderedSequence)) :
    ∀ (lastKey : Option Nat) (numLeaves : Nat) (tuples : List (metaTuple orderedSequence)),
      ¬ (lastKey.toList ++ items.map (fun t => t.key)).Chain' (· < ·) →
      ∃ msg, chunkItems items lastKey numLeaves tuples = .error (.panicked msg) := by
  induction items with
  | nil =>
    intro lastKey numLeaves tuples hc
    cases lastKey <;> simp at hc
  | cons mt rest ih =>
    intro lastKey numLeaves tuples hc
    simp only [chunkItems]
    cases hk : keyFollows lastKey mt.key with
    | false => exact ⟨_, rfl⟩
    | true =>
      simp only [if_true]
      apply ih
      intro hrest
      apply hc
      cases lastKey with
      | none => simpa using hrest
      | some k =>
        simp only [keyFollows, decide_eq_true_eq] at hk
        simp only [Option.toList, List.map_cons, List.singleton_append, List.chain'_cons]
        exact ⟨hk, by simpa using hrest⟩

theorem key_le_last_of_chain (items : List (metaTuple orderedSequence))
    (last : metaTuple orderedSequence) (hlast : items.getLast? = some last)
    (hinc : (items.map (fun t => t.key)).Chain' (· < ·)) :
    ∀ t ∈ items, t.key ≤ last.key := by
  obtain ⟨init, rfl⟩ : ∃ init, items = init ++ [last] := by
    rcases List.eq_nil_or_concat items with h | ⟨init, x, h⟩
    · subst h; simp at hlast
    · subst h
      rw [List.concat_eq_append, List.getLast?_concat] at hlast
      cases hlast
      exact ⟨init, by simp⟩
  have hp := List.chain'_iff_pairwise.mp hinc
  simp only [List.map_append, List.map_cons, List.map_nil, List.pairwise_append,
    List.mem_map, List.mem_singleton, forall_exists_index, and_imp,
    forall_apply_eq_imp_iff₂] at hp
  intro t ht
  rcases List.mem_append.mp ht with h | h
  · exact Nat.le_of_lt (hp.2.2 t h _ rfl)
  · simp only [List.mem_singleton] at h
    subst h
    exact Nat.le_refl _

/-- C26: the function that `newOrderedMetaSequenceChunkFn` returns, made for the kind Set
or Map and applied to a non-empty list of meta tuples whose keys are strictly increasing,
returns a collection whose meta sequence holds exactly those tuples in the given order,
the key of the last tuple, which is the maximum of the keys, and the sum of the leaf
counts of the tuples reduced modulo `2 ^ 64`, which is the sum itself when that is below
`2 ^ 64`. If some key is not strictly greater than the key before it, the function panics
whatever the kind. -/
theorem newOrderedMetaSequenceChunkFn_spec (kind : NomsKind) (level : Nat)
    (items : List (metaTuple orderedSequence)) :
    (kind = .SetKind ∨ kind = .MapKind → items ≠ [] →
      (items.map (fun t => t.key)).Chain' (· < ·) →
      ∃ last, items.getLast? = some last ∧
        newOrderedMetaSequenceChunkFn kind level items
          = .ok ({ kind := kind, level := level, seq := .metaSequence items }, last.key,
              (items.map (fun t => t.numLeaves)).sum % 2 ^ 64) ∧
        (∀ t ∈ items, t.key ≤ last.key) ∧
        ((items.map (fun t => t.numLeaves)).sum < 2 ^ 64 →
          newOrderedMetaSequenceChunkFn kind level items
            = .ok ({ kind := kind, level := level, seq := .metaSequence items }, last.key,
                (items.map (fun t => t.numLeaves)).sum))) ∧
    (¬ (items.map (fun t => t.key)).Chain' (· < ·) →
      ∃ msg, newOrderedMetaSequenceChunkFn kind level items = .error (.panicked msg)) := by
  constructor
  · intro hkind hne hinc
    have hloop := chunkItems_ok items none 0 [] (by norm_num) (by simpa using hinc)
    simp only [List.nil_append, Nat.zero_add] at hloop
    have hlast : items.getLast? = some (items.getLast hne) := List.getLast?_eq_getLast _ hne
    have hres : newOrderedMetaSequenceChunkFn kind level items
        = .ok ({ kind := kind, level := level, seq := .metaSequence items },
            (items.getLast hne).key, (items.map (fun t => t.numLeaves)).sum % 2 ^ 64) := by
      unfold newOrderedMetaSequenceChunkFn
      rw [hloop]
      rcases hkind with rfl | rfl
      · simp [hlast, newSetMetaSequence, newMetaSequenceFromTuples]
      · simp [hlast, newMapMetaSequence, newMetaSequenceFromTuples]
    refine ⟨items.getLast hne, hlast, hres, key_le_last_of_chain items _ hlast hinc, ?_⟩
    intro hsum
    rw [hres, Nat.mod_eq_of_lt hsum]
  · intro hinc
    obtain ⟨msg, hmsg⟩ := chunkItems_panics items none 0 [] (by simpa using hinc)
    exact ⟨msg, by unfold newOrderedMetaSequenceChunkFn; rw [hmsg]⟩

theorem newOrderedMetaSequenceChunkFn_spec_witness :
    ∃ last, exTuples.getLast? = some last ∧
      newOrderedMetaSequenceChunkFn .MapKind 1 exTuples
        = .ok ({ kind := .MapKind, level := 1, seq := .metaSequence exTuples }, last.key,
            (exTuples.map (fun t => t.numLeaves)).sum % 2 ^ 64) ∧
      (∀ t ∈ exTuples, t.key ≤ last.key) ∧
      ((exTuples.map (fun t => t.numLeaves)).sum < 2 ^ 64 →
        newOrderedMetaSequenceChunkFn .MapKind 1 exTuples
          = .ok ({ kind := .MapKind, level := 1, seq := .metaSequence exTuples }, last.key,
              (exTuples.map (fun t => t.numLeaves)).sum)) :=
  (newOrderedMetaSequenceChunkFn_spec .MapKind 1 exTuples).1 (Or.inr rfl)
    (by simp [exTuples]) (by simp [exTuples])

/-- C26, the claim as it stands fails: for two tuples with the keys 1 and 2 and `2 ^ 63`
leaves each, the chunk function returns the leaf count 0, which is not the sum `2 ^ 64` of
the leaf counts. -/
theorem newOrderedMetaSequenceChunkFn_overflow_counterexample :
    (exHugeTuples.map (fun t => t.key)).Chain' (· < ·) ∧ exHugeTuples ≠ [] ∧
    (∃ col key, newOrderedMetaSequenceChunkFn .MapKind 1 exHugeTuples = .ok (col, key, 0)) ∧
    (exHugeTuples.map (fun t => t.numLeaves)).sum = 2 ^ 64 ∧
    ¬ (∃ col key, newOrderedMetaSequenceChunkFn .MapKind 1 exHugeTuples
        = .ok (col, key, (exHugeTuples.map (fun t => t.numLeaves)).sum)) := by
  have hrun : newOrderedMetaSequenceChunkFn .MapKind 1 exHugeTuples
      = .ok ({ kind := .MapKind, level := 1, seq := .metaSequence exHugeTuples }, 2, 0) := by
    rfl
  refine ⟨by simp [exHugeTuples], by simp [exHugeTuples], ⟨_, _, hrun⟩, by simp [exHugeTuples], ?_⟩
  rintro ⟨col, key, h⟩
  rw [hrun] at h
  simp [exHugeTuples] at h

end OrderedSequenceChunks

/-! ### C29: data locations of an unrecognised format -/

section DataLocations
open mvdata

theorem DFFromString_ne_DoltDB (dfStr : String) : DFFromString dfStr ≠ DoltDB := by
  unfold DFFromString
  simp only
  split_ifs <;> decide

theorem DFFromString_invalid (dfStr : String)
    (h : ToLower dfStr ∉
      ["csv", ".csv", "psv", ".psv", "xlsx", ".xlsx", "json", ".json", "sql", ".sql"]) :
    DFFromString dfStr = InvalidDataFormat := by
  simp only [List.mem_cons, List.mem_singleton, List.not_mem_nil, or_false, not_or] at h
  obtain ⟨h1, h2, h3, h4, h5, h6, h7, h8, h9, h10⟩ := h
  simp [DFFromString, h1, h2, h3, h4, h5, h6, h7, h8, h9, h10]

/-- C29: `NewDataLocation` with a non-empty format string that, lowered, is none of `csv`,
`psv`, `xlsx`, `json`, `sql` with or without a leading dot, gives `InvalidDataFormat`; no
non-empty format string gives `DoltDB`. With the empty format string, a path that is not
a valid table name and an extension that is none of the five, the format is the empty
string, which is neither `InvalidDataFormat` nor a declared format, and `IsFileType`
returns true and does not panic. -/
theorem NewDataLocation_unrecognised (IsValidTableName : String → Bool)
    (path fileFmtStr : String) :
    (fileFmtStr ≠ "" →
      ToLower fileFmtStr ∉
        ["csv", ".csv", "psv", ".psv", "xlsx", ".xlsx", "json", ".json", "sql", ".sql"] →
      (NewDataLocation IsValidTableName path fileFmtStr).Format = InvalidDataFormat) ∧
    (fileFmtStr ≠ "" →
      (NewDataLocation IsValidTableName path fileFmtStr).Format ≠ DoltDB) ∧
    (IsValidTableName path = false →
      ToLower (Ext path) ∉ [CsvFile, PsvFile, XlsxFile, JsonFile, SqlFile] →
      (NewDataLocation IsValidTableName path "").Format = "" ∧
      (NewDataLocation IsValidTableName path "").Format ≠ InvalidDataFormat ∧
      (NewDataLocation IsValidTableName path "").Format ∉
        [DoltDB, CsvFile, PsvFile, XlsxFile, JsonFile, SqlFile] ∧
      (NewDataLocation IsValidTableName path "").IsFileType = .ok true) := by
  refine ⟨?_, ?_, ?_⟩
  · intro hne h
    simp only [NewDataLocation, hne, if_false]
    exact DFFromString_invalid _ h
  · intro hne
    simp only [NewDataLocation, hne, if_false]
    exact DFFromString_ne_DoltDB _
  · intro hv h
    simp only [List.mem_cons, List.mem_singleton, List.not_mem_nil, or_false, not_or] at h
    obtain ⟨h1, h2, h3, h4, h5⟩ := h
    have hf : (NewDataLocation IsValidTableName path "").Format = "" := by
      simp [NewDataLocation, hv, h1, h2, h3, h4, h5]
    refine ⟨hf, ?_, ?_, ?_⟩
    · rw [hf]; decide
    · rw [hf]; decide
    · simp only [DataLocation.IsFileType, hf]
      decide

theorem NewDataLocation_unrecognised_witness :
    ("yaml" ≠ "" ∧
      (NewDataLocation exIsValidTableName "data.csv" "yaml").Format = InvalidDataFormat) ∧
    (exIsValidTableName "data.txt" = false ∧
      (NewDataLocation exIsValidTableName "data.txt" "").Format = "" ∧
      (NewDataLocation exIsValidTableName "data.txt" "").IsFileType = .ok true) :=
  ⟨⟨by decide,
    (NewDataLocation_unrecognised exIsValidTableName "data.csv" "yaml").1
      (by decide) (by decide)⟩,
   by decide,
   ((NewDataLocation_unrecognised exIsValidTableName "data.txt" "").2.2
      (by decide) (by decide)).1,
   ((NewDataLocation_unrecognised exIsValidTableName "data.txt" "").2.2
      (by decide) (by decide)).2.2.2⟩

end DataLocations

/-! ### C30 and C21: the SQL export writer -/

section SqlExport
open sqlexport

theorem replaceAllChars_eq_join (l : List Char) :
    replaceAllChars '"' ['\\', '"'] l
      = (l.map (fun c => if c = '"' then ['\\', '"'] else [c])).flatten := by
  induction l with
  | nil => rfl
  | cons c rest ih =>
    by_cases hc : c = '"'
    · simp [replaceAllChars, hc, ih]
    · simp [replaceAllChars, hc, ih]

theorem replaceAllChars_append (l1 l2 : List Char) :
    replaceAllChars '"' ['\\', '"'] (l1 ++ l2)
      = replaceAllChars '"' ['\\', '"'] l1 ++ replaceAllChars '"' ['\\', '"'] l2 := by
  simp [replaceAllChars_eq_join]

/-- The escaped text never starts with a double quote. -/
theorem replaceAllChars_head (l : List Char) :
    (replaceAllChars '"' ['\\', '"'] l).head? ≠ some '"' := by
  cases l with
  | nil => simp [replaceAllChars]
  | cons c rest =>
    by_cases hc : c = '"'
    · simp [replaceAllChars, hc]
    · simp [replaceAllChars, hc]

theorem replaceAllChars_inj :
    ∀ l1 l2 : List Char,
      replaceAllChars '"' ['\\', '"'] l1 = replaceAllChars '"' ['\\', '"'] l2 → l1 = l2 := by
  intro l1
  induction l1 with
  | nil =>
    intro l2 h
    cases l2 with
    | nil => rfl
    | cons d r2 =>
      by_cases hd : d = '"'
      · simp [replaceAllChars, hd] at h
      · simp [replaceAllChars, hd] at h
  | cons c r1 ih =>
    intro l2 h
    cases l2 with
    | nil =>
      by_cases hc : c = '"'
      · simp [replaceAllChars, hc] at h
      · simp [replaceAllChars, hc] at h
    | cons d r2 =>
      by_cases hc : c = '"' <;> by_cases hd : d = '"'
      · subst hc; subst hd
        simp only [replaceAllChars, if_true, List.cons_append, List.nil_append,
          List.cons.injEq, true_and] at h
        rw [ih r2 h]
      · subst hc
        simp only [replaceAllChars, if_true, hd, if_false, List.cons_append,
          List.nil_append, List.cons.injEq] at h
        have := replaceAllChars_head r2
        rw [← h.2] at this
        simp at this
      · subst hd
        simp only [replaceAllChars, if_true, hc, if_false, List.cons_append,
          List.nil_append, List.cons.injEq] at h
        have := replaceAllChars_head r1
        rw [h.2] at this
        simp at this
      · simp only [replaceAllChars, hc, hd, if_false, List.cons.injEq] at h
        rw [h.1, ih r2 h.2]

theorem sqlString_string_data (x : Externals) (s : String) :
    (sqlString x (.string s)).data
      = '"' :: (replaceAllChars '"' ['\\', '"'] s.data ++ ['"']) := by
  simp [sqlString, ReplaceAll, doubleQuot, String.data_append]

/-- C30: `sqlString` renders null as `NULL`, a Bool as `TRUE` or `FALSE`, and a String `s`
as a double quote, the characters of `s` in order with a backslash and a double quote in
place of each double quote and every other character, the backslash too, as it is, and a
closing double quote. The rendering of strings is injective. For a string that ends in a
backslash the output ends in that backslash, unescaped, and the closing quote. -/
theorem sqlString_spec (x : Externals) :
    sqlString x .null = "NULL" ∧
    sqlString x (.bool true) = "TRUE" ∧
    sqlString x (.bool false) = "FALSE" ∧
    (∀ s : String, (sqlString x (.string s)).data
      = '"' :: ((s.data.map (fun c => if c = '"' then ['\\', '"'] else [c])).flatten
          ++ ['"'])) ∧
    (∀ s1 s2 : String, sqlString x (.string s1) = sqlString x (.string s2) → s1 = s2) ∧
    (∀ (s : String) (init : List Char), s.data = init ++ ['\\'] →
      (sqlString x (.string s)).data
        = '"' :: (init.map (fun c => if c = '"' then ['\\', '"'] else [c])).flatten
            ++ ['\\', '"']) := by
  refine ⟨rfl, rfl, rfl, ?_, ?_, ?_⟩
  · intro s
    rw [sqlString_string_data, replaceAllChars_eq_join]
  · intro s1 s2 h
    have hd := congrArg String.data h
    rw [sqlString_string_data, sqlString_string_data] at hd
    simp only [List.cons.injEq, true_and, List.append_cancel_right_eq] at hd
    exact String.ext (replaceAllChars_inj _ _ hd)
  · intro s init hs
    rw [sqlString_string_data, hs, replaceAllChars_append, ← replaceAllChars_eq_join]
    simp [replaceAllChars]

theorem sqlString_spec_witness :
    "c\\".data = ['c'] ++ ['\\'] ∧
    (sqlString exExternals (.string "c\\")).data = ['"', 'c', '\\', '"'] ∧
    (sqlString exExternals (.string "a\"b")).data = ['"', 'a', '\\', '"', 'b', '"'] :=
  ⟨rfl, (sqlString_spec exExternals).2.2.2.2.2 "c\\" ['c'] rfl,
    (sqlString_spec exExternals).2.2.2.1 "a\"b"⟩

theorem writeSeparated_data (l : List String) :
    ∀ (seenOne : Bool) (b : String), ∃ t, (writeSeparated l seenOne b).data = b.data ++ t := by
  induction l with
  | nil => intro seenOne b; exact ⟨[], by simp [writeSeparated]⟩
  | cons s rest ih =>
    intro seenOne b
    obtain ⟨t, ht⟩ := ih true ((if seenOne then b.push ',' else b) ++ s)
    cases seenOne with
    | false =>
      refine ⟨s.data ++ t, ?_⟩
      simp only [writeSeparated, Bool.false_eq_true, if_false] at ht ⊢
      rw [ht, String.data_append, List.append_assoc]
    | true =>
      refine ⟨',' :: (s.data ++ t), ?_⟩
      simp only [writeSeparated, if_true] at ht ⊢
      rw [ht, String.data_append, String.data_push]
      simp

theorem head_append (c : Char) (s u : String) (h : ∃ t, s.data = c :: t) :
    ∃ t, (s ++ u).data = c :: t := by
  obtain ⟨t, ht⟩ := h
  exact ⟨t ++ u.data, by rw [String.data_append, ht, List.cons_append]⟩

theorem head_writeSeparated (c : Char) (l : List String) (seenOne : Bool) (b : String)
    (h : ∃ t, b.data = c :: t) : ∃ t, (writeSeparated l seenOne b).data = c :: t := by
  obtain ⟨t, ht⟩ := h
  obtain ⟨t1, ht1⟩ := writeSeparated_data l seenOne b
  exact ⟨t ++ t1, by rw [ht1, ht, List.cons_append]⟩

/-- An insert statement starts with the letter `I`. -/
theorem insertStatementForRow_head (x : Externals) (w : SqlExportWriter) (r : Row)
    (stmt : String) (h : insertStatementForRow x w r = .ok stmt) :
    ∃ t, stmt.data = 'I' :: t := by
  simp only [insertStatementForRow, Except.ok.injEq] at h
  subst h
  have h0 : ∃ t, ("" ++ "INSERT INTO ").data = 'I' :: t := ⟨_, rfl⟩
  exact head_append _ _ _ (head_writeSeparated _ _ _ _ (head_append _ _ _ (head_append _ _ _
    (head_writeSeparated _ _ _ _ (head_append _ _ _ (head_append _ _ _
      (head_append _ _ _ h0)))))))

/-- The drop and create statement starts with the letter `D`. -/
theorem dropCreateStatement_head (x : Externals) (w : SqlExportWriter) :
    ∃ t, (dropCreateStatement x w).data = 'D' :: t := by
  have h0 : ∃ t, ("" ++ "DROP TABLE IF EXISTS ").data = 'D' :: t := ⟨_, rfl⟩
  exact head_append _ _ _ (head_append _ _ _ (head_append _ _ _ h0))

theorem insertStatementForRow_ne_dropCreate (x : Externals) (w w1 : SqlExportWriter)
    (r : Row) (stmt : String) (h : insertStatementForRow x w r = .ok stmt) :
    stmt ≠ dropCreateStatement x w1 := by
  intro heq
  obtain ⟨t, ht⟩ := insertStatementForRow_head x w r stmt h
  obtain ⟨t1, ht1⟩ := dropCreateStatement_head x w1
  rw [heq, ht1] at ht
  simp at ht

theorem WriteLine_ok (wr0 wr1 : WriteCloser) (line : String)
    (h : WriteLine (some wr0) line = .ok wr1) : wr1.written = wr0.written ++ [line] := by
  simp only [WriteLine] at h
  split_ifs at h
  simp only [Except.ok.injEq] at h
  subst h
  rfl

/-- What a call of `maybeWriteDropCreate` that succeeds leaves: the flag set, and the drop
and create statement written if the flag was not set before. -/
theorem maybeWriteDropCreate_ok (x : Externals) (w w1 : SqlExportWriter) (wr0 : WriteCloser)
    (hwr : w.wr = some wr0) (h : maybeWriteDropCreate x w = (w1, .ok ())) :
    ∃ wr1, w1.wr = some wr1 ∧ w1.tableName = w.tableName ∧ w1.sch = w.sch ∧
      w1.writtenFirstRow = true ∧
      wr1.written = wr0.written ++
        (if w.writtenFirstRow = true then [] else [dropCreateStatement x w]) := by
  unfold maybeWriteDropCreate at h
  cases hf : w.writtenFirstRow with
  | true =>
    simp only [hf, Bool.not_true, Bool.false_eq_true, if_false, Prod.mk.injEq, and_true] at h
    subst h
    exact ⟨wr0, hwr, rfl, rfl, hf, by simp⟩
  | false =>
    simp only [hf, Bool.not_false, if_true, hwr] at h
    cases hl : WriteLine (some wr0) (dropCreateStatement x w) with
    | error e => simp [hl] at h
    | ok wr1 =>
      simp only [hl, Prod.mk.injEq, and_true] at h
      subst h
      exact ⟨wr1, rfl, rfl, rfl, rfl, by simp [WriteLine_ok wr0 wr1 _ hl]⟩

theorem insertStatementForRow_congr (x : Externals) (w w1 : SqlExportWriter) (r : Row)
    (ht : w1.tableName = w.tableName) (hs : w1.sch = w.sch) :
    insertStatementForRow x w1 r = insertStatementForRow x w r := by
  simp only [insertStatementForRow, ht, hs]

theorem dropCreateStatement_congr (x : Externals) (w w1 : SqlExportWriter)
    (ht : w1.tableName = w.tableName) (hs : w1.sch = w.sch) :
    dropCreateStatement x w1 = dropCreateStatement x w := by
  simp only [dropCreateStatement, ht, hs]

theorem WriteRow_ok (x : Externals) (w w1 : SqlExportWriter) (r : Row) (wr0 : WriteCloser)
    (hwr : w.wr = some wr0) (h : WriteRow x w r = (w1, .ok ())) :
    ∃ wr1 stmt, w1.wr = some wr1 ∧ w1.tableName = w.tableName ∧ w1.sch = w.sch ∧
      w1.writtenFirstRow = true ∧ insertStatementForRow x w r = .ok stmt ∧
      wr1.written = wr0.written ++
        (if w.writtenFirstRow = true then [] else [dropCreateStatement x w]) ++ [stmt] := by
  unfold WriteRow at h
  rcases hm : maybeWriteDropCreate x w with ⟨w2, res⟩
  rw [hm] at h
  cases res with
  | error e => simp at h
  | ok u =>
    obtain ⟨wr2, hwr2, ht2, hs2, hf2, hw2⟩ := maybeWriteDropCreate_ok x w w2 wr0 hwr hm
    simp only at h
    cases hi : insertStatementForRow x w2 r with
    | error e => simp [hi] at h
    | ok stmt =>
      simp only [hi, hwr2] at h
      cases hl : WriteLine (some wr2) stmt with
      | error e => simp [hl] at h
      | ok wr3 =>
        simp only [hl, Prod.mk.injEq, and_true] at h
        subst h
        refine ⟨wr3, stmt, rfl, ht2, hs2, hf2, ?_, ?_⟩
        · rw [← insertStatementForRow_congr x w w2 r ht2 hs2]; exact hi
        · rw [WriteLine_ok wr2 wr3 _ hl, hw2]

theorem Close_ok (x : Externals) (w w1 : SqlExportWriter) (wr0 : WriteCloser)
    (hwr : w.wr = some wr0) (h : Close x w = (w1, .ok ())) :
    ∃ wr1, w1.wr = some wr1 ∧ wr1.closed = true ∧
      wr1.written = wr0.written ++
        (if w.writtenFirstRow = true then [] else [dropCreateStatement x w]) := by
  unfold Close at h
  rcases hm : maybeWriteDropCreate x w with ⟨w2, res⟩
  rw [hm] at h
  cases res with
  | error e => simp at h
  | ok u =>
    obtain ⟨wr2, hwr2, -, -, -, hw2⟩ := maybeWriteDropCreate_ok x w w2 wr0 hwr hm
    simp only [hwr2] at h
    unfold WriteCloser.Close at h
    split_ifs at h with hc hcl
    · simp at h
    · simp only [Prod.mk.injEq, and_true] at h
      subst h
      exact ⟨_, rfl, rfl, hw2⟩
    · simp at h

theorem forall₂_mem_right {α β : Type} (R : α → β → Prop) (as : List α) (bs : List β)
    (h : List.Forall₂ R as bs) : ∀ b ∈ bs, ∃ a ∈ as, R a b := by
  induction h with
  | nil => intro b hb; cases hb
  | cons hab _ ih =>
    intro b hb
    rcases List.mem_cons.mp hb with heq | hin
    · exact ⟨_, List.mem_cons_self _ _, heq ▸ hab⟩
    · obtain ⟨a, ha1, ha2⟩ := ih b hin
      exact ⟨a, List.mem_cons_of_mem _ ha1, ha2⟩

/-- The output of the rows written and the writer closed, whatever the flag is at the
start. -/
theorem writeRowsThenClose_written (x : Externals) (rows : List Row) :
    ∀ (w w1 : SqlExportWriter) (wr0 : WriteCloser), w.wr = some wr0 →
      writeRowsThenClose x w rows = (w1, .ok ()) →
      ∃ wr1 stmts, w1.wr = some wr1 ∧ wr1.closed = true ∧
        List.Forall₂ (fun r s => insertStatementForRow x w r = .ok s) rows stmts ∧
        wr1.written = wr0.written ++
          (if w.writtenFirstRow = true then [] else [dropCreateStatement x w]) ++ stmts := by
  induction rows with
  | nil =>
    intro w w1 wr0 hwr h
    obtain ⟨wr1, h1, h2, h3⟩ := Close_ok x w w1 wr0 hwr h
    exact ⟨wr1, [], h1, h2, List.Forall₂.nil, by simpa using h3⟩
  | cons r rest ih =>
    intro w w1 wr0 hwr h
    simp only [writeRowsThenClose] at h
    rcases hm : WriteRow x w r with ⟨w2, res⟩
    rw [hm] at h
    cases res with
    | error e => simp at h
    | ok u =>
      obtain ⟨wr2, stmt, hwr2, ht2, hs2, hf2, hstmt, hw2⟩ := WriteRow_ok x w w2 r wr0 hwr hm
      obtain ⟨wr1, stmts, h1, h2, h3, h4⟩ := ih w2 w1 wr2 hwr2 h
      refine ⟨wr1, stmt :: stmts, h1, h2, List.Forall₂.cons hstmt ?_, ?_⟩
      · exact h3.imp (fun r s hrs => by rw [← insertStatementForRow_congr x w w2 _ ht2 hs2]; exact hrs)
      · rw [h4, hw2, hf2]
        simp

/-- C21: when `k` calls of `WriteRow` and then `Close` all succeed on a writer whose flag
`writtenFirstRow` is not set, as `OpenSQLExportWriter` leaves it, the lines written are
the drop and create statement of the table, once and first, and then the `k` insert
statements of the rows in the order of the calls; no insert statement is the drop and
create statement. With no row at all, `Close` alone writes the drop and create statement.
Once the flag is set, `maybeWriteDropCreate` writes nothing. -/
theorem writeRowsThenClose_output (x : Externals) (w w1 : SqlExportWriter)
    (wr0 : WriteCloser) (rows : List Row) (hwr : w.wr = some wr0)
    (hflag : w.writtenFirstRow = false)
    (h : writeRowsThenClose x w rows = (w1, .ok ())) :
    (∃ wr1 stmts, w1.wr = some wr1 ∧ wr1.closed = true ∧
      List.Forall₂ (fun r s => insertStatementForRow x w r = .ok s) rows stmts ∧
      stmts.length = rows.length ∧
      wr1.written = wr0.written ++ dropCreateStatement x w :: stmts ∧
      dropCreateStatement x w ∉ stmts) ∧
    (∀ w2, Close x w = (w2, .ok ()) →
      ∃ wr2, w2.wr = some wr2 ∧ wr2.written = wr0.written ++ [dropCreateStatement x w]) ∧
    (∀ w2 : SqlExportWriter, w2.writtenFirstRow = true →
      maybeWriteDropCreate x w2 = (w2, .ok ())) := by
  refine ⟨?_, ?_, ?_⟩
  · obtain ⟨wr1, stmts, h1, h2, h3, h4⟩ := writeRowsThenClose_written x rows w w1 wr0 hwr h
    refine ⟨wr1, stmts, h1, h2, h3, h3.length_eq.symm, ?_, ?_⟩
    · rw [h4, hflag]
      simp
    · intro hmem
      obtain ⟨r, -, hr⟩ := forall₂_mem_right _ rows stmts h3 _ hmem
      exact insertStatementForRow_ne_dropCreate x w w r _ hr rfl
  · intro w2 hc
    obtain ⟨wr2, h1, -, h3⟩ := Close_ok x w w2 wr0 hwr hc
    exact ⟨wr2, h1, by rw [h3, hflag]; simp⟩
  · intro w2 hf
    simp [maybeWriteDropCreate, hf]

/-- The run on the example writer: the drop and create statement, then the two insert
statements. -/
theorem exWriter_run :
    (writeRowsThenClose exExternals exWriter exRows).2 = .ok () ∧
    (writeRowsThenClose exExternals exWriter exRows).1.wr.map (fun wr => wr.written)
      = some ["DROP TABLE IF EXISTS `t`;\nCREATE TABLE `t` ();",
          "INSERT INTO `t` (`id`,`name`) VALUES (0,\"a\\\"b\");",
          "INSERT INTO `t` (`id`,`name`) VALUES (0,\"c\\\");"] :=
  ⟨rfl, rfl⟩

theorem writeRowsThenClose_output_witness :
    ∃ wr1 stmts, (writeRowsThenClose exExternals exWriter exRows).1.wr = some wr1 ∧
      wr1.closed = true ∧
      List.Forall₂ (fun r s => insertStatementForRow exExternals exWriter r = .ok s)
        exRows stmts ∧
      stmts.length = exRows.length ∧
      wr1.written = exOut.written ++ dropCreateStatement exExternals exWriter :: stmts ∧
      dropCreateStatement exExternals exWriter ∉ stmts :=
  (writeRowsThenClose_output exExternals exWriter
    (writeRowsThenClose exExternals exWriter exRows).1 exOut exRows rfl rfl rfl).1

end SqlExport

/-! ### C27: the key and value pairs of `put-row` -/

section PutRow
open tblcmds

theorem indexByteFrom_nonneg (c : Char) (l : List Char) :
    ∀ i : Nat, c ∈ l → 0 ≤ indexByteFrom c l i := by
  induction l with
  | nil => intro i h; cases h
  | cons x rest ih =>
    intro i h
    simp only [indexByteFrom]
    split_ifs with hx
    · exact Int.ofNat_nonneg i
    · rcases List.mem_cons.mp h with heq | hin
      · exact absurd heq.symm hx
      · exact ih (i + 1) hin

theorem indexByteFrom_not_mem (c : Char) (l : List Char) :
    ∀ i : Nat, c ∉ l → indexByteFrom c l i = -1 := by
  induction l with
  | nil => intro i _; rfl
  | cons x rest ih =>
    intro i h
    have hx : ¬ x = c := fun heq => h (heq ▸ List.mem_cons_self _ _)
    simp only [indexByteFrom, hx, if_false]
    exact ih (i + 1) (fun hin => h (List.mem_cons_of_mem _ hin))

theorem indexByteFrom_split (c : Char) (before after : List Char) (h : c ∉ before) :
    ∀ i : Nat, indexByteFrom c (before ++ c :: after) i = ((i + before.length : Nat) : Int) := by
  induction before with
  | nil => intro i; simp [indexByteFrom]
  | cons x rest ih =>
    intro i
    have hx : ¬ x = c := fun heq => h (heq ▸ List.mem_cons_self _ _)
    have hstep := ih (fun hin => h (List.mem_cons_of_mem _ hin)) (i + 1)
    simp only [List.cons_append, indexByteFrom, hx, if_false, List.length_cons]
    exact hstep.trans (by congr 1; omega)

theorem exists_first_split (c : Char) (l : List Char) (h : c ∈ l) :
    ∃ before after, l = before ++ c :: after ∧ c ∉ before := by
  induction l with
  | nil => cases h
  | cons x rest ih =>
    by_cases hx : x = c
    · exact ⟨[], rest, by simp [hx], by simp⟩
    · rcases List.mem_cons.mp h with heq | hin
      · exact absurd heq.symm hx
      · obtain ⟨before, after, h1, h2⟩ := ih hin
        refine ⟨x :: before, after, by simp [h1], ?_⟩
        intro hmem
        rcases List.mem_cons.mp hmem with heq | hin2
        · exact hx heq.symm
        · exact h2 hin2

theorem IndexByte_iff (arg : String) : IndexByte arg ':' ≠ -1 ↔ ':' ∈ arg.data := by
  constructor
  · intro h
    by_contra hn
    exact h (indexByteFrom_not_mem _ _ 0 hn)
  · intro h hneg
    have := indexByteFrom_nonneg ':' arg.data 0 h
    unfold IndexByte at hneg
    omega

/-- The key and the value of an argument, from the text before and after its first
colon. -/
theorem argKey_argValue_split (arg : String) (before after : List Char)
    (h : arg.data = before ++ ':' :: after) (hb : ':' ∉ before) :
    argKey arg = TrimSpace (String.mk before) ∧ argValue arg = String.mk after := by
  have hi : IndexByte arg ':' = (before.length : Int) := by
    unfold IndexByte
    rw [h, indexByteFrom_split ':' before after hb 0]
    simp
  simp [argKey, argValue, hi, h]

theorem dropWhile_all (p : Char → Bool) (l : List Char)
    (h : ∀ x ∈ l.dropWhile p, p x = true) : ∀ x ∈ l, p x = true := by
  induction l with
  | nil => intro x hx; cases hx
  | cons a rest ih =>
    by_cases hpa : p a = true
    · simp only [List.dropWhile_cons, hpa, if_true] at h
      intro x hx
      rcases List.mem_cons.mp hx with heq | hin
      · rw [heq]; exact hpa
      · exact ih h x hin
    · simp only [List.dropWhile_cons, hpa, if_false] at h
      exact absurd (h a (List.mem_cons_self _ _)) hpa

/-- The trimmed text is empty exactly when every character is white space. -/
theorem TrimSpace_eq_empty_iff (l : List Char) :
    TrimSpace (String.mk l) = "" ↔ ∀ c ∈ l, IsSpace c = true := by
  have hdata : TrimSpace (String.mk l) = "" ↔
      ((l.dropWhile IsSpace).reverse.dropWhile IsSpace).reverse = [] := by
    unfold TrimSpace
    constructor
    · intro h; exact congrArg String.data h
    · intro h; rw [h]
  rw [hdata, List.reverse_eq_nil_iff, List.dropWhile_eq_nil_iff]
  constructor
  · intro h
    apply dropWhile_all
    intro x hx
    exact h x (List.mem_reverse.mpr hx)
  · intro h x hx
    exact h x ((List.dropWhile_sublist _).subset (List.mem_reverse.mp hx))

theorem parseKVPsLoop_ok (args : List String) :
    ∀ (fieldNames : List String) (kvps : KVPs),
      (∀ arg ∈ args, IndexByte arg ':' ≠ -1 ∧ argKey arg ≠ "") →
      parseKVPsLoop args fieldNames kvps
        = (some (fieldNames ++ args.map argKey),
           some (args.foldl (fun m a => m.set (argKey a) (argValue a)) kvps), none) := by
  induction args with
  | nil => intro fieldNames kvps _; simp [parseKVPsLoop]
  | cons arg rest ih =>
    intro fieldNames kvps h
    obtain ⟨h1, h2⟩ := h arg (List.mem_cons_self _ _)
    have h2k : ¬ TrimSpace (String.mk (arg.data.take (IndexByte arg ':').toNat)) = "" := h2
    simp only [parseKVPsLoop, ne_eq, h1, not_false_eq_true, if_true, h2k]
    rw [ih _ _ (fun a ha => h a (List.mem_cons_of_mem _ ha))]
    simp [argKey, argValue]

theorem parseKVPsLoop_fail (args : List String) :
    ∀ (fieldNames : List String) (kvps : KVPs),
      ¬ (∀ arg ∈ args, IndexByte arg ':' ≠ -1 ∧ argKey arg ≠ "") →
      ∃ e, parseKVPsLoop args fieldNames kvps = (none, none, some e) := by
  induction args with
  | nil => intro fieldNames kvps h; exact absurd (fun a ha => by cases ha) h
  | cons arg rest ih =>
    intro fieldNames kvps h
    simp only [parseKVPsLoop]
    by_cases h1 : IndexByte arg ':' ≠ -1
    · by_cases h2 : argKey arg ≠ ""
      · have h2k : ¬ TrimSpace (String.mk (arg.data.take (IndexByte arg ':').toNat)) = "" := h2
        simp only [ne_eq, h1, not_false_eq_true, if_true, h2k]
        apply ih
        intro hall
        apply h
        intro a ha
        rcases List.mem_cons.mp ha with heq | hin
        · rw [heq]; exact ⟨h1, h2⟩
        · exact hall a hin
      · have h2k : TrimSpace (String.mk (arg.data.take (IndexByte arg ':').toNat)) = "" :=
          not_not.mp h2
        simp only [ne_eq, h1, not_false_eq_true, if_true, h2k, not_true_eq_false, if_false]
        exact ⟨_, rfl⟩
    · simp only [h1, if_false]
      exact ⟨_, rfl⟩

theorem kvps_get_set_self (m : KVPs) (k v : String) : (m.set k v).get k = some v := by
  simp only [KVPs.set, KVPs.get, List.find?_append]
  have hnone : List.find? (fun e => decide (e.1 = k))
      (List.filter (fun e => decide (e.1 ≠ k)) m) = none := by
    rw [List.find?_eq_none]
    intro e he
    have := (List.mem_filter.mp he).2
    simpa using this
  simp [hnone]

theorem kvps_get_set_ne (m : KVPs) (k v k1 : String) (h : k1 ≠ k) :
    (m.set k v).get k1 = m.get k1 := by
  simp only [KVPs.set, KVPs.get, List.find?_append]
  have hlast : List.find? (fun e => decide (e.1 = k1)) [(k, v)] = none := by
    simp [List.find?, Ne.symm h]
  rw [hlast, Option.or_none]
  congr 1
  induction m with
  | nil => rfl
  | cons e rest ih =>
    by_cases hek : e.1 = k
    · have hne : ¬ e.1 = k1 := fun heq => h (heq ▸ hek)
      rw [List.filter_cons_of_neg (by simpa using hek),
        List.find?_cons_of_neg _ (by simpa using hne)]
      exact ih
    · rw [List.filter_cons_of_pos (by simpa using hek)]
      by_cases hek1 : e.1 = k1
      · rw [List.find?_cons_of_pos _ (by simpa using hek1),
          List.find?_cons_of_pos _ (by simpa using hek1)]
      · rw [List.find?_cons_of_neg _ (by simpa using hek1),
          List.find?_cons_of_neg _ (by simpa using hek1)]
        exact ih

theorem kvps_foldl_get_ne (k : String) (post : List String) :
    ∀ m : KVPs, (∀ b ∈ post, argKey b ≠ k) →
      (post.foldl (fun m a => m.set (argKey a) (argValue a)) m).get k = m.get k := by
  induction post with
  | nil => intro m _; rfl
  | cons b rest ih =>
    intro m h
    simp only [List.foldl_cons]
    rw [ih _ (fun a ha => h a (List.mem_cons_of_mem _ ha))]
    exact kvps_get_set_ne m _ _ k (Ne.symm (h b (List.mem_cons_self _ _)))

theorem kvps_foldl_get_mem (k v : String) (args : List String) :
    ∀ m : KVPs,
      (args.foldl (fun m a => m.set (argKey a) (argValue a)) m).get k = some v →
      k ∈ args.map argKey ∨ m.get k = some v := by
  induction args with
  | nil => intro m h; exact Or.inr h
  | cons b rest ih =>
    intro m h
    simp only [List.foldl_cons] at h
    rcases ih _ h with hin | hget
    · exact Or.inl (List.mem_cons_of_mem _ hin)
    · by_cases hk : k = argKey b
      · exact Or.inl (by rw [hk]; exact List.mem_cons_self _ _)
      · exact Or.inr (by rw [← kvps_get_set_ne m (argKey b) (argValue b) k hk]; exact hget)

/-- An argument is accepted exactly when it has a colon and text that is not blank before
its first colon. -/
theorem argValid_iff (arg : String) :
    (IndexByte arg ':' ≠ -1 ∧ argKey arg ≠ "") ↔
      ∃ before after, arg.data = before ++ ':' :: after ∧ ':' ∉ before ∧
        ∃ c ∈ before, IsSpace c = false := by
  constructor
  · rintro ⟨h1, h2⟩
    obtain ⟨before, after, hsplit, hb⟩ :=
      exists_first_split ':' arg.data ((IndexByte_iff arg).mp h1)
    refine ⟨before, after, hsplit, hb, ?_⟩
    rw [(argKey_argValue_split arg before after hsplit hb).1] at h2
    by_contra hall
    apply h2
    rw [TrimSpace_eq_empty_iff]
    intro c hc
    by_contra hsp
    exact hall ⟨c, hc, by simpa using hsp⟩
  · rintro ⟨before, after, hsplit, hb, c, hc, hsp⟩
    refine ⟨(IndexByte_iff arg).mpr (by rw [hsplit]; simp), ?_⟩
    rw [(argKey_argValue_split arg before after hsplit hb).1]
    intro hempty
    have := (TrimSpace_eq_empty_iff before).mp hempty c hc
    rw [hsp] at this
    cases this

/-- What `parseKVPs` returns: the keys and the map of the arguments if all are accepted,
an error and nothing else if not. -/
theorem parseKVPs_cases (args : List String) :
    ((∀ arg ∈ args, IndexByte arg ':' ≠ -1 ∧ argKey arg ≠ "") ∧
      parseKVPs args = (some (args.map argKey),
        some (args.foldl (fun (m : KVPs) a => m.set (argKey a) (argValue a)) []), none)) ∨
    (¬ (∀ arg ∈ args, IndexByte arg ':' ≠ -1 ∧ argKey arg ≠ "") ∧
      ∃ e, parseKVPs args = (none, none, some e)) := by
  by_cases h : ∀ arg ∈ args, IndexByte arg ':' ≠ -1 ∧ argKey arg ≠ ""
  · exact Or.inl ⟨h, by unfold parseKVPs; rw [parseKVPsLoop_ok args [] [] h]; simp⟩
  · exact Or.inr ⟨h, parseKVPsLoop_fail args [] [] h⟩

/-- C27: `parseKVPs` succeeds exactly when every argument has a colon and text that is not
blank before its first colon. On success the list of field names is as long as the list
of arguments, its entry `i` is the trimmed text before the first colon of argument `i`,
and the map sends that key to the untrimmed text after the first colon of the last
argument with the key; every key of the map is a field name. On failure the names and
the map are nil and an error is returned. -/
theorem parseKVPs_spec (args : List String) :
    ((parseKVPs args).2.2 = none ↔
      ∀ arg ∈ args, ∃ before after, arg.data = before ++ ':' :: after ∧ ':' ∉ before ∧
        ∃ c ∈ before, IsSpace c = false) ∧
    ((parseKVPs args).2.2 = none →
      ∃ (names : List String) (kvps : KVPs),
        (parseKVPs args).1 = some names ∧ (parseKVPs args).2.1 = some kvps ∧
        names.length = args.length ∧
        (∀ (i : Nat) (arg : String) (before after : List Char),
          args[i]? = some arg → arg.data = before ++ ':' :: after → ':' ∉ before →
          names[i]? = some (TrimSpace (String.mk before)) ∧
          ((∀ (j : Nat) (arg1 : String) (b1 a1 : List Char), i < j → args[j]? = some arg1 →
              arg1.data = b1 ++ ':' :: a1 → ':' ∉ b1 →
              TrimSpace (String.mk b1) ≠ TrimSpace (String.mk before)) →
            kvps.get (TrimSpace (String.mk before)) = some (String.mk after))) ∧
        (∀ k v, kvps.get k = some v → k ∈ names)) ∧
    ((parseKVPs args).2.2 ≠ none →
      (parseKVPs args).1 = none ∧ (parseKVPs args).2.1 = none) := by
  have hvalid : (∀ arg ∈ args, IndexByte arg ':' ≠ -1 ∧ argKey arg ≠ "") ↔
      ∀ arg ∈ args, ∃ before after, arg.data = before ++ ':' :: after ∧ ':' ∉ before ∧
        ∃ c ∈ before, IsSpace c = false :=
    forall₂_congr (fun arg _ => argValid_iff arg)
  rcases parseKVPs_cases args with ⟨hall, hres⟩ | ⟨hnot, e, hres⟩
  · refine ⟨⟨fun _ => hvalid.mp hall, fun _ => by rw [hres]⟩, ?_, ?_⟩
    · intro _
      refine ⟨_, _, by rw [hres], by rw [hres], by simp, ?_, ?_⟩
      · intro i arg before after hi hsplit hb
        obtain ⟨hk, hv⟩ := argKey_argValue_split arg before after hsplit hb
        refine ⟨by rw [List.getElem?_map, hi, ← hk]; rfl, ?_⟩
        intro hlast
        have hlt : i < args.length := (List.getElem?_eq_some.mp hi).1
        have hget : args[i] = arg := (List.getElem?_eq_some.mp hi).2
        have hdecomp : args = args.take i ++ arg :: args.drop (i + 1) := by
          rw [← hget, ← List.drop_eq_getElem_cons hlt, List.take_append_drop]
        have hpost : ∀ b ∈ args.drop (i + 1), argKey b ≠ TrimSpace (String.mk before) := by
          intro b hb1
          obtain ⟨n, hn, hbn⟩ := List.getElem_of_mem hb1
          have hj : args[i + 1 + n]? = some b := by
            rw [← List.getElem?_drop, List.getElem?_eq_getElem hn, hbn]
          obtain ⟨b1, a1, hs1, hb2, -⟩ :=
            (argValid_iff b).mp (hall b ((List.drop_subset _ _) hb1))
          rw [(argKey_argValue_split b b1 a1 hs1 hb2).1]
          exact hlast (i + 1 + n) b b1 a1 (by omega) hj hs1 hb2
        rw [hdecomp, List.foldl_append, List.foldl_cons,
          kvps_foldl_get_ne _ _ _ hpost, hk, hv]
        exact kvps_get_set_self _ _ _
      · intro k v hkv
        rcases kvps_foldl_get_mem k v args [] hkv with hin | hget
        · exact hin
        · simp [KVPs.get] at hget
    · intro hne
      rw [hres] at hne
      exact absurd rfl hne
  · refine ⟨⟨fun hnone => ?_, fun h => absurd (hvalid.mpr h) hnot⟩, ?_, ?_⟩
    · rw [hres] at hnone
      cases hnone
    · intro hnone
      rw [hres] at hnone
      cases hnone
    · intro _
      rw [hres]
      exact ⟨rfl, rfl⟩

theorem parseKVPs_spec_witness :
    parseKVPs [" a :b:c", "k:", "a: z "]
      = (some ["a", "k", "a"], some [("k", ""), ("a", " z ")], none) ∧
    ∃ (names : List String) (kvps : KVPs),
      (parseKVPs [" a :b:c", "k:", "a: z "]).1 = some names ∧
      (parseKVPs [" a :b:c", "k:", "a: z "]).2.1 = some kvps ∧
      names.length = [" a :b:c", "k:", "a: z "].length ∧
      (∀ (i : Nat) (arg : String) (before after : List Char),
        [" a :b:c", "k:", "a: z "][i]? = some arg → arg.data = before ++ ':' :: after →
        ':' ∉ before →
        names[i]? = some (TrimSpace (String.mk before)) ∧
        ((∀ (j : Nat) (arg1 : String) (b1 a1 : List Char), i < j →
            [" a :b:c", "k:", "a: z "][j]? = some arg1 →
            arg1.data = b1 ++ ':' :: a1 → ':' ∉ b1 →
            TrimSpace (String.mk b1) ≠ TrimSpace (String.mk before)) →
          kvps.get (TrimSpace (String.mk before)) = some (String.mk after))) ∧
      (∀ k v, kvps.get k = some v → k ∈ names) :=
  ⟨by decide, (parseKVPs_spec [" a :b:c", "k:", "a: z "]).2.1 (by decide)⟩

end PutRow

/-! ### C23: the hard reset -/

section ResetHard
open commands

theorem tableAt_eq_none_iff (root : RootValue) (tblName : String) :
    root.tableAt tblName = none ↔ tblName ∉ root.tables.map Prod.fst := by
  simp only [RootValue.tableAt, Option.map_eq_none', List.find?_eq_none, decide_eq_true_eq,
    List.mem_map, not_exists, not_and]

theorem tableMap_mem_set (m : TableMap) (tblName : String) (tbl : Option Table)
    (e : String × Option Table) (he : e ∈ m.set tblName tbl) :
    e = (tblName, tbl) ∨ e ∈ m := by
  unfold TableMap.set at he
  split_ifs at he with hin
  · obtain ⟨e0, he0, heq⟩ := List.mem_map.mp he
    by_cases hk : e0.1 = tblName
    · simp only [hk, if_true] at heq
      exact Or.inl heq.symm
    · simp only [hk, if_false] at heq
      exact Or.inr (heq ▸ he0)
  · rcases List.mem_append.mp he with h | h
    · exact Or.inr h
    · exact Or.inl (List.mem_singleton.mp h)

theorem tableMap_keys_set (m : TableMap) (tblName : String) (tbl : Option Table)
    (n : String) :
    n ∈ (m.set tblName tbl).map Prod.fst ↔ n ∈ m.map Prod.fst ∨ n = tblName := by
  unfold TableMap.set
  split_ifs with hin
  · have hkeys : (m.map (fun e => if e.1 = tblName then (tblName, tbl) else e)).map Prod.fst
        = m.map Prod.fst := by
      rw [List.map_map]
      apply List.map_congr_left
      intro e _
      by_cases hk : e.1 = tblName
      · simp [hk]
      · simp [hk]
    rw [hkeys]
    constructor
    · exact Or.inl
    · rintro (h | h)
      · exact h
      · rw [h]; exact hin
  · simp [List.map_append]

/-- The map that the first loop of `resetHard` fills: each entry holds the table of the
working root under its name, and the names are those given and those held before. -/
theorem readTables_ok (workingRoot : RootValue) (names : List String) :
    ∀ m m1 : TableMap, readTables workingRoot names m = .ok m1 →
      (∀ e ∈ m, e.2 = workingRoot.tableAt e.1) →
      (∀ e ∈ m1, e.2 = workingRoot.tableAt e.1) ∧
      (∀ n, n ∈ m1.map Prod.fst ↔ n ∈ m.map Prod.fst ∨ n ∈ names) := by
  induction names with
  | nil =>
    intro m m1 h hm
    simp only [readTables, Except.ok.injEq] at h
    subst h
    exact ⟨hm, fun n => by simp⟩
  | cons tblName rest ih =>
    intro m m1 h hm
    simp only [readTables, RootValue.GetTable] at h
    by_cases hr : workingRoot.readable = true
    · simp only [hr, if_true] at h
      obtain ⟨h1, h2⟩ := ih _ m1 h (fun e he => by
        rcases tableMap_mem_set m tblName _ e he with heq | hin
        · rw [heq]
        · exact hm e hin)
      refine ⟨h1, fun n => ?_⟩
      rw [h2 n, tableMap_keys_set, List.mem_cons]
      tauto
    · simp [hr] at h

theorem tableMap_mem_delete_foldl (names : List String) :
    ∀ (m : TableMap) (e : String × Option Table),
      e ∈ names.foldl (fun m tblName => m.delete tblName) m ↔ e ∈ m ∧ e.1 ∉ names := by
  induction names with
  | nil => intro m e; simp
  | cons tblName rest ih =>
    intro m e
    simp only [List.foldl_cons]
    rw [ih, List.mem_cons]
    simp only [TableMap.delete, List.mem_filter, decide_eq_true_eq, not_or]
    tauto

theorem tableAt_putTable (root root1 : RootValue) (writable : Bool) (tblName : String)
    (tbl : Option Table) (h : root.PutTable writable tblName tbl = .ok root1) (n : String) :
    root1.tableAt n = if n = tblName then tbl else root.tableAt n := by
  unfold RootValue.PutTable at h
  cases tbl with
  | none => simp at h
  | some t =>
    simp only at h
    split_ifs at h with hw
    simp only [Except.ok.injEq] at h
    subst h
    simp only [RootValue.tableAt, List.find?_append]
    by_cases hn : n = tblName
    · subst hn
      have hnone : List.find? (fun e => decide (e.1 = n))
          (List.filter (fun e => decide (e.1 ≠ n)) root.tables) = none := by
        rw [List.find?_eq_none]
        intro e he
        have := (List.mem_filter.mp he).2
        simpa using this
      simp [hnone]
    · have hlast : List.find? (fun e => decide (e.1 = n)) [(tblName, t)] = none := by
        simp [List.find?, Ne.symm hn]
      rw [hlast, Option.or_none, if_neg hn]
      congr 1
      induction root.tables with
      | nil => rfl
      | cons e rest ih =>
        by_cases hek : e.1 = tblName
        · have hne : ¬ e.1 = n := fun heq => hn (heq ▸ hek)
          rw [List.filter_cons_of_neg (by simpa using hek),
            List.find?_cons_of_neg _ (by simpa using hne)]
          exact ih
        · rw [List.filter_cons_of_pos (by simpa using hek)]
          by_cases hek1 : e.1 = n
          · rw [List.find?_cons_of_pos _ (by simpa using hek1),
              List.find?_cons_of_pos _ (by simpa using hek1)]
          · rw [List.find?_cons_of_neg _ (by simpa using hek1),
              List.find?_cons_of_neg _ (by simpa using hek1)]
            exact ih

/-- The root that the last loop of `resetHard` builds: the table of the map under the
names of the map, the table of the root it starts from under the other names. -/
theorem putTables_ok (writable : Bool) (f : String → Option Table) (m : TableMap) :
    ∀ root root1 : RootValue, putTables writable m root = .ok root1 →
      (∀ e ∈ m, e.2 = f e.1) →
      ∀ n, root1.tableAt n = if n ∈ m.map Prod.fst then f n else root.tableAt n := by
  induction m with
  | nil =>
    intro root root1 h _ n
    simp only [putTables, Except.ok.injEq] at h
    subst h
    simp
  | cons e rest ih =>
    intro root root1 h hm n
    obtain ⟨tblName, tbl⟩ := e
    simp only [putTables] at h
    cases hp : root.PutTable writable tblName tbl with
    | error err =>
      rw [hp] at h
      cases err <;> simp at h
    | ok root2 =>
      rw [hp] at h
      simp only at h
      have h1 := ih root2 root1 h (fun e he => hm e (List.mem_cons_of_mem _ he)) n
      have h2 := tableAt_putTable root root2 writable tblName tbl hp n
      have h3 : tbl = f tblName := hm (tblName, tbl) (List.mem_cons_self _ _)
      rw [h1, h2]
      simp only [List.map_cons, List.mem_cons]
      by_cases hin : n ∈ rest.map Prod.fst
      · simp [hin]
      · by_cases hn : n = tblName
        · simp [hn, h3]
        · simp [hin, hn]

theorem GetTableNames_ok (root : RootValue) (names : List String)
    (h : root.GetTableNames = .ok names) : names = root.tables.map Prod.fst := by
  unfold RootValue.GetTableNames at h
  split_ifs at h
  simp only [Except.ok.injEq] at h
  exact h.symm

/-- The environment a hard reset that succeeds leaves. -/
theorem resetHard_ok (dEnv dEnv1 : DoltEnv) (apr : ArgParseResults)
    (workingRoot headRoot : RootValue)
    (h : resetHard dEnv apr workingRoot headRoot = (dEnv1, .ok ())) :
    apr.args = [] ∧ dEnv1.staged = headRoot ∧
    ∃ m : TableMap, putTables dEnv.dbWritable m headRoot = .ok dEnv1.working ∧
      (∀ e ∈ m, e.2 = workingRoot.tableAt e.1) ∧
      (∀ n, n ∈ m.map Prod.fst ↔
        n ∈ workingRoot.tables.map Prod.fst ∧ n ∉ headRoot.tables.map Prod.fst) := by
  unfold resetHard at h
  by_cases hn : apr.NArg ≠ 0
  · simp [hn] at h
  · simp only [hn, if_false] at h
    have hargs : apr.args = [] := by
      simpa [ArgParseResults.NArg] using hn
    cases hw : workingRoot.GetTableNames with
    | error e => simp [hw] at h
    | ok wTblNames =>
      simp only [hw] at h
      cases hr : readTables workingRoot wTblNames [] with
      | error e => simp [hr] at h
      | ok untracked =>
        simp only [hr] at h
        cases hh : headRoot.GetTableNames with
        | error e => simp [hh] at h
        | ok headTblNames =>
          simp only [hh] at h
          cases hp : putTables dEnv.dbWritable
              (headTblNames.foldl (fun m tblName => m.delete tblName) untracked)
              headRoot with
          | error e => simp [hp] at h
          | ok newWkRoot =>
            simp only [hp, DoltEnv.UpdateWorkingRoot, DoltEnv.UpdateStagedRoot] at h
            by_cases hs1 : dEnv.savesWorking newWkRoot = true
            · by_cases hs2 : dEnv.savesStaged headRoot = true
              · simp only [hs1, hs2, if_true, Prod.mk.injEq, and_true] at h
                subst h
                obtain ⟨hval, hkeys⟩ := readTables_ok workingRoot wTblNames [] untracked hr
                  (fun e he => by cases he)
                refine ⟨hargs, rfl, _, hp, ?_, ?_⟩
                · intro e he
                  exact hval e ((tableMap_mem_delete_foldl headTblNames untracked e).mp he).1
                · intro n
                  rw [← GetTableNames_ok _ _ hw, ← GetTableNames_ok _ _ hh]
                  constructor
                  · intro hin
                    obtain ⟨e, he, hen⟩ := List.mem_map.mp hin
                    obtain ⟨he1, he2⟩ := (tableMap_mem_delete_foldl headTblNames untracked e).mp he
                    have := (hkeys e.1).mp (List.mem_map_of_mem _ he1)
                    simp only [List.map_nil, List.not_mem_nil, false_or] at this
                    exact hen ▸ ⟨this, he2⟩
                  · rintro ⟨h1, h2⟩
                    have := (hkeys n).mpr (Or.inr h1)
                    obtain ⟨e, he, hen⟩ := List.mem_map.mp this
                    exact List.mem_map.mpr ⟨e,
                      (tableMap_mem_delete_foldl headTblNames untracked e).mpr
                        ⟨he, hen ▸ h2⟩, hen⟩
              · simp [hs1, hs2] at h
            · simp [hs1] at h

theorem readTables_total (workingRoot : RootValue) (hr : workingRoot.readable = true)
    (names : List String) : ∀ m : TableMap, ∃ m1, readTables workingRoot names m = .ok m1 := by
  induction names with
  | nil => intro m; exact ⟨m, rfl⟩
  | cons tblName rest ih =>
    intro m
    simp only [readTables, RootValue.GetTable, hr, if_true]
    exact ih _

theorem putTables_total (m : TableMap) (hm : ∀ e ∈ m, e.2 ≠ none) :
    ∀ root : RootValue, ∃ root1, putTables true m root = .ok root1 := by
  induction m with
  | nil => intro root; exact ⟨root, rfl⟩
  | cons e rest ih =>
    intro root
    obtain ⟨tblName, tbl⟩ := e
    cases tbl with
    | none => exact absurd rfl (hm (tblName, none) (List.mem_cons_self _ _))
    | some t =>
      simp only [putTables, RootValue.PutTable, if_true]
      exact ih (fun e he => hm e (List.mem_cons_of_mem _ he)) _

/-- With no positional argument, readable roots, a database that takes writes and a repo
state that can be saved, the hard reset succeeds. -/
theorem resetHard_total (dEnv : DoltEnv) (apr : ArgParseResults)
    (workingRoot headRoot : RootValue) (hargs : apr.args = [])
    (hw : workingRoot.readable = true) (hh : headRoot.readable = true)
    (hdb : dEnv.dbWritable = true) (hs1 : ∀ r, dEnv.savesWorking r = true)
    (hs2 : ∀ r, dEnv.savesStaged r = true) :
    ∃ dEnv1, resetHard dEnv apr workingRoot headRoot = (dEnv1, .ok ()) := by
  obtain ⟨untracked, hr⟩ :=
    readTables_total workingRoot hw (workingRoot.tables.map Prod.fst) []
  obtain ⟨hval, hkeys⟩ := readTables_ok workingRoot _ [] untracked hr
    (fun e he => by cases he)
  have hsome : ∀ e ∈ (headRoot.tables.map Prod.fst).foldl
      (fun (m : TableMap) tblName => m.delete tblName) untracked, e.2 ≠ none := by
    intro e he
    have he1 := ((tableMap_mem_delete_foldl _ untracked e).mp he).1
    rw [hval e he1]
    intro hnone
    have hin := (hkeys e.1).mp (List.mem_map_of_mem _ he1)
    simp only [List.map_nil, List.not_mem_nil, false_or] at hin
    exact (tableAt_eq_none_iff workingRoot e.1).mp hnone hin
  obtain ⟨newWkRoot, hp⟩ := putTables_total _ hsome headRoot
  refine ⟨{ dEnv with working := newWkRoot, staged := headRoot }, ?_⟩
  simp [resetHard, ArgParseResults.NArg, hargs, RootValue.GetTableNames, hw, hh, hr, hdb, hp,
    DoltEnv.UpdateWorkingRoot, DoltEnv.UpdateStagedRoot, hs1, hs2]

/-- C23: after a hard reset that succeeds there are no positional arguments, the staged
root is the head root, and the new working root holds each table of the head root with
its head value and, under every name the head root has no table for, what the old working
root holds there: the untracked tables with their old values, and nothing else. With a
positional argument `resetHard` returns an error and leaves the environment as it was.
With no positional argument, readable roots, a database that takes writes and a repo state
that can be saved, the hard reset succeeds. -/
theorem resetHard_spec (dEnv : DoltEnv) (apr : ArgParseResults)
    (workingRoot headRoot : RootValue) :
    (∀ dEnv1, resetHard dEnv apr workingRoot headRoot = (dEnv1, .ok ()) →
      apr.args = [] ∧ dEnv1.staged = headRoot ∧
      (∀ n t, headRoot.tableAt n = some t → dEnv1.working.tableAt n = some t) ∧
      (∀ n, headRoot.tableAt n = none →
        dEnv1.working.tableAt n = workingRoot.tableAt n)) ∧
    (apr.args ≠ [] → ∃ err, resetHard dEnv apr workingRoot headRoot = (dEnv, .error err)) ∧
    (apr.args = [] → workingRoot.readable = true → headRoot.readable = true →
      dEnv.dbWritable = true → (∀ r, dEnv.savesWorking r = true) →
      (∀ r, dEnv.savesStaged r = true) →
      ∃ dEnv1, resetHard dEnv apr workingRoot headRoot = (dEnv1, .ok ())) := by
  refine ⟨?_, ?_, resetHard_total dEnv apr workingRoot headRoot⟩
  · intro dEnv1 h
    obtain ⟨hargs, hstaged, m, hp, hval, hkeys⟩ :=
      resetHard_ok dEnv dEnv1 apr workingRoot headRoot h
    have hat := putTables_ok dEnv.dbWritable workingRoot.tableAt m headRoot dEnv1.working hp hval
    refine ⟨hargs, hstaged, ?_, ?_⟩
    · intro n t hn
      have hin : n ∈ headRoot.tables.map Prod.fst := by
        by_contra hnot
        rw [(tableAt_eq_none_iff headRoot n).mpr hnot] at hn
        cases hn
      have hnot : n ∉ m.map Prod.fst := fun hmem => ((hkeys n).mp hmem).2 hin
      rw [hat n, if_neg hnot, hn]
    · intro n hn
      have hnh : n ∉ headRoot.tables.map Prod.fst := (tableAt_eq_none_iff headRoot n).mp hn
      by_cases hin : n ∈ workingRoot.tables.map Prod.fst
      · rw [hat n, if_pos ((hkeys n).mpr ⟨hin, hnh⟩)]
      · have hnot : n ∉ m.map Prod.fst := fun hmem => hin ((hkeys n).mp hmem).1
        rw [hat n, if_neg hnot, hn, (tableAt_eq_none_iff workingRoot n).mpr hin]
  · intro hargs
    have hn : apr.NArg ≠ 0 := by
      simpa [ArgParseResults.NArg] using hargs
    exact ⟨.other ("--" ++ HardResetParam ++ " does not support additional params"),
      by simp [resetHard, hn]⟩

theorem resetHard_spec_witness :
    resetHard exEnv ⟨["hard"], []⟩ exWorking exHead
      = ((resetHard exEnv ⟨["hard"], []⟩ exWorking exHead).1, .ok ()) ∧
    (resetHard exEnv ⟨["hard"], []⟩ exWorking exHead).1.staged = exHead ∧
    (resetHard exEnv ⟨["hard"], []⟩ exWorking exHead).1.working
      = ⟨[("a", 1), ("b", 2), ("c", 3)], true⟩ ∧
    (∀ n t, exHead.tableAt n = some t →
      (resetHard exEnv ⟨["hard"], []⟩ exWorking exHead).1.working.tableAt n = some t) ∧
    (("t" :: []) ≠ [] ∧ ∃ err, resetHard exEnv ⟨["hard"], ["t"]⟩ exWorking exHead
      = (exEnv, .error err)) :=
  ⟨rfl,
   ((resetHard_spec exEnv ⟨["hard"], []⟩ exWorking exHead).1 _ rfl).2.1,
   by decide,
   ((resetHard_spec exEnv ⟨["hard"], []⟩ exWorking exHead).1 _ rfl).2.2.1,
   by decide,
   (resetHard_spec exEnv ⟨["hard"], ["t"]⟩ exWorking exHead).2.1 (by decide)⟩

end ResetHard

/-! ### C22: the cache of chunk stores -/

section CSCache
open remotesrv

theorem lookup_append_of_some {ω : Type} (cache : DBCache ω) (id id1 : String)
    (v : Option Handle) (h : Option Handle) (hl : cache.lookup id = some h) :
    ({ cache with dbs := cache.dbs ++ [(id1, v)] } : DBCache ω).lookup id = some h := by
  simp only [DBCache.lookup, List.find?_append] at hl ⊢
  cases hf : List.find? (fun e => decide (e.1 = id)) cache.dbs with
  | none => simp [hf] at hl
  | some e => simpa [hf] using hl

theorem lookup_append_self {ω : Type} (cache : DBCache ω) (id : String)
    (v : Option Handle) (hl : cache.lookup id = none) :
    ({ cache with dbs := cache.dbs ++ [(id, v)] } : DBCache ω).lookup id = some v := by
  simp only [DBCache.lookup, List.find?_append] at hl ⊢
  cases hf : List.find? (fun e => decide (e.1 = id)) cache.dbs with
  | none => simp [List.find?]
  | some e => simp [hf] at hl

/-- A call of `Get` on an identifier that has an entry returns the entry and leaves the
cache and the disk as they are: no directory is made and no store is opened. -/
theorem Get_hit {ω : Type} (x : Externals ω) (cache : DBCache ω) (w : ω) (org repo : String)
    (h : Option Handle) (hl : cache.lookup (x.Join org repo) = some h) :
    DBCache.Get x cache w org repo = ((cache, w), .ok h) := by
  simp only [DBCache.Get, hl]

/-- One call of `Get`: what it does to the cache. -/
theorem Get_step {ω : Type} (x : Externals ω) (cache : DBCache ω) (w : ω) (org repo : String) :
    (∀ id h, cache.lookup id = some h →
      (DBCache.Get x cache w org repo).1.1.lookup id = some h) ∧
    (∀ err, (DBCache.Get x cache w org repo).2 = .error err →
      (DBCache.Get x cache w org repo).1.1 = cache) ∧
    (∀ h, (DBCache.Get x cache w org repo).2 = .ok h →
      (DBCache.Get x cache w org repo).1.1.lookup (x.Join org repo) = some h) ∧
    (DBCache.Get x cache w org repo).1.1.fs = cache.fs := by
  unfold DBCache.Get
  simp only
  cases hl : cache.lookup (x.Join org repo) with
  | some cs =>
    refine ⟨fun id h hid => hid, fun err he => rfl, fun h hh => ?_, rfl⟩
    simp only [Except.ok.injEq] at hh
    rw [← hh]; exact hl
  | none =>
    cases hfs : cache.fs with
    | none =>
      simp only
      refine ⟨fun id h hid => lookup_append_of_some cache id _ _ h hid,
        fun err he => by simp at he, fun h hh => ?_, trivial⟩
      simp only [Except.ok.injEq] at hh
      rw [← hh]; exact lookup_append_self cache _ _ hl
    | some fs =>
      simp only
      rcases hm : fs.MkDirs w (x.Join org repo) with ⟨w1, res⟩
      cases res with
      | some err =>
        exact ⟨fun id h hid => hid, fun err he => rfl, fun h hh => by simp at hh, hfs⟩
      | none =>
        simp only
        rcases ho : x.NewLocalStore w1 (x.Join org repo) with ⟨w2, res2⟩
        cases res2 with
        | error err =>
          exact ⟨fun id h hid => hid, fun err he => rfl, fun h hh => by simp at hh, hfs⟩
        | ok newCS =>
          simp only
          refine ⟨fun id h hid => lookup_append_of_some cache id _ _ h hid,
            fun err he => by simp at he, fun h hh => ?_, trivial⟩
          simp only [Except.ok.injEq] at hh
          rw [← hh]; exact lookup_append_self cache _ _ hl

/-- No sequence of calls of `Get` removes or replaces an entry. -/
theorem runGets_keeps {ω : Type} (x : Externals ω) (calls : List (String × String)) :
    ∀ (s : DBCache ω × ω) (id : String) (h : Option Handle),
      s.1.lookup id = some h → (runGets x s calls).1.lookup id = some h := by
  induction calls with
  | nil => intro s id h hl; exact hl
  | cons c rest ih =>
    intro s id h hl
    obtain ⟨org, repo⟩ := c
    simp only [runGets]
    exact ih _ id h ((Get_step x s.1 s.2 org repo).1 id h hl)

/-- C22: the cache starts empty and is filled by `Get`: a call that returns a handle
leaves an entry with that handle under the identifier. Once `Get(org, repo)` has returned
a handle, after any sequence of further calls a call with the same `org` and `repo`
returns the same handle and leaves the cache and the disk as they are, so it opens no
store. A call that returns an error leaves the cache unchanged. No sequence of calls
removes or replaces an entry. -/
theorem Get_cache_spec {ω : Type} (x : Externals ω) (cache : DBCache ω) (w : ω)
    (org repo : String) :
    (∀ fs : Option (Filesys ω), (NewLocalCSCache fs).dbs = []) ∧
    (∀ h, (DBCache.Get x cache w org repo).2 = .ok h →
      (DBCache.Get x cache w org repo).1.1.lookup (x.Join org repo) = some h) ∧
    (∀ h, (DBCache.Get x cache w org repo).2 = .ok h →
      ∀ calls : List (String × String),
        DBCache.Get x (runGets x (DBCache.Get x cache w org repo).1 calls).1
            (runGets x (DBCache.Get x cache w org repo).1 calls).2 org repo
          = (runGets x (DBCache.Get x cache w org repo).1 calls, .ok h)) ∧
    (∀ err, (DBCache.Get x cache w org repo).2 = .error err →
      (DBCache.Get x cache w org repo).1.1 = cache) ∧
    (∀ (calls : List (String × String)) (id : String) (h : Option Handle),
      cache.lookup id = some h → (runGets x (cache, w) calls).1.lookup id = some h) := by
  refine ⟨fun _ => rfl, (Get_step x cache w org repo).2.2.1, ?_,
    (Get_step x cache w org repo).2.1, fun calls id h hl => runGets_keeps x calls _ id h hl⟩
  intro h hok calls
  exact Get_hit x _ _ org repo h
    (runGets_keeps x calls _ _ h ((Get_step x cache w org repo).2.2.1 h hok))

theorem Get_cache_spec_witness :
    (DBCache.Get exStores (NewLocalCSCache (some exFs)) [] "org" "repo").2 = .ok (some 0) ∧
    DBCache.Get exStores
        (runGets exStores (DBCache.Get exStores (NewLocalCSCache (some exFs)) [] "org" "repo").1
          [("bad", "repo"), ("org", "other")]).1
        (runGets exStores (DBCache.Get exStores (NewLocalCSCache (some exFs)) [] "org" "repo").1
          [("bad", "repo"), ("org", "other")]).2 "org" "repo"
      = (runGets exStores (DBCache.Get exStores (NewLocalCSCache (some exFs)) [] "org" "repo").1
          [("bad", "repo"), ("org", "other")], .ok (some 0)) ∧
    (runGets exStores (DBCache.Get exStores (NewLocalCSCache (some exFs)) [] "org" "repo").1
      [("bad", "repo"), ("org", "other")]).2 = ["org/repo", "org/other"] :=
  ⟨rfl,
   (Get_cache_spec exStores (NewLocalCSCache (some exFs)) [] "org" "repo").2.2.1 (some 0) rfl
     [("bad", "repo"), ("org", "other")],
   by decide⟩

end CSCache

/-! ### C18: where the descent of `newCursorAt` ends -/

section CursorDescent
open types

theorem descends_nil (root : orderedSequence) : Descends root [] root := by
  simp [Descends]

theorem descends_snoc (root child : orderedSequence) (ts : List (metaTuple orderedSequence))
    (i : ℤ) (t : metaTuple orderedSequence) (hroot : root = .metaSequence ts) (hi : 0 ≤ i)
    (ht : ts[i.toNat]? = some t) (hc : t.child = child) :
    ∀ (fr : List (orderedSequence × ℤ)) (s : orderedSequence),
      Descends child fr s → Descends root (fr ++ [(root, i)]) s := by
  intro fr
  induction fr with
  | nil =>
    intro s h
    simp only [Descends] at h
    subst h
    exact ⟨⟨ts, t, hroot, hi, ht, hc⟩, rfl⟩
  | cons f rest ih =>
    intro s h
    obtain ⟨p, j⟩ := f
    simp only [Descends, List.cons_append] at h ⊢
    exact ⟨h.1, ih p h.2⟩

theorem newSequenceCursor_frames (parent : Option sequenceCursor) (seq : orderedSequence)
    (last : Bool) (hpos : 0 < seq.seqLen) :
    newSequenceCursor parent seq (if last then -1 else 0)
      = .ok ⟨parentFrames parent, seq, if last then (seq.seqLen : ℤ) - 1 else 0⟩ := by
  cases last with
  | false => simp [newSequenceCursor]
  | true =>
    have h0 : (0 : ℤ) ≤ -1 + (seq.seqLen : ℤ) := by omega
    have h1 : (-1 : ℤ) + (seq.seqLen : ℤ) = (seq.seqLen : ℤ) - 1 := by omega
    have h2 : ¬ seq.seqLen = 0 := by omega
    simp [newSequenceCursor, h0, h1, h2]

/-- The descent of `newCursorAt` in a tree without empty sequences, frame by frame: the
frames it adds lead from the sequence it starts at to the sequence it ends in, each holds
the index the search gives, and it ends in a leaf, or, when `forInsertion` is false, at a
meta sequence all of whose keys are below the probe, with the index at its length. -/
theorem newCursorAtLoop_descent (key : Option Nat) (forInsertion last : Bool) :
    ∀ (fuel : Nat) (seq : orderedSequence) (parent : Option sequenceCursor),
      seq.height < fuel → seq.NonEmpty →
      ∃ (cur : sequenceCursor) (fr : List (orderedSequence × ℤ)),
        newCursorAtLoop fuel parent seq key forInsertion last = .ok cur ∧
        cur.parents = fr ++ parentFrames parent ∧
        Descends seq fr cur.seq ∧
        (∀ f ∈ fr, FrameIdx key forInsertion last f) ∧
        (cur.seq.isLeaf = true ∨
          (forInsertion = false ∧ ∃ (k : Nat) (ts : List (metaTuple orderedSequence)),
            key = some k ∧ cur.seq = .metaSequence ts ∧ (∀ t ∈ ts, t.key < k) ∧
            cur.idx = (ts.length : ℤ))) := by
  intro fuel
  induction fuel with
  | zero => intro seq parent h; omega
  | succ fuel ih =>
    intro seq parent hh hne
    have hpos := seqLen_pos_of_nonEmpty seq hne
    simp only [newCursorAtLoop, newSequenceCursor_frames parent seq last hpos]
    cases seq with
    | leafSequence keys =>
      cases key with
      | none =>
        simp only [sequenceCursor.getChildSequence]
        exact ⟨_, [], rfl, rfl, descends_nil _, fun f hf => absurd hf (List.not_mem_nil f), Or.inl rfl⟩
      | some k =>
        simp only [seekTo, orderedSequence.isLeaf, Bool.not_true, Bool.and_false,
          Bool.false_eq_true, and_false, if_false]
        by_cases hlt : (((orderedSequence.leafSequence keys).search k : Nat) : ℤ)
            < (((orderedSequence.leafSequence keys).seqLen : Nat) : ℤ)
        · simp only [hlt, decide_True, sequenceCursor.getChildSequence]
          exact ⟨_, [], rfl, rfl, descends_nil _, fun f hf => absurd hf (List.not_mem_nil f), Or.inl rfl⟩
        · simp only [hlt, decide_False]
          exact ⟨_, [], rfl, rfl, descends_nil _, fun f hf => absurd hf (List.not_mem_nil f), Or.inl rfl⟩
    | metaSequence ts =>
      simp only [orderedSequence.NonEmpty] at hne
      simp only [orderedSequence.height] at hh
      have hlen : (orderedSequence.metaSequence ts).seqLen = ts.length := by
        simp [orderedSequence.seqLen, orderedSequence.getKeys]
      have hposl : 0 < ts.length := List.length_pos.mpr hne.1
      -- the step into the child of the tuple at index `j`, with the frame `(seq, j)`
      have hchild : ∀ (j : Nat), j < ts.length →
          FrameIdx key forInsertion last (.metaSequence ts, (j : ℤ)) →
          ∃ t, ts[j]? = some t ∧
            ∃ (cur : sequenceCursor) (fr : List (orderedSequence × ℤ)),
              newCursorAtLoop fuel (some ⟨parentFrames parent, .metaSequence ts, (j : ℤ)⟩)
                t.child key forInsertion last = .ok cur ∧
              cur.parents = fr ++ parentFrames parent ∧
              Descends (.metaSequence ts) fr cur.seq ∧
              (∀ f ∈ fr, FrameIdx key forInsertion last f) ∧
              (cur.seq.isLeaf = true ∨
                (forInsertion = false ∧ ∃ (k : Nat) (ts : List (metaTuple orderedSequence)),
                  key = some k ∧ cur.seq = .metaSequence ts ∧ (∀ t ∈ ts, t.key < k) ∧
                  cur.idx = (ts.length : ℤ))) := by
        intro j hj hframe
        have hmem : ts[j] ∈ ts := List.getElem_mem hj
        refine ⟨ts[j], List.getElem?_eq_getElem hj, ?_⟩
        obtain ⟨cur, fr, hrun, hpar, hdesc, hfr, hres⟩ :=
          ih ts[j].child (some ⟨parentFrames parent, .metaSequence ts, (j : ℤ)⟩)
            (by have := height_child_le ts _ hmem; omega) (nonEmpty_child ts hne.2 _ hmem)
        refine ⟨cur, fr ++ [(.metaSequence ts, (j : ℤ))], hrun, ?_, ?_, ?_, hres⟩
        · rw [hpar]
          simp [parentFrames]
        · exact descends_snoc (.metaSequence ts) ts[j].child ts (j : ℤ) ts[j] rfl
            (by omega) (by simp [List.getElem?_eq_getElem hj]) rfl fr cur.seq hdesc
        · intro f hf
          rcases List.mem_append.mp hf with h | h
          · exact hfr f h
          · rw [List.mem_singleton.mp h]; exact hframe
      cases key with
      | none =>
        cases last with
        | false =>
          obtain ⟨t, ht, cur, fr, hrun, hrest⟩ := hchild 0 hposl (by simp [FrameIdx])
          simp only [Bool.false_eq_true, if_false, sequenceCursor.getChildSequence,
            lt_self_iff_false, Int.toNat_zero, ht]
          exact ⟨cur, fr, by simpa using hrun, hrest⟩
        | true =>
          have hcast : ((ts.length - 1 : Nat) : ℤ) = (ts.length : ℤ) - 1 := by omega
          obtain ⟨t, ht, cur, fr, hrun, hrest⟩ := hchild (ts.length - 1) (by omega)
            (by simp only [FrameIdx, hlen, if_true]; exact hcast)
          have hnn : ¬ ((ts.length : ℤ) - 1 < 0) := by omega
          have htn : ((ts.length : ℤ) - 1).toNat = ts.length - 1 := by omega
          rw [hcast] at hrun
          simp only [if_true, hlen, sequenceCursor.getChildSequence, hnn, if_false, htn, ht]
          exact ⟨cur, fr, hrun, hrest⟩
      | some k =>
        have hle := searchKeys_le (ts.map (fun t => t.key)) k
        simp only [List.length_map] at hle
        have hsearch : (orderedSequence.metaSequence ts).search k
            = searchKeys (ts.map (fun t => t.key)) k := rfl
        simp only [seekTo, orderedSequence.isLeaf, Bool.not_false, Bool.and_true, hlen,
          hsearch]
        by_cases hfull : searchKeys (ts.map (fun t => t.key)) k = ts.length
        · cases forInsertion with
          | true =>
            have hcast : ((ts.length - 1 : Nat) : ℤ) = (ts.length : ℤ) - 1 := by omega
            obtain ⟨t, ht, cur, fr, hrun, hrest⟩ := hchild (ts.length - 1) (by omega)
              (by
                simp only [FrameIdx, hlen, hsearch]
                exact Or.inr ⟨hfull, trivial, hcast⟩)
            have h1 : (0 : ℤ) < (ts.length : ℤ) := by omega
            have h2 : (ts.length : ℤ) - 1 < (ts.length : ℤ) := by omega
            have hnn : ¬ ((ts.length : ℤ) - 1 < 0) := by omega
            have htn : ((ts.length : ℤ) - 1).toNat = ts.length - 1 := by omega
            rw [hcast] at hrun
            simp only [hfull, and_self, if_true, h1, h2, decide_True,
              sequenceCursor.getChildSequence, hnn, if_false, htn, ht]
            exact ⟨cur, fr, hrun, hrest⟩
          | false =>
            simp only [hfull, Bool.false_eq_true, and_false, if_false, lt_self_iff_false,
              decide_False]
            have hall : ∀ t ∈ ts, t.key < k := by
              intro t ht
              exact searchKeys_eq_length (ts.map (fun t => t.key)) k
                (by simpa using hfull) t.key (List.mem_map_of_mem _ ht)
            exact ⟨_, [], rfl, rfl, descends_nil _, fun f hf => absurd hf (List.not_mem_nil f),
              Or.inr ⟨trivial, k, ts, rfl, rfl, hall, rfl⟩⟩
        · have hlt : searchKeys (ts.map (fun t => t.key)) k < ts.length := by omega
          have hne2 : ¬ (((searchKeys (ts.map (fun t => t.key)) k : Nat) : ℤ)
              = (ts.length : ℤ)) := by omega
          have hlt2 : ((searchKeys (ts.map (fun t => t.key)) k : Nat) : ℤ)
              < (ts.length : ℤ) := by omega
          have hnn : ¬ (((searchKeys (ts.map (fun t => t.key)) k : Nat) : ℤ) < 0) := by
            omega
          obtain ⟨t, ht, cur, fr, hrun, hrest⟩ := hchild _ hlt
            (by
              simp only [FrameIdx, hlen, hsearch]
              exact Or.inl ⟨hlt, trivial⟩)
          simp only [hne2, false_and, if_false, hlt2, decide_True,
            sequenceCursor.getChildSequence, hnn, Int.toNat_ofNat, ht]
          exact ⟨cur, fr, hrun, hrest⟩

theorem descends_frames_meta (root : orderedSequence) :
    ∀ (fr : List (orderedSequence × ℤ)) (s : orderedSequence), Descends root fr s →
      ∀ f ∈ fr, ∃ ts, f.1 = .metaSequence ts := by
  intro fr
  induction fr with
  | nil => intro s _ f hf; cases hf
  | cons g rest ih =>
    intro s h f hf
    obtain ⟨p, i⟩ := g
    simp only [Descends] at h
    rcases List.mem_cons.mp hf with heq | hin
    · obtain ⟨ts, -, hp, -⟩ := h.1
      exact ⟨ts, by rw [heq]; exact hp⟩
    · exact ih p h.2 f hin

/-- C18 (amended): in a tree without empty sequences, for every probe key and both
values of `forInsertion` (and of `last`), `newCursorAt` returns a cursor for every large
enough fuel. The frames of the cursor lead level by level from the root to its sequence,
each at the index the search gives. The sequence of the cursor is a leaf sequence, except
that with `forInsertion` false the descent returns at the first meta sequence on its way
all of whose keys are smaller than the probe key, with the index at the length of that
sequence: the cursor is in a leaf or at such a meta sequence, and every meta sequence it
has passed holds a key that is not below the probe. With `forInsertion` true, and with an
empty probe key, the sequence of the returned cursor is always a leaf sequence. -/
theorem newCursorAt_stops_at_leaf (seq : orderedSequence) (key : Option Nat)
    (forInsertion last : Bool) (hne : seq.NonEmpty) :
    ∃ F, ∀ fuel, F ≤ fuel →
      ∃ cur : sequenceCursor, newCursorAt fuel seq key forInsertion last = .ok cur ∧
        Descends seq cur.parents cur.seq ∧
        (∀ f ∈ cur.parents, FrameIdx key forInsertion last f) ∧
        (forInsertion = false → ∀ k, key = some k → ∀ f ∈ cur.parents,
          ∃ ts, f.1 = .metaSequence ts ∧ ∃ t ∈ ts, k ≤ t.key) ∧
        (cur.seq.isLeaf = true ∨
          (forInsertion = false ∧ ∃ (k : Nat) (ts : List (metaTuple orderedSequence)),
            key = some k ∧ cur.seq = .metaSequence ts ∧ (∀ t ∈ ts, t.key < k) ∧
            cur.idx = (ts.length : ℤ))) ∧
        (forInsertion = true → cur.seq.isLeaf = true) ∧
        (key = none → cur.seq.isLeaf = true) := by
  refine ⟨seq.height + 1, ?_⟩
  intro fuel hf
  obtain ⟨cur, fr, hrun, hpar, hdesc, hfr, hres⟩ :=
    newCursorAtLoop_descent key forInsertion last fuel seq none (by omega) hne
  have hfrs : cur.parents = fr := by
    rw [hpar]; simp [parentFrames]
  rw [← hfrs] at hdesc hfr
  refine ⟨cur, hrun, hdesc, hfr, ?_, hres, ?_, ?_⟩
  · intro hfi k hk f hmem
    obtain ⟨ts, hts⟩ := descends_frames_meta seq cur.parents cur.seq hdesc f hmem
    refine ⟨ts, hts, ?_⟩
    have hframe := hfr f hmem
    rw [hk] at hframe
    simp only [FrameIdx, hts, orderedSequence.search, orderedSequence.seqLen,
      orderedSequence.getKeys, List.length_map] at hframe
    rcases hframe with ⟨hlt, -⟩ | ⟨-, hfi2, -⟩
    · by_contra hall
      push_neg at hall
      have := searchKeys_all_lt (ts.map (fun t => t.key)) k (by
        intro x hx
        obtain ⟨t, ht, rfl⟩ := List.mem_map.mp hx
        exact hall t ht)
      simp only [List.length_map] at this
      omega
    · rw [hfi] at hfi2; cases hfi2
  · intro hfi
    rcases hres with h | ⟨h, -⟩
    · exact h
    · rw [hfi] at h; cases h
  · intro hk
    rcases hres with h | ⟨-, k, ts, h, -⟩
    · exact h
    · rw [hk] at h; cases h

/-- In `exTree` the probe 10, above every key, ends in the last leaf when `forInsertion`
is true; the probe 7 with `forInsertion` false passes the root at index 1 and ends in the
leaf with the keys 6 and 9. -/
theorem newCursorAt_stops_at_leaf_witness :
    (∃ cur : sequenceCursor, newCursorAt 2 exTree (some 10) true false = .ok cur ∧
      cur.seq = .leafSequence [6, 9] ∧ cur.idx = 2) ∧
    (∃ cur : sequenceCursor, newCursorAt 2 exTree (some 7) false false = .ok cur ∧
      cur.seq = .leafSequence [6, 9] ∧ cur.idx = 1 ∧ cur.parents = [(exTree, 1)]) ∧
    (∃ F, ∀ fuel, F ≤ fuel →
      ∃ cur : sequenceCursor, newCursorAt fuel exTree (some 10) true false = .ok cur ∧
        cur.seq.isLeaf = true) ∧
    (∃ F, ∀ fuel, F ≤ fuel →
      ∃ cur : sequenceCursor, newCursorAt fuel exTree (some 7) false false = .ok cur ∧
        Descends exTree cur.parents cur.seq ∧
        ∀ f ∈ cur.parents, ∃ ts, f.1 = .metaSequence ts ∧ ∃ t ∈ ts, 7 ≤ t.key) :=
  ⟨⟨_, rfl, rfl, rfl⟩, ⟨_, rfl, rfl, rfl, rfl⟩,
   (newCursorAt_stops_at_leaf exTree (some 10) true false exTree_nonEmpty).imp
     (fun _ h fuel hf => (h fuel hf).imp (fun _ hc => ⟨hc.1, hc.2.2.2.2.2.1 rfl⟩)),
   (newCursorAt_stops_at_leaf exTree (some 7) false false exTree_nonEmpty).imp
     (fun _ h fuel hf => (h fuel hf).imp
       (fun _ hc => ⟨hc.1, hc.2.1, hc.2.2.2.1 rfl 7 rfl⟩))⟩

end CursorDescent

end Dolt
